import Mathlib

/-!
Charted: ownership graph to hierarchy engine.

A shallow embedding of the hierarchy engine of `static/js/app.js`
(`buildTreeRecursive`, `detectCircularReferences`, `buildHierarchy`,
`findAllShareholders`, `findAllSubsidiaries`, `buildFocusedHierarchy`) together
with the properties established for it.

Conventions of the embedding:

* ids are JavaScript strings, modelled by `String`;
* a percentage is either JavaScript `null` (`none`) or some non-null value of
  an arbitrary type `P` (`some p`): the engine only ever tests a percentage
  against `null` and copies it, so nothing else about `P` is needed here;
* a JavaScript `Set` of ids is a list of ids, `visited.has x` being `x ∈ visited`
  and `visited.add x` being `x :: visited`;
* an object property that may be missing is an `Option`, `none` standing for
  the missing property;
* a recursive JavaScript function `f` is first given as `fFuel`, the run of its
  body with a bound on the depth of the call stack (`none` when the bound is
  reached), and then as the total function `f`, the result of the run with a
  bound that is proved to be enough.
-/

namespace Charted

/-! ## Data model -/

/-- The `type` tag of a node object: `'entity'` or `'person'`. -/
inductive NodeType where
  | entity
  | person
  deriving DecidableEq, Repr

/-- A node object as built by `getFilteredData` and `buildHierarchy`:
entity nodes are `{id, name, jurisdiction, type: 'entity'}`, person nodes are
`{id, name, role, entityId, type: 'person'}`. -/
structure Node where
  id : String
  name : String
  type : NodeType
  jurisdiction : Option String
  role : Option String
  entityId : Option String
  deriving DecidableEq, Repr

/-- A link object `{source, target, ownership}`; `ownership = none` is
JavaScript `null`. -/
structure Link (P : Type) where
  source : String
  target : String
  ownership : Option P
  deriving DecidableEq, Repr

/-- A tree node `{...node, children, ownershipPerc}` as returned by
`buildTreeRecursive`. The property `ownershipPerc` is missing on a root
(`none`), `null` on a person leaf (`some none`) and the percentage of the
producing link on every other child (`some link.ownership`). -/
inductive HierarchyNode (P : Type) where
  | mk (node : Node) (children : List (HierarchyNode P))
      (ownershipPerc : Option (Option P))
  deriving Repr

namespace HierarchyNode

variable {P : Type}

/-- The node fields spread into the tree node (`...node`). -/
def node : HierarchyNode P → Node
  | mk n _ _ => n

/-- The `children` array of a tree node. -/
def children : HierarchyNode P → List (HierarchyNode P)
  | mk _ cs _ => cs

/-- The `ownershipPerc` property of a tree node. -/
def ownershipPerc : HierarchyNode P → Option (Option P)
  | mk _ _ p => p

/-- The assignment `childTree.ownershipPerc = v`. -/
def setOwnershipPerc (v : Option P) : HierarchyNode P → HierarchyNode P
  | mk n cs _ => mk n cs (some v)

end HierarchyNode

/-! ## `buildTreeRecursive` -/

section BuildTree

variable {P : Type}

/-- Turns the per-call results of a loop into the result of the loop: the loop
completes when every call completed. -/
def allCompleted {α : Type} : List (Option α) → Option (List α)
  | [] => some []
  | none :: _ => none
  | some a :: rest => (allCompleted rest).map (fun as => a :: as)

/-- The body of `buildTreeRecursive` (app.js 1385-1435), run with a bound
`fuel` on the depth of the call stack: `none` means that the bound was reached
before the call returned.

In `children`, an entry `some none` is the `null` returned by the `map`
callback for a link whose target resolves to no node; `.filter(Boolean)`
removes these entries. -/
def buildTreeFuel : Nat → Node → List Node → List (Link P) → List String →
    Option (HierarchyNode P)
  | 0, _, _, _, _ => none
  | fuel + 1, node, allNodes, allLinks, visited =>
    if node.id ∈ visited then
      some (HierarchyNode.mk node [] none)
    else
      let visited := node.id :: visited
      let childLinks := allLinks.filter
        (fun link => link.source == node.id && link.ownership.isSome)
      let children := childLinks.map (fun link =>
        match allNodes.find? (fun n => n.id == link.target) with
        | some childNode =>
          (buildTreeFuel fuel childNode allNodes allLinks visited).map
            (fun childTree => some (childTree.setOwnershipPerc link.ownership))
        | none => some none)
      let persons := allNodes.filter
        (fun n => n.type == NodeType.person && n.entityId == some node.id)
      let personChildren := persons.map
        (fun person => HierarchyNode.mk person [] (some none))
      (allCompleted children).map (fun cs =>
        HierarchyNode.mk node (cs.filterMap id ++ personChildren) none)

/-- The function `buildTreeRecursive(node, allNodes, allLinks, visited)`. The call
stack never gets deeper than `allNodes.length + 2` (`buildTreeFuel_complete`),
so the fallback value is never used. -/
def buildTreeRecursive (node : Node) (allNodes : List Node)
    (allLinks : List (Link P)) (visited : List String) : HierarchyNode P :=
  (buildTreeFuel (allNodes.length + 2) node allNodes allLinks visited).getD
    (HierarchyNode.mk node [] none)

/-- The constant `childLinks` of `buildTreeRecursive`. -/
def childLinks (allLinks : List (Link P)) (id : String) : List (Link P) :=
  allLinks.filter (fun link => link.source == id && link.ownership.isSome)

/-- The constant `personChildren` of `buildTreeRecursive`. -/
def personChildren (allNodes : List Node) (id : String) : List (HierarchyNode P) :=
  (allNodes.filter (fun n => n.type == NodeType.person && n.entityId == some id)).map
    (fun person => HierarchyNode.mk person [] (some none))

/-- The callback of `childLinks.map` in `buildTreeRecursive`, the recursive call
being `call`. -/
def childCallback (call : Node → Option (HierarchyNode P)) (allNodes : List Node)
    (link : Link P) : Option (Option (HierarchyNode P)) :=
  match allNodes.find? (fun n => n.id == link.target) with
  | some childNode =>
    (call childNode).map (fun childTree => some (childTree.setOwnershipPerc link.ownership))
  | none => some none

/-- The number of ids of `allNodes` that are not in `visited`. -/
def unvisitedCount (allNodes : List Node) (visited : List String) : Nat :=
  ((allNodes.map (fun n => n.id)).toFinset \ visited.toFinset).card

/-- The constant `children` of `buildTreeRecursive` (after `.filter(Boolean)`), for
a node whose id is not in `visited`: one subtree per child link whose target
resolves, carrying the percentage of the link. -/
def entityChildren (node : Node) (allNodes : List Node) (allLinks : List (Link P))
    (visited : List String) : List (HierarchyNode P) :=
  (childLinks allLinks node.id).filterMap (fun link =>
    (allNodes.find? (fun n => n.id == link.target)).map (fun childNode =>
      (buildTreeRecursive childNode allNodes allLinks (node.id :: visited)).setOwnershipPerc
        link.ownership))

/-! ## Trees: occurrences and paths -/

mutual
/-- Every node occurrence of a tree, each paired with the ids of its proper
ancestors, nearest ancestor first; `anc` are the ancestors of the tree itself. -/
def occurrencesFrom (anc : List String) :
    HierarchyNode P → List (List String × HierarchyNode P)
  | HierarchyNode.mk n cs p =>
    (anc, HierarchyNode.mk n cs p) :: occurrencesList (n.id :: anc) cs
/-- The occurrences of a list of sibling trees. -/
def occurrencesList (anc : List String) :
    List (HierarchyNode P) → List (List String × HierarchyNode P)
  | [] => []
  | c :: cs => occurrencesFrom anc c ++ occurrencesList anc cs
end

/-- The root-to-leaf paths of a tree, each as the sequence of the ids met from
the root down to a childless node. -/
def rootToLeafPaths (t : HierarchyNode P) : List (List String) :=
  ((occurrencesFrom [] t).filter (fun o => o.2.children.isEmpty)).map
    (fun o => (o.2.node.id :: o.1).reverse)

/-! ## Vocabulary of the specification -/

/-- The ownership links (non-null percentage) of `allLinks` with source `id`
whose target resolves to a node of `allNodes`, in link-list order. -/
def resolvingOwnershipLinks (allNodes : List Node) (allLinks : List (Link P))
    (id : String) : List (Link P) :=
  allLinks.filter (fun link => decide (link.source = id) && link.ownership.isSome &&
    allNodes.any (fun n => decide (n.id = link.target)))

/-- The person nodes of `allNodes` whose `entityId` is `id`, in node-list order. -/
def personsOf (allNodes : List Node) (id : String) : List Node :=
  allNodes.filter (fun n => decide (n.type = NodeType.person) && decide (n.entityId = some id))

/-- A childless leaf with a `null` percentage. -/
def personLeaf (person : Node) : HierarchyNode P :=
  HierarchyNode.mk person [] (some none)

/-- The tree node `c` was produced by `link`: it carries the first node of
`allNodes` whose id is the target of the link, and the percentage of the link. -/
def ProducedBy (allNodes : List Node) (link : Link P) (c : HierarchyNode P) : Prop :=
  allNodes.find? (fun n => n.id == link.target) = some c.node ∧
    c.ownershipPerc = some link.ownership

/-- The tree node `t` is not truncated: its children are one child per resolving
ownership link out of its id, in link order, followed by its person leaves. -/
def FullyExpanded (allNodes : List Node) (allLinks : List (Link P))
    (t : HierarchyNode P) : Prop :=
  ∃ ec : List (HierarchyNode P),
    t.children = ec ++ (personsOf allNodes t.node.id).map personLeaf ∧
    List.Forall₂ (ProducedBy allNodes) (resolvingOwnershipLinks allNodes allLinks t.node.id) ec

/-- There is a link of `links` from `a` to `b` with a non-null percentage. -/
def OwnershipEdge (links : List (Link P)) (a b : String) : Prop :=
  ∃ l ∈ links, l.source = a ∧ l.target = b ∧ l.ownership ≠ none

/-- A non-empty directed path of ownership links from `a` to `b`. -/
def OwnershipPath (links : List (Link P)) (a b : String) : Prop :=
  Relation.TransGen (OwnershipEdge links) a b

/-- The ownership links contain no directed cycle (and no self-loop). -/
def Acyclic (links : List (Link P)) : Prop :=
  ∀ x, ¬ OwnershipPath links x x

/-- The calls `buildTreeRecursive(node, allNodes, allLinks, visited)` that are made,
directly or not, by the call for `root` with visited set `visited₀`. -/
inductive Called (allNodes : List Node) (allLinks : List (Link P)) (root : Node)
    (visited₀ : List String) : Node → List String → Prop where
  | root : Called allNodes allLinks root visited₀ root visited₀
  | child {node : Node} {visited : List String} {link : Link P} {childNode : Node} :
      Called allNodes allLinks root visited₀ node visited →
      node.id ∉ visited →
      link ∈ childLinks allLinks node.id →
      allNodes.find? (fun n => n.id == link.target) = some childNode →
      Called allNodes allLinks root visited₀ childNode (node.id :: visited)

/-- How an occurrence `o` got into the tree of the call for `root` with visited
set `visited₀`: it is the root, or the child produced for a link by an expanding
call, or a person leaf attached by an expanding call. -/
inductive OccurrenceKind (allNodes : List Node) (allLinks : List (Link P)) (root : Node)
    (visited₀ : List String) (o : List String × HierarchyNode P) : Prop where
  | root : o = (visited₀, buildTreeRecursive root allNodes allLinks visited₀) →
      OccurrenceKind allNodes allLinks root visited₀ o
  | entityChild (parent : Node) (visited : List String) (link : Link P) (childNode : Node) :
      Called allNodes allLinks root visited₀ parent visited →
      parent.id ∉ visited →
      link ∈ childLinks allLinks parent.id →
      allNodes.find? (fun n => n.id == link.target) = some childNode →
      o = (parent.id :: visited,
        (buildTreeRecursive childNode allNodes allLinks (parent.id :: visited)).setOwnershipPerc
          link.ownership) →
      OccurrenceKind allNodes allLinks root visited₀ o
  | personLeaf (parent : Node) (visited : List String) (person : Node) :
      Called allNodes allLinks root visited₀ parent visited →
      parent.id ∉ visited →
      person ∈ allNodes →
      person.type = NodeType.person →
      person.entityId = some parent.id →
      o = (parent.id :: visited, HierarchyNode.mk person [] (some none)) →
      OccurrenceKind allNodes allLinks root visited₀ o

end BuildTree

/-! ## `detectCircularReferences` -/

section DetectCycles

variable {P : Type}

/-- The mutable collections `cycles`, `visited` and `recursionStack` of
`detectCircularReferences`. -/
structure DfsState where
  cycles : List (List String)
  visited : List String
  recursionStack : List String
  deriving DecidableEq, Repr

/-- The method `add` of a JavaScript `Set`, which keeps insertion order. -/
def setAdd (s : List String) (x : String) : List String :=
  if x ∈ s then s else s ++ [x]

/-- The set `entityIds` of `detectCircularReferences`, in iteration order. -/
def collectEntityIds (ownershipLinks : List (Link P)) : List String :=
  ownershipLinks.foldl (fun ids link => setAdd (setAdd ids link.source) link.target) []

/-- The expression `path.slice(path.indexOf(entityId))`; `indexOf` is `-1` when the
id is not in the path, and `slice(-1)` keeps the last element. -/
def sliceFromIndexOf (path : List String) (entityId : String) : List String :=
  if entityId ∈ path then path.drop (path.indexOf entityId)
  else path.drop (path.length - 1)

/-- The loop `for (const child of children) { if (dfs(child, [...path])) break; }`,
the call `dfs(child, [...path])` being `call child`. -/
def dfsChildren (call : String → DfsState → Option (Bool × DfsState)) :
    List String → DfsState → Option DfsState
  | [], st => some st
  | child :: rest, st =>
    match call child st with
    | none => none
    | some (true, st') => some st'
    | some (false, st') => dfsChildren call rest st'

/-- The inner function `dfs(entityId, path)` of `detectCircularReferences`
(app.js 1342-1372), as a function of the state it mutates, run with a bound
`fuel` on the depth of the call stack. -/
def dfsFuel (ownershipLinks : List (Link P)) :
    Nat → String → List String → DfsState → Option (Bool × DfsState)
  | 0, _, _, _ => none
  | fuel + 1, entityId, path, st =>
    if entityId ∈ st.recursionStack then
      let cycle := sliceFromIndexOf path entityId ++ [entityId]
      some (true, { st with cycles := st.cycles ++ [cycle] })
    else if entityId ∈ st.visited then
      some (false, st)
    else
      let st := { st with visited := entityId :: st.visited,
                          recursionStack := entityId :: st.recursionStack }
      let path := path ++ [entityId]
      let children := (ownershipLinks.filter (fun link => link.source == entityId)).map
        (fun link => link.target)
      (dfsChildren (fun child s => dfsFuel ownershipLinks fuel child path s) children st).map
        (fun st => (false,
          { st with recursionStack := st.recursionStack.filter (fun x => x != entityId) }))

/-- The loop `for (const entityId of entityIds) { if (!visited.has(entityId)) dfs(entityId); }`,
the call `dfs(entityId)` being `call entityId`. -/
def dfsRoots (call : String → DfsState → Option (Bool × DfsState)) :
    List String → DfsState → Option DfsState
  | [], st => some st
  | entityId :: rest, st =>
    if entityId ∈ st.visited then dfsRoots call rest st
    else
      match call entityId st with
      | none => none
      | some (_, st') => dfsRoots call rest st'

/-- The body of `detectCircularReferences` (app.js 1328-1382) with a bound `fuel` on
the depth of the call stack of `dfs`. -/
def detectCircularReferencesFuel (fuel : Nat) (links : List (Link P)) :
    Option (List (List String)) :=
  let ownershipLinks := links.filter (fun link => link.ownership.isSome)
  let entityIds := collectEntityIds ownershipLinks
  (dfsRoots (fun entityId s => dfsFuel ownershipLinks fuel entityId [] s) entityIds
    { cycles := [], visited := [], recursionStack := [] }).map (fun st => st.cycles)

/-- The function `detectCircularReferences(links)`. The call stack of `dfs` never gets
deeper than one plus the number of ids met in the ownership links, at most
`2 * links.length + 1` (`detectCircularReferencesFuel_complete`), so the fallback
value is never used. -/
def detectCircularReferences (links : List (Link P)) : List (List String) :=
  (detectCircularReferencesFuel (2 * links.length + 1) links).getD []

end DetectCycles

/-! ## `buildHierarchy` -/

section BuildHierarchy

variable {P : Type}

/-- A record of `orgChartData.entities`. -/
structure Entity where
  ENTITY_ID : String
  ENTITY_NAME : String
  ENTITY_TAX_JURISDICTION : Option String
  deriving DecidableEq, Repr

/-- A record of `orgChartData.ownership`; `OWNERSHIP_PERC = none` is `null`. -/
structure OwnershipRelation (P : Type) where
  PARENT_ID : String
  CHILD_ID : String
  OWNERSHIP_PERC : Option P
  deriving DecidableEq, Repr

/-- A record of `orgChartData.persons`. -/
structure Person where
  PERSON_ID : String
  PERSON_NAME : String
  PERSON_ROLE : Option String
  ENTITY_ID : Option String
  deriving DecidableEq, Repr

/-- The global `orgChartData`: the full, unfiltered dataset. -/
structure OrgChartData (P : Type) where
  entities : List Entity
  ownership : List (OwnershipRelation P)
  persons : List Person

/-- What a call of `buildHierarchy` does: the forest it returns, the cycles shown in
the warning toast when `showError` is called, the arguments of the call of
`showRootSelectionDialog` when there is one, and the value of the global
`userSelectedRootId` when the call returns. -/
structure HierarchyOutcome (P : Type) where
  forest : List (HierarchyNode P)
  circularWarning : Option (List (List String))
  rootSelectionDialog : Option (List Node × List Node)
  userSelectedRootId : Option String

/-- The test `if (userSelectedRootId)` on a value that is `null` or a string: `null`
and the empty string are falsy. -/
def truthy : Option String → Bool
  | none => false
  | some s => s != ""

/-- The constant `fullNodes` of `buildHierarchy`. -/
def fullNodes (orgChartData : OrgChartData P) : List Node :=
  orgChartData.entities.map (fun entity =>
    { id := entity.ENTITY_ID, name := entity.ENTITY_NAME, type := NodeType.entity,
      jurisdiction := entity.ENTITY_TAX_JURISDICTION, role := none, entityId := none })

/-- The constant `fullLinks` of `buildHierarchy`. -/
def fullLinks (orgChartData : OrgChartData P) : List (Link P) :=
  orgChartData.ownership.map (fun rel =>
    { source := rel.PARENT_ID, target := rel.CHILD_ID, ownership := rel.OWNERSHIP_PERC })

/-- The constant `trueRoots` of `buildHierarchy`. -/
def trueRoots (orgChartData : OrgChartData P) : List Node :=
  (fullNodes orgChartData).filter (fun node =>
    node.type == NodeType.entity &&
    !(fullLinks orgChartData).any (fun link => link.target == node.id && link.ownership.isSome))

/-- The function `buildHierarchy(nodes, links)` (app.js 1188-1260), as a function of the
globals `orgChartData` and `userSelectedRootId` it reads. The three cases of the
`match` on `trueRoots` are the tests `trueRoots.length === 1`,
`trueRoots.length === 0` and their `else`. -/
def buildHierarchy (orgChartData : OrgChartData P) (userSelectedRootId : Option String)
    (nodes : List Node) (links : List (Link P)) : HierarchyOutcome P :=
  let circularRefs := detectCircularReferences links
  let circularWarning := if circularRefs.length > 0 then some circularRefs else none
  if truthy userSelectedRootId then
    match nodes.find? (fun n => some n.id == userSelectedRootId) with
    | some userRoot =>
      { forest := [buildTreeRecursive userRoot nodes links []],
        circularWarning := circularWarning,
        rootSelectionDialog := none,
        userSelectedRootId := userSelectedRootId }
    | none =>
      { forest := [],
        circularWarning := circularWarning,
        rootSelectionDialog := none,
        userSelectedRootId := userSelectedRootId }
  else
    match trueRoots orgChartData with
    | [trueRoot] =>
      match nodes.find? (fun n => n.id == trueRoot.id) with
      | some filteredRoot =>
        { forest := [buildTreeRecursive filteredRoot nodes links []],
          circularWarning := circularWarning,
          rootSelectionDialog := none,
          userSelectedRootId := userSelectedRootId }
      | none =>
        { forest := [],
          circularWarning := circularWarning,
          rootSelectionDialog := none,
          userSelectedRootId := userSelectedRootId }
    | [] =>
      { forest := [],
        circularWarning := circularWarning,
        rootSelectionDialog := some ([], fullNodes orgChartData),
        userSelectedRootId := userSelectedRootId }
    | trueRoot :: second :: others =>
      let availableTrueRoots := (trueRoot :: second :: others).filter
        (fun root => nodes.any (fun n => n.id == root.id))
      { forest := [],
        circularWarning := circularWarning,
        rootSelectionDialog := some
          (if availableTrueRoots.length > 0 then availableTrueRoots
            else trueRoot :: second :: others,
           fullNodes orgChartData),
        userSelectedRootId := userSelectedRootId }

/-- The constant `personLinks` of `getFilteredData` (app.js 524-531): one attachment
link, from the person to its entity and with a `null` percentage, for every
person node with a truthy `entityId` that is the id of a node. After the first
filter `entityId` is a string, the target of the link. -/
def personLinks (nodes : List Node) : List (Link P) :=
  ((nodes.filter (fun n => n.type == NodeType.person && truthy n.entityId)).filter
    (fun person => nodes.any (fun entity => some entity.id == person.entityId))).filterMap
    (fun person => person.entityId.map (fun target =>
      { source := person.id, target := target, ownership := none }))

/-- The entity `e` is the child of no ownership relation of the full dataset with
a non-null percentage. -/
def NoIncomingOwnership (orgChartData : OrgChartData P) (e : Entity) : Prop :=
  ∀ rel ∈ orgChartData.ownership, rel.CHILD_ID = e.ENTITY_ID → rel.OWNERSHIP_PERC = none

end BuildHierarchy

/-! ## Sample data -/

/-- An entity node whose name is its id. -/
def entityNode (id : String) : Node :=
  { id := id, name := id, type := NodeType.entity, jurisdiction := none,
    role := none, entityId := none }

/-- A person node whose name is its id. -/
def personNode (id : String) (entityId : Option String) : Node :=
  { id := id, name := id, type := NodeType.person, jurisdiction := none,
    role := none, entityId := entityId }

/-- An ownership link with a percentage. -/
def own (source target : String) (perc : Nat) : Link Nat :=
  { source := source, target := target, ownership := some perc }


/-- The two entities of a two-cycle. -/
def cycleNodes : List Node := [entityNode "A", entityNode "B"]

/-- The two-cycle A→B, B→A. -/
def cycleLinks : List (Link Nat) := [own "A" "B" 60, own "B" "A" 40]

/-- The truncated occurrence of A in the tree of the two-cycle rooted at A. -/
def cycleLeaf : HierarchyNode Nat :=
  HierarchyNode.mk (entityNode "A") [] (some (some 40))

/-- The tree A[B[A[]]]. -/
def cycleTree : HierarchyNode Nat :=
  HierarchyNode.mk (entityNode "A")
    [HierarchyNode.mk (entityNode "B") [cycleLeaf] (some (some 60))] none

/-- The entities A, B, C of the end-to-end scenarios. -/
def scenarioNodes : List Node := [entityNode "A", entityNode "B", entityNode "C"]

/-- The links A→B:60, A→C:40 of end-to-end scenario 1. -/
def scenarioLinks : List (Link Nat) := [own "A" "B" 60, own "A" "C" 40]

/-- The diamond A→B, A→C, B→D, C→D. -/
def diamondLinks : List (Link Nat) :=
  [own "A" "B" 60, own "A" "C" 40, own "B" "D" 30, own "C" "D" 70]

/-- The four entities of the diamond. -/
def diamondNodes : List Node :=
  [entityNode "A", entityNode "B", entityNode "C", entityNode "D"]

/-- A rank that every link of the diamond increases. -/
def diamondRank (id : String) : Nat :=
  if id = "A" then 0 else if id = "D" then 2 else 1

/-- The tree of the diamond rooted at A: D occurs under B and under C. -/
def diamondTree : HierarchyNode Nat :=
  HierarchyNode.mk (entityNode "A")
    [HierarchyNode.mk (entityNode "B")
       [HierarchyNode.mk (entityNode "D") [] (some (some 30))] (some (some 60)),
     HierarchyNode.mk (entityNode "C")
       [HierarchyNode.mk (entityNode "D") [] (some (some 70))] (some (some 40))]
    none

/-- The entities A and B and a person P of A. -/
def ownerPersonNodes : List Node :=
  [entityNode "A", entityNode "B", personNode "P" (some "A")]

/-- An ownership link whose source is the id of the person P, and the attachment
link of P. -/
def ownerPersonLinks : List (Link Nat) :=
  [own "P" "B" 50, { source := "P", target := "A", ownership := none }]

/-- A rank that the link P→B increases. -/
def ownerPersonRank (id : String) : Nat :=
  if id = "P" then 0 else 1

/-- An entity A with two persons, an entity B, and a person with no `entityId`. -/
def staffNodes : List Node :=
  [entityNode "A", personNode "P1" (some "A"), entityNode "B", personNode "P2" none,
   personNode "P3" (some "A")]

/-- The link A→B:60. -/
def staffLinks : List (Link Nat) := [own "A" "B" 60]

/-- An entity A and a person P of A. -/
def attachmentNodes : List Node := [entityNode "A", personNode "P" (some "A")]

/-- The attachment link from the person P to the entity A, with a `null`
percentage. -/
def attachmentLinks : List (Link Nat) :=
  [{ source := "P", target := "A", ownership := none }]

/-- The full dataset of end-to-end scenario 2: entities A, B, C and the
relations A→B:60, B→C:70, C→A:10. -/
def cyclicData : OrgChartData Nat :=
  { entities := [⟨"A", "A", none⟩, ⟨"B", "B", none⟩, ⟨"C", "C", none⟩],
    ownership := [⟨"A", "B", some 60⟩, ⟨"B", "C", some 70⟩, ⟨"C", "A", some 10⟩],
    persons := [] }

/-- The links of end-to-end scenario 2. -/
def cyclicLinks : List (Link Nat) := [own "A" "B" 60, own "B" "C" 70, own "C" "A" 10]

/-- The full dataset of end-to-end scenario 1: entities A, B, C and the
relations A→B:60, A→C:40. -/
def scenarioData : OrgChartData Nat :=
  { entities := [⟨"A", "A", none⟩, ⟨"B", "B", none⟩, ⟨"C", "C", none⟩],
    ownership := [⟨"A", "B", some 60⟩, ⟨"A", "C", some 40⟩],
    persons := [] }

/-! ## `findAllShareholders` and `findAllSubsidiaries` -/

section Closures

variable {P : Type}

/-- The expression `[...new Set(xs)]`: the elements of `xs` without duplicates, each
at the place of its first occurrence. -/
def uniq (xs : List String) : List String :=
  xs.foldl setAdd []

/-- The loop `links.forEach(link => { found.push(id); found.push(...call(id)); })`
of `findAllShareholders` and `findAllSubsidiaries`, where `id` is `idOf link`
and `call` is the recursive call; the loop acts on the array `found` and on the
set `visited`, which all the calls share. -/
def collectEach (idOf : Link P → String)
    (call : String → List String → Option (List String × List String)) :
    List (Link P) → List String → List String → Option (List String × List String)
  | [], found, visited => some (found, visited)
  | link :: rest, found, visited =>
    match call (idOf link) visited with
    | none => none
    | some (more, visited') =>
      collectEach idOf call rest (found ++ [idOf link] ++ more) visited'

/-- The body of `findAllShareholders` (app.js 766-787), run with a bound `fuel` on
the depth of the call stack. The set `visited` is passed by reference and
mutated, so the run returns the array together with the set as the call leaves
it. -/
def findAllShareholdersFuel : Nat → String → List (Link P) → List String →
    Option (List String × List String)
  | 0, _, _, _ => none
  | fuel + 1, entityId, allLinks, visited =>
    if entityId ∈ visited then
      some ([], visited)
    else
      let visited := entityId :: visited
      let parentLinks := allLinks.filter
        (fun link => link.target == entityId && link.ownership.isSome)
      (collectEach (fun link => link.source)
        (fun parentId v => findAllShareholdersFuel fuel parentId allLinks v)
        parentLinks [] visited).map (fun r => (uniq r.1, r.2))

/-- The body of `findAllSubsidiaries` (app.js 790-811), run with a bound `fuel` on
the depth of the call stack; see `findAllShareholdersFuel`. -/
def findAllSubsidiariesFuel : Nat → String → List (Link P) → List String →
    Option (List String × List String)
  | 0, _, _, _ => none
  | fuel + 1, entityId, allLinks, visited =>
    if entityId ∈ visited then
      some ([], visited)
    else
      let visited := entityId :: visited
      let childLinks := allLinks.filter
        (fun link => link.source == entityId && link.ownership.isSome)
      (collectEach (fun link => link.target)
        (fun childId v => findAllSubsidiariesFuel fuel childId allLinks v)
        childLinks [] visited).map (fun r => (uniq r.1, r.2))

/-- The function `findAllShareholders(entityId, allLinks)` called with a fresh
visited set. The call stack never gets deeper than `allLinks.length + 2`
(`findAllShareholdersFuel_enough`), so the fallback value is never used. -/
def findAllShareholders (entityId : String) (allLinks : List (Link P)) : List String :=
  ((findAllShareholdersFuel (allLinks.length + 2) entityId allLinks []).map
    (fun r => r.1)).getD []

/-- The function `findAllSubsidiaries(entityId, allLinks)` called with a fresh
visited set; see `findAllShareholders`. -/
def findAllSubsidiaries (entityId : String) (allLinks : List (Link P)) : List String :=
  ((findAllSubsidiariesFuel (allLinks.length + 2) entityId allLinks []).map
    (fun r => r.1)).getD []

/-- The common shape of `findAllShareholdersFuel` and `findAllSubsidiariesFuel`: a
traversal that follows, from an id, the links that `select` keeps for this id,
to the id that `idOf` reads on the link. -/
def traverseFuel (select : String → Link P → Bool) (idOf : Link P → String) :
    Nat → String → List (Link P) → List String → Option (List String × List String)
  | 0, _, _, _ => none
  | fuel + 1, entityId, allLinks, visited =>
    if entityId ∈ visited then
      some ([], visited)
    else
      (collectEach idOf (fun id v => traverseFuel select idOf fuel id allLinks v)
        (allLinks.filter (select entityId)) [] (entityId :: visited)).map
        (fun r => (uniq r.1, r.2))

/-- One step of a traversal: a link that `select` keeps for `a` leads to `b`. -/
def TraverseStep (select : String → Link P → Bool) (idOf : Link P → String)
    (allLinks : List (Link P)) (a b : String) : Prop :=
  ∃ l ∈ allLinks, select a l = true ∧ idOf l = b

end Closures

/-! ## `buildFocusedHierarchy` -/

section FocusedHierarchy

variable {P : Type}

/-- The set `relevantEntityIds` of `buildFocusedHierarchy`. -/
def relevantEntityIds (entityId : String) (allLinks : List (Link P)) : List String :=
  entityId :: (findAllShareholders entityId allLinks ++ findAllSubsidiaries entityId allLinks)

/-- The constant `relevantNodes` of `buildFocusedHierarchy`; for a person node
without `entityId` the test `relevantEntityIds.has(node.entityId)` is false. -/
def relevantNodes (entityId : String) (allNodes : List Node) (allLinks : List (Link P)) :
    List Node :=
  allNodes.filter (fun node =>
    if node.type == NodeType.entity then
      decide (node.id ∈ relevantEntityIds entityId allLinks)
    else if node.type == NodeType.person then
      match node.entityId with
      | some owner => decide (owner ∈ relevantEntityIds entityId allLinks)
      | none => false
    else false)

/-- The constant `relevantLinks` of `buildFocusedHierarchy`. -/
def relevantLinks (entityId : String) (allLinks : List (Link P)) : List (Link P) :=
  allLinks.filter (fun link =>
    decide (link.source ∈ relevantEntityIds entityId allLinks) &&
    decide (link.target ∈ relevantEntityIds entityId allLinks))

/-- The array `ultimateRoots` of `buildFocusedHierarchy` as the `filter` builds it
(app.js 750-753). -/
def ultimateRoots (entityId : String) (allNodes : List Node) (allLinks : List (Link P)) :
    List Node :=
  (relevantNodes entityId allNodes allLinks).filter (fun node =>
    node.type == NodeType.entity &&
    !(relevantLinks entityId allLinks).any
      (fun link => link.target == node.id && link.ownership.isSome))

/-- The array `ultimateRoots` of `buildFocusedHierarchy` after the fallback
(app.js 756-758). An element `none` is the value `undefined` that
`relevantNodes.filter(n => n.type === 'entity')[0]` has when the restricted
set holds no entity node. -/
def focusRoots (entityId : String) (allNodes : List Node) (allLinks : List (Link P)) :
    List (Option Node) :=
  if (ultimateRoots entityId allNodes allLinks).length == 0 &&
      decide ((relevantNodes entityId allNodes allLinks).length > 0) then
    [((relevantNodes entityId allNodes allLinks).filter
      (fun n => n.type == NodeType.entity)).head?]
  else
    (ultimateRoots entityId allNodes allLinks).map some

/-- The function `buildFocusedHierarchy(entityId, allNodes, allLinks)` (app.js 707-763).
The result `none` is a fault: the `TypeError` that `buildTreeRecursive` throws on
`node.id` when its argument `node` is `undefined`. -/
def buildFocusedHierarchy (entityId : String) (allNodes : List Node)
    (allLinks : List (Link P)) : Option (List (HierarchyNode P)) :=
  match allNodes.find? (fun n => n.id == entityId) with
  | none => some []
  | some _ =>
    allCompleted ((focusRoots entityId allNodes allLinks).map (fun root =>
      root.map (fun node =>
        buildTreeRecursive node (relevantNodes entityId allNodes allLinks)
          (relevantLinks entityId allLinks) [])))

/-- Some node of the tree `t` has the id `id`. -/
def occursIn (id : String) (t : HierarchyNode P) : Bool :=
  (occurrencesFrom [] t).any (fun o => o.2.node.id == id)

end FocusedHierarchy

/-! ## Vocabulary for cycles and root candidates -/

section Vocabulary

variable {P : Type}

/-- The list `c` is a closed sequence `[v0, v1, ..., vk]` with `k ≥ 1` and `vk = v0`
in which `v0, ..., v(k-1)` are pairwise distinct and each id is joined to the
next by a link of `links` with a non-null percentage. -/
def IsOwnershipCycle (links : List (Link P)) (c : List String) : Prop :=
  ∃ (v0 : String) (rest : List String),
    c = (v0 :: rest) ++ [v0] ∧ (v0 :: rest).Nodup ∧ List.Chain' (OwnershipEdge links) c

/-- The node that `buildHierarchy` builds for an entity of the full dataset. -/
def nodeOfEntity (entity : Entity) : Node :=
  { id := entity.ENTITY_ID, name := entity.ENTITY_NAME, type := NodeType.entity,
    jurisdiction := entity.ENTITY_TAX_JURISDICTION, role := none, entityId := none }

/-- The entity `e` is the child of no ownership relation of the full dataset with
a non-null percentage (`NoIncomingOwnership`, as a test). -/
def hasNoIncomingOwnership (orgChartData : OrgChartData P) (e : Entity) : Bool :=
  orgChartData.ownership.all
    (fun rel => !(decide (rel.CHILD_ID = e.ENTITY_ID) && rel.OWNERSHIP_PERC.isSome))

/-- The true roots of the full dataset, in dataset order. -/
def trueRootEntities (orgChartData : OrgChartData P) : List Entity :=
  orgChartData.entities.filter (hasNoIncomingOwnership orgChartData)

end Vocabulary

/-! ## Walks -/

section Walks

variable {P : Type}

/-- A walk of `n` ownership links of `links` from `a` to `b` none of whose ids is in
`avoid`. -/
inductive AvoidingWalk (links : List (Link P)) (avoid : List String) :
    Nat → String → String → Prop where
  | refl (a : String) : a ∉ avoid → AvoidingWalk links avoid 0 a a
  | step {n : Nat} {a c b : String} : a ∉ avoid → OwnershipEdge links a c →
      AvoidingWalk links avoid n c b → AvoidingWalk links avoid (n + 1) a b

end Walks

/-! ## More sample data -/

/-- A full dataset with the two true roots R1 and R2, which both own X. -/
def twoRootData : OrgChartData Nat :=
  { entities := [⟨"R1", "R1", none⟩, ⟨"R2", "R2", none⟩, ⟨"X", "X", none⟩],
    ownership := [⟨"R1", "X", some 50⟩, ⟨"R2", "X", some 50⟩],
    persons := [] }

/-- The nodes of the two-root dataset. -/
def twoRootNodes : List Node := [entityNode "R1", entityNode "R2", entityNode "X"]

/-- The links of the two-root dataset. -/
def twoRootLinks : List (Link Nat) := [own "R1" "X" 50, own "R2" "X" 50]

/-- A person whose id is also the focus id and the id of its entity, alone in
the node list. -/
def clashNodes : List Node := [personNode "1" (some "1")]

/-- The attachment link that `personLinks` builds for the nodes `clashNodes`. -/
def clashLinks : List (Link Nat) := [{ source := "1", target := "1", ownership := none }]

/-- The entities X and W own each other and X owns D, which comes first in the
node list. -/
def tailNodes : List Node := [entityNode "D", entityNode "X", entityNode "W"]

/-- The links X→D, W→X, X→W. -/
def tailLinks : List (Link Nat) := [own "X" "D" 10, own "W" "X" 20, own "X" "W" 30]


/-! ## `getFilteredData` -/

section FilteredData

variable {P T : Type}

/-- The values that `getFilteredData` reads from the filter controls: the text of
`entitySearch` before it is lower-cased, the value of `jurisdictionFilter` (the
empty string when no jurisdiction is selected), the number that `parseFloat`
makes of the value of `ownershipThreshold`, and the state of the checkbox
`showPersons`. -/
structure FilterCriteria (T : Type) where
  entitySearch : String
  jurisdictionFilter : String
  ownershipThreshold : T
  showPersons : Bool

/-- The object `{ nodes, links }` that `getFilteredData` returns. -/
structure FilteredData (P : Type) where
  nodes : List Node
  links : List (Link P)

/-- The method `s.includes(sub)` of a string: the characters of `sub` are
consecutive characters of `s`. -/
def includes (s sub : String) : Bool :=
  decide (sub.data <:+: s.data)

/-- The function `getFocusedEntityChain(focusedEntityId)` (app.js 540-560): the
set that holds the focused id, then the shareholders, then the subsidiaries
found in the relations of the full dataset, as an array in insertion order. -/
def getFocusedEntityChain (orgChartData : OrgChartData P) (focusedEntityId : String) :
    List String :=
  let chainIds := [focusedEntityId]
  let shareholders := findAllShareholders focusedEntityId
    (orgChartData.ownership.map (fun rel =>
      { source := rel.PARENT_ID, target := rel.CHILD_ID, ownership := rel.OWNERSHIP_PERC }))
  let chainIds := shareholders.foldl setAdd chainIds
  let subsidiaries := findAllSubsidiaries focusedEntityId
    (orgChartData.ownership.map (fun rel =>
      { source := rel.PARENT_ID, target := rel.CHILD_ID, ownership := rel.OWNERSHIP_PERC }))
  subsidiaries.foldl setAdd chainIds

/-- The variable `filteredEntities` of `getFilteredData` after the `if` on the focus
(app.js 421-472). `toLowerCase` is the method of that name of JavaScript strings
and `searchTerm` the lower-cased search text. A string is truthy when it is not
empty. -/
def filteredEntities (toLowerCase : String → String) (orgChartData : OrgChartData P)
    (isShowingFocusedView : Bool) (focusedEntityId : Option String)
    (searchTerm jurisdictionFilter : String) : List Entity :=
  match isShowingFocusedView && truthy focusedEntityId, focusedEntityId with
  | true, some focusedEntityId =>
    let focusedChain := getFocusedEntityChain orgChartData focusedEntityId
    let filteredEntities := orgChartData.entities.filter (fun entity =>
      if entity.ENTITY_ID == focusedEntityId then true
      else
        let isUltimateRoot :=
          !orgChartData.ownership.any (fun rel => rel.CHILD_ID == entity.ENTITY_ID)
        if isUltimateRoot then true
        else if focusedChain.contains entity.ENTITY_ID then
          if jurisdictionFilter != "" &&
              entity.ENTITY_TAX_JURISDICTION != some jurisdictionFilter then false
          else true
        else false)
    if searchTerm != "" then
      filteredEntities.filter (fun entity =>
        includes (toLowerCase entity.ENTITY_NAME) searchTerm ||
        includes (toLowerCase entity.ENTITY_ID) searchTerm)
    else filteredEntities
  | _, _ =>
    orgChartData.entities.filter (fun entity =>
      if searchTerm != "" && !includes (toLowerCase entity.ENTITY_NAME) searchTerm &&
          !includes (toLowerCase entity.ENTITY_ID) searchTerm then false
      else if jurisdictionFilter != "" &&
          entity.ENTITY_TAX_JURISDICTION != some jurisdictionFilter then false
      else true)

/-- The variable `filteredOwnership` of `getFilteredData` (app.js 475-477).
`atLeast perc threshold` is the JavaScript comparison
`rel.OWNERSHIP_PERC >= ownershipThreshold` of a percentage that may be `null`
with the number made by `parseFloat`. -/
def filteredOwnership (atLeast : Option P → T → Bool) (orgChartData : OrgChartData P)
    (ownershipThreshold : T) : List (OwnershipRelation P) :=
  orgChartData.ownership.filter (fun rel => atLeast rel.OWNERSHIP_PERC ownershipThreshold)

/-- The constant `filteredPersons` of `getFilteredData` (app.js 489-495). -/
def filteredPersons (toLowerCase : String → String) (orgChartData : OrgChartData P)
    (searchTerm : String) : List Person :=
  orgChartData.persons.filter (fun person =>
    if searchTerm != "" && !includes (toLowerCase person.PERSON_NAME) searchTerm &&
        !includes (toLowerCase person.PERSON_ID) searchTerm then false
    else true)

/-- The node that `getFilteredData` builds for a person (app.js 497-503). -/
def nodeOfPerson (person : Person) : Node :=
  { id := person.PERSON_ID, name := person.PERSON_NAME, type := NodeType.person,
    jurisdiction := none, role := person.PERSON_ROLE, entityId := person.ENTITY_ID }

/-- The link that `getFilteredData` builds for an ownership relation
(app.js 516-520). -/
def linkOfRelation (rel : OwnershipRelation P) : Link P :=
  { source := rel.PARENT_ID, target := rel.CHILD_ID, ownership := rel.OWNERSHIP_PERC }

/-- The variable `links` of `getFilteredData` before the attachment links are
added (app.js 509-520). -/
def ownershipLinks (filteredOwnership : List (OwnershipRelation P)) (nodes : List Node) :
    List (Link P) :=
  (filteredOwnership.filter (fun rel =>
    let parentExists := nodes.any (fun n => n.id == rel.PARENT_ID)
    let childExists := nodes.any (fun n => n.id == rel.CHILD_ID)
    parentExists && childExists)).map linkOfRelation

/-- The function `getFilteredData()` (app.js 414-537), as a function of the globals
`orgChartData`, `isShowingFocusedView` and `focusedEntityId` and of the values
of the filter controls. `toLowerCase` and `atLeast` are the method
`toLowerCase` of strings and the comparison `>=` of JavaScript. -/
def getFilteredData (toLowerCase : String → String) (atLeast : Option P → T → Bool)
    (orgChartData : OrgChartData P) (isShowingFocusedView : Bool)
    (focusedEntityId : Option String) (criteria : FilterCriteria T) : FilteredData P :=
  let searchTerm := toLowerCase criteria.entitySearch
  let jurisdictionFilter := criteria.jurisdictionFilter
  let ownershipThreshold := criteria.ownershipThreshold
  let showPersons := criteria.showPersons
  let filteredEntities := filteredEntities toLowerCase orgChartData isShowingFocusedView
    focusedEntityId searchTerm jurisdictionFilter
  let filteredOwnership := filteredOwnership atLeast orgChartData ownershipThreshold
  let nodes := filteredEntities.map nodeOfEntity
  let nodes :=
    if showPersons then
      nodes ++ (filteredPersons toLowerCase orgChartData searchTerm).map nodeOfPerson
    else nodes
  let links := ownershipLinks filteredOwnership nodes
  let links := if showPersons then links ++ personLinks nodes else links
  { nodes := nodes, links := links }

end FilteredData

/-! ## Sample filter settings -/

/-- The method `toLowerCase` on strings of ASCII characters. -/
def lowerAscii (s : String) : String :=
  String.mk (s.data.map Char.toLower)

/-- The comparison `>=` of a percentage that is a natural number or `null` with a
natural number: `null` is converted to 0. -/
def natAtLeast : Option Nat → Nat → Bool
  | none, threshold => decide (threshold ≤ 0)
  | some perc, threshold => decide (threshold ≤ perc)

/-- The filter settings of a fresh page with the given search text and
threshold: no jurisdiction selected, persons shown. -/
def searchCriteria (entitySearch : String) (ownershipThreshold : Nat) : FilterCriteria Nat :=
  { entitySearch := entitySearch, jurisdictionFilter := "",
    ownershipThreshold := ownershipThreshold, showPersons := true }

/-- A full dataset with jurisdictions and persons: the holding E1 owns E2 (60) and
E3 (40); Ann is a director of E1, Bob belongs to an entity that is not in the
dataset and Cy has no entity. -/
def groupData : OrgChartData Nat :=
  { entities := [⟨"E1", "Alpha Holding", some "NL"⟩, ⟨"E2", "Beta BV", some "NL"⟩,
                 ⟨"E3", "Alpha Inc", some "US"⟩],
    ownership := [⟨"E1", "E2", some 60⟩, ⟨"E1", "E3", some 40⟩],
    persons := [⟨"P1", "Ann", some "Director", some "E1"⟩, ⟨"P2", "Bob", none, some "E9"⟩,
                ⟨"P3", "Cy", none, none⟩] }

/-- The filter settings with the search text ALPHA and the jurisdiction NL, the
threshold 0 and no persons. -/
def alphaCriteria : FilterCriteria Nat :=
  { entitySearch := "ALPHA", jurisdictionFilter := "NL", ownershipThreshold := 0,
    showPersons := false }

/-- A full dataset in which the only relation into R has a `null` percentage:
A owns B (60) and B is linked to R without a percentage. -/
def nullPercData : OrgChartData Nat :=
  { entities := [⟨"A", "A", none⟩, ⟨"B", "B", none⟩, ⟨"R", "R", none⟩],
    ownership := [⟨"A", "B", some 60⟩, ⟨"B", "R", none⟩],
    persons := [] }

/-- The filter settings with no search text, no jurisdiction, the threshold 0
and persons shown. -/
def personCriteria : FilterCriteria Nat :=
  { entitySearch := "", jurisdictionFilter := "", ownershipThreshold := 0,
    showPersons := true }

/-! ## Vocabulary for the run of `detectCircularReferences` -/

/-- The state `s` of a run of `dfs` over the links `ownershipLinks` is settled for
the set `S`: the recursion stack holds the ids of `S`, which are all visited,
and some rank decreases along every link whose source is visited and off the
stack, the target of such a link being visited and off the stack too. -/
def Settled {P : Type} (ownershipLinks : List (Link P)) (S : List String) (s : DfsState) :
    Prop :=
  (∀ x, x ∈ s.recursionStack ↔ x ∈ S) ∧ (∀ x ∈ S, x ∈ s.visited) ∧
  ∃ rank : String → Nat, ∀ l ∈ ownershipLinks, l.source ∈ s.visited → l.source ∉ S →
    l.target ∈ s.visited ∧ l.target ∉ S ∧ rank l.target < rank l.source

/-! ## Sample data with a shared id -/

/-- An entity and a person of that entity that have the same id. -/
def sharedIdNodes : List Node := [entityNode "1", personNode "1" (some "1")]

/-! ## Properties of `buildTreeRecursive` -/

section Theorems

variable {P : Type}

theorem buildTreeFuel_succ (fuel : Nat) (node : Node) (allNodes : List Node)
    (allLinks : List (Link P)) (visited : List String) :
    buildTreeFuel (fuel + 1) node allNodes allLinks visited =
      if node.id ∈ visited then some (HierarchyNode.mk node [] none)
      else (allCompleted ((childLinks allLinks node.id).map
        (childCallback (fun c => buildTreeFuel fuel c allNodes allLinks (node.id :: visited))
          allNodes))).map
        (fun cs => HierarchyNode.mk node (cs.filterMap id ++ personChildren allNodes node.id) none) :=
  rfl

theorem allCompleted_map_iff {α β : Type} (f : α → Option β) (l : List α) (cs : List β) :
    allCompleted (l.map f) = some cs ↔ List.Forall₂ (fun a c => f a = some c) l cs := by
  induction l generalizing cs with
  | nil =>
    cases cs <;> simp [allCompleted]
  | cons a l ih =>
    cases hfa : f a with
    | none =>
      simp only [List.map_cons, hfa, allCompleted]
      constructor
      · intro h
        cases h
      · intro h
        cases h with
        | cons h1 _ => simp [hfa] at h1
    | some b =>
      simp only [List.map_cons, hfa, allCompleted, Option.map_eq_some']
      constructor
      · rintro ⟨as, has, rfl⟩
        exact List.Forall₂.cons hfa ((ih as).1 has)
      · intro h
        cases h with
        | cons h1 h2 =>
          rw [hfa] at h1
          cases h1
          exact ⟨_, (ih _).2 h2, rfl⟩

theorem allCompleted_map_of_forall {α β : Type} (f : α → Option β) (l : List α)
    (h : ∀ a ∈ l, ∃ c, f a = some c) : ∃ cs, allCompleted (l.map f) = some cs := by
  induction l with
  | nil => exact ⟨[], rfl⟩
  | cons a l ih =>
    obtain ⟨c, hc⟩ := h a (List.mem_cons_self a l)
    obtain ⟨cs, hcs⟩ := ih (fun b hb => h b (List.mem_cons_of_mem a hb))
    exact ⟨c :: cs, by simp [allCompleted, hc, hcs]⟩

theorem childCallback_mono (call call' : Node → Option (HierarchyNode P))
    (allNodes : List Node) (link : Link P) (c : Option (HierarchyNode P))
    (h : ∀ n t, call n = some t → call' n = some t)
    (hc : childCallback call allNodes link = some c) :
    childCallback call' allNodes link = some c := by
  unfold childCallback at hc ⊢
  cases hfind : allNodes.find? (fun n => n.id == link.target) with
  | none => simpa [hfind] using hc
  | some childNode =>
    simp only [hfind, Option.map_eq_some'] at hc ⊢
    obtain ⟨t, ht, rfl⟩ := hc
    exact ⟨t, h _ _ ht, rfl⟩

theorem buildTreeFuel_mono_succ (allNodes : List Node) (allLinks : List (Link P)) :
    ∀ (fuel : Nat) (node : Node) (visited : List String) (t : HierarchyNode P),
      buildTreeFuel fuel node allNodes allLinks visited = some t →
      buildTreeFuel (fuel + 1) node allNodes allLinks visited = some t := by
  intro fuel
  induction fuel with
  | zero =>
    intro node visited t h
    simp [buildTreeFuel] at h
  | succ fuel ih =>
    intro node visited t h
    rw [buildTreeFuel_succ] at h ⊢
    by_cases hv : node.id ∈ visited
    · simpa [hv] using h
    · simp only [hv, if_false, Option.map_eq_some'] at h ⊢
      obtain ⟨cs, hcs, rfl⟩ := h
      refine ⟨cs, ?_, rfl⟩
      rw [allCompleted_map_iff] at hcs ⊢
      exact hcs.imp (fun {l c} hlc =>
        childCallback_mono _ _ allNodes l c (fun n t hn => ih n _ t hn) hlc)

theorem buildTreeFuel_mono (allNodes : List Node) (allLinks : List (Link P))
    (fuel k : Nat) (node : Node) (visited : List String) (t : HierarchyNode P)
    (h : buildTreeFuel fuel node allNodes allLinks visited = some t) :
    buildTreeFuel (fuel + k) node allNodes allLinks visited = some t := by
  induction k with
  | zero => exact h
  | succ k ih => exact buildTreeFuel_mono_succ allNodes allLinks _ _ _ _ ih

theorem unvisitedCount_le_length (allNodes : List Node) (visited : List String) :
    unvisitedCount allNodes visited ≤ allNodes.length := by
  unfold unvisitedCount
  calc ((allNodes.map (fun n => n.id)).toFinset \ visited.toFinset).card
      ≤ (allNodes.map (fun n => n.id)).toFinset.card :=
        Finset.card_le_card Finset.sdiff_subset
    _ ≤ (allNodes.map (fun n => n.id)).length := List.toFinset_card_le _
    _ = allNodes.length := List.length_map _ _

theorem unvisitedCount_cons_le (allNodes : List Node) (visited : List String) (x : String) :
    unvisitedCount allNodes (x :: visited) ≤ unvisitedCount allNodes visited := by
  unfold unvisitedCount
  apply Finset.card_le_card
  intro y hy
  simp only [Finset.mem_sdiff, List.mem_toFinset, List.mem_cons, not_or] at hy ⊢
  exact ⟨hy.1, hy.2.2⟩

theorem unvisitedCount_cons_lt (allNodes : List Node) (visited : List String) (x : String)
    (hx : x ∈ allNodes.map (fun n => n.id)) (hv : x ∉ visited) :
    unvisitedCount allNodes (x :: visited) < unvisitedCount allNodes visited := by
  unfold unvisitedCount
  apply Finset.card_lt_card
  rw [Finset.ssubset_iff_of_subset]
  · refine ⟨x, ?_, ?_⟩
    · simp only [Finset.mem_sdiff, List.mem_toFinset]
      exact ⟨hx, hv⟩
    · simp
  · intro y hy
    simp only [Finset.mem_sdiff, List.mem_toFinset, List.mem_cons, not_or] at hy ⊢
    exact ⟨hy.1, hy.2.2⟩

theorem childCallback_complete (call : Node → Option (HierarchyNode P))
    (allNodes : List Node) (link : Link P)
    (h : ∀ n ∈ allNodes, ∃ t, call n = some t) :
    ∃ c, childCallback call allNodes link = some c := by
  unfold childCallback
  cases hfind : allNodes.find? (fun n => n.id == link.target) with
  | none => exact ⟨none, rfl⟩
  | some childNode =>
    obtain ⟨t, ht⟩ := h childNode (List.mem_of_find?_eq_some hfind)
    simp only [ht]
    exact ⟨_, rfl⟩

theorem buildTreeFuel_complete_of_mem (allNodes : List Node) (allLinks : List (Link P)) :
    ∀ (fuel : Nat) (node : Node) (visited : List String), node ∈ allNodes →
      unvisitedCount allNodes visited < fuel →
      ∃ t, buildTreeFuel fuel node allNodes allLinks visited = some t := by
  intro fuel
  induction fuel with
  | zero =>
    intro node visited _ h
    exact absurd h (Nat.not_lt_zero _)
  | succ fuel ih =>
    intro node visited hmem hlt
    rw [buildTreeFuel_succ]
    by_cases hv : node.id ∈ visited
    · rw [if_pos hv]
      exact ⟨_, rfl⟩
    · have hdec := unvisitedCount_cons_lt allNodes visited node.id
        (List.mem_map_of_mem (fun n => n.id) hmem) hv
      obtain ⟨cs, hcs⟩ := allCompleted_map_of_forall
        (childCallback (fun c => buildTreeFuel fuel c allNodes allLinks (node.id :: visited))
          allNodes) (childLinks allLinks node.id)
        (fun l _ => childCallback_complete _ allNodes l
          (fun n hn => ih n (node.id :: visited) hn (by omega)))
      rw [if_neg hv, hcs]
      exact ⟨_, rfl⟩

theorem buildTreeFuel_complete (allNodes : List Node) (allLinks : List (Link P))
    (node : Node) (visited : List String) :
    ∃ t, buildTreeFuel (allNodes.length + 2) node allNodes allLinks visited = some t := by
  rw [buildTreeFuel_succ]
  by_cases hv : node.id ∈ visited
  · rw [if_pos hv]
    exact ⟨_, rfl⟩
  · have h1 := unvisitedCount_le_length allNodes (node.id :: visited)
    obtain ⟨cs, hcs⟩ := allCompleted_map_of_forall
      (childCallback (fun c => buildTreeFuel (allNodes.length + 1) c allNodes allLinks
        (node.id :: visited)) allNodes) (childLinks allLinks node.id)
      (fun l _ => childCallback_complete _ allNodes l
        (fun n hn => buildTreeFuel_complete_of_mem allNodes allLinks _ n _ hn (by omega)))
    rw [if_neg hv, hcs]
    exact ⟨_, rfl⟩

/-- Any run that returns, returns the value of `buildTreeRecursive`. -/
theorem buildTreeFuel_eq_some (allNodes : List Node) (allLinks : List (Link P))
    (fuel : Nat) (node : Node) (visited : List String) (t : HierarchyNode P)
    (h : buildTreeFuel fuel node allNodes allLinks visited = some t) :
    buildTreeRecursive node allNodes allLinks visited = t := by
  obtain ⟨t', ht'⟩ := buildTreeFuel_complete allNodes allLinks node visited
  have h1 := buildTreeFuel_mono allNodes allLinks fuel (allNodes.length + 2) node visited t h
  have h2 := buildTreeFuel_mono allNodes allLinks (allNodes.length + 2) fuel node visited t' ht'
  rw [Nat.add_comm] at h2
  rw [h1] at h2
  cases h2
  simp [buildTreeRecursive, ht']

/-- With `allNodes.length + 2` levels of call stack or more, the run returns
the value of `buildTreeRecursive`. -/
theorem buildTreeFuel_enough (allNodes : List Node) (allLinks : List (Link P))
    (node : Node) (visited : List String) (k : Nat) :
    buildTreeFuel (allNodes.length + 2 + k) node allNodes allLinks visited =
      some (buildTreeRecursive node allNodes allLinks visited) := by
  obtain ⟨t, ht⟩ := buildTreeFuel_complete allNodes allLinks node visited
  rw [buildTreeFuel_eq_some allNodes allLinks _ node visited t ht]
  exact buildTreeFuel_mono allNodes allLinks _ k node visited t ht

theorem filterMap_id_of_forall₂ {α β : Type} (f : α → Option (Option β)) (g : α → Option β)
    (l : List α) (cs : List (Option β))
    (h : List.Forall₂ (fun a c => f a = some c) l cs)
    (hfg : ∀ a ∈ l, ∀ c, f a = some c → c = g a) :
    cs.filterMap id = l.filterMap g := by
  induction h with
  | nil => rfl
  | @cons a c l cs hac _ ih =>
    have hc := hfg a (List.mem_cons_self a l) c hac
    have ih2 := ih (fun b hb => hfg b (List.mem_cons_of_mem a hb))
    subst hc
    cases hga : g a <;> simp [List.filterMap_cons, hga, ih2]

theorem childCallback_eq_some (allNodes : List Node) (allLinks : List (Link P))
    (fuel : Nat) (visited : List String) (link : Link P) (c : Option (HierarchyNode P))
    (h : childCallback (fun n => buildTreeFuel fuel n allNodes allLinks visited) allNodes link
      = some c) :
    c = (allNodes.find? (fun n => n.id == link.target)).map (fun childNode =>
      (buildTreeRecursive childNode allNodes allLinks visited).setOwnershipPerc
        link.ownership) := by
  unfold childCallback at h
  cases hfind : allNodes.find? (fun n => n.id == link.target) with
  | none =>
    simp only [hfind] at h
    cases h
    rfl
  | some childNode =>
    simp only [hfind, Option.map_eq_some'] at h
    obtain ⟨t, ht, rfl⟩ := h
    rw [Option.map_some', buildTreeFuel_eq_some allNodes allLinks fuel childNode visited t ht]

/-- The defining equation of `buildTreeRecursive`. -/
theorem buildTreeRecursive_eq (node : Node) (allNodes : List Node)
    (allLinks : List (Link P)) (visited : List String) :
    buildTreeRecursive node allNodes allLinks visited =
      if node.id ∈ visited then HierarchyNode.mk node [] none
      else HierarchyNode.mk node
        (entityChildren node allNodes allLinks visited ++ personChildren allNodes node.id)
        none := by
  have h := buildTreeFuel_enough allNodes allLinks node visited 0
  rw [Nat.add_zero, buildTreeFuel_succ] at h
  by_cases hv : node.id ∈ visited
  · rw [if_pos hv] at h ⊢
    exact (Option.some.inj h).symm
  · rw [if_neg hv] at h ⊢
    rw [Option.map_eq_some'] at h
    obtain ⟨cs, hcs, ht⟩ := h
    rw [← ht]
    rw [allCompleted_map_iff] at hcs
    have := filterMap_id_of_forall₂ _ _ _ _ hcs
      (fun l _ c hc => childCallback_eq_some allNodes allLinks _ _ l c hc)
    rw [this]
    rfl

theorem buildTreeRecursive_of_mem (node : Node) (allNodes : List Node)
    (allLinks : List (Link P)) (visited : List String) (hv : node.id ∈ visited) :
    buildTreeRecursive node allNodes allLinks visited = HierarchyNode.mk node [] none := by
  rw [buildTreeRecursive_eq, if_pos hv]

theorem buildTreeRecursive_of_not_mem (node : Node) (allNodes : List Node)
    (allLinks : List (Link P)) (visited : List String) (hv : node.id ∉ visited) :
    buildTreeRecursive node allNodes allLinks visited =
      HierarchyNode.mk node
        (entityChildren node allNodes allLinks visited ++ personChildren allNodes node.id)
        none := by
  rw [buildTreeRecursive_eq, if_neg hv]

theorem buildTreeRecursive_node (node : Node) (allNodes : List Node)
    (allLinks : List (Link P)) (visited : List String) :
    (buildTreeRecursive node allNodes allLinks visited).node = node := by
  rw [buildTreeRecursive_eq]
  split <;> rfl

theorem buildTreeRecursive_ownershipPerc (node : Node) (allNodes : List Node)
    (allLinks : List (Link P)) (visited : List String) :
    (buildTreeRecursive node allNodes allLinks visited).ownershipPerc = none := by
  rw [buildTreeRecursive_eq]
  split <;> rfl

theorem buildTreeRecursive_children (node : Node) (allNodes : List Node)
    (allLinks : List (Link P)) (visited : List String) (hv : node.id ∉ visited) :
    (buildTreeRecursive node allNodes allLinks visited).children =
      entityChildren node allNodes allLinks visited ++ personChildren allNodes node.id := by
  rw [buildTreeRecursive_of_not_mem node allNodes allLinks visited hv]
  rfl

theorem setOwnershipPerc_node (v : Option P) (t : HierarchyNode P) :
    (t.setOwnershipPerc v).node = t.node := by
  cases t; rfl

theorem setOwnershipPerc_children (v : Option P) (t : HierarchyNode P) :
    (t.setOwnershipPerc v).children = t.children := by
  cases t; rfl

theorem setOwnershipPerc_ownershipPerc (v : Option P) (t : HierarchyNode P) :
    (t.setOwnershipPerc v).ownershipPerc = some v := by
  cases t; rfl

theorem mem_entityChildren (node : Node) (allNodes : List Node) (allLinks : List (Link P))
    (visited : List String) (c : HierarchyNode P) :
    c ∈ entityChildren node allNodes allLinks visited ↔
      ∃ link ∈ childLinks allLinks node.id, ∃ childNode,
        allNodes.find? (fun n => n.id == link.target) = some childNode ∧
        c = (buildTreeRecursive childNode allNodes allLinks (node.id :: visited)).setOwnershipPerc
          link.ownership := by
  unfold entityChildren
  simp only [List.mem_filterMap, Option.map_eq_some']
  constructor
  · rintro ⟨link, hl, childNode, hfind, rfl⟩
    exact ⟨link, hl, childNode, hfind, rfl⟩
  · rintro ⟨link, hl, childNode, hfind, rfl⟩
    exact ⟨link, hl, childNode, hfind, rfl⟩

theorem mem_personChildren (allNodes : List Node) (id : String) (c : HierarchyNode P) :
    c ∈ (personChildren allNodes id : List (HierarchyNode P)) ↔
      ∃ person ∈ allNodes, person.type = NodeType.person ∧ person.entityId = some id ∧
        c = HierarchyNode.mk person [] (some none) := by
  unfold personChildren
  simp only [List.mem_map, List.mem_filter, Bool.and_eq_true, beq_iff_eq]
  constructor
  · rintro ⟨person, ⟨hm, ht, he⟩, rfl⟩
    exact ⟨person, hm, ht, he, rfl⟩
  · rintro ⟨person, hm, ht, he, rfl⟩
    exact ⟨person, ⟨hm, ht, he⟩, rfl⟩

theorem occurrencesFrom_eq (anc : List String) (t : HierarchyNode P) :
    occurrencesFrom anc t = (anc, t) :: occurrencesList (t.node.id :: anc) t.children := by
  cases t
  rfl

theorem mem_occurrencesList (anc : List String) (cs : List (HierarchyNode P))
    (o : List String × HierarchyNode P) :
    o ∈ occurrencesList anc cs ↔ ∃ c ∈ cs, o ∈ occurrencesFrom anc c := by
  induction cs with
  | nil => simp [occurrencesList]
  | cons c cs ih => simp [occurrencesList, ih]

theorem mem_occurrencesFrom (anc : List String) (t : HierarchyNode P)
    (o : List String × HierarchyNode P) :
    o ∈ occurrencesFrom anc t ↔
      o = (anc, t) ∨ ∃ c ∈ t.children, o ∈ occurrencesFrom (t.node.id :: anc) c := by
  rw [occurrencesFrom_eq, List.mem_cons, mem_occurrencesList]

theorem exists_of_forall₂_left {α β : Type} {R : α → β → Prop} {l : List α} {cs : List β}
    (h : List.Forall₂ R l cs) {a : α} (ha : a ∈ l) : ∃ c, R a c := by
  induction h with
  | nil => cases ha
  | @cons a' c' l' cs' hac _ ih =>
    rcases List.mem_cons.1 ha with rfl | hmem
    · exact ⟨c', hac⟩
    · exact ih hmem

/-- Induction over the calls of `buildTreeRecursive`: a property of calls holds
for every call as soon as it holds for a call whenever it holds for the
recursive calls this call makes. -/
theorem buildTreeRecursive_induction (allNodes : List Node) (allLinks : List (Link P))
    (motive : Node → List String → Prop)
    (step : ∀ node visited,
      (node.id ∉ visited → ∀ link ∈ childLinks allLinks node.id, ∀ childNode,
        allNodes.find? (fun n => n.id == link.target) = some childNode →
        motive childNode (node.id :: visited)) →
      motive node visited) :
    ∀ node visited, motive node visited := by
  have key : ∀ (fuel : Nat) (node : Node) (visited : List String) (t : HierarchyNode P),
      buildTreeFuel fuel node allNodes allLinks visited = some t → motive node visited := by
    intro fuel
    induction fuel with
    | zero =>
      intro node visited t h
      simp [buildTreeFuel] at h
    | succ fuel ih =>
      intro node visited t h
      apply step
      intro hv link hl childNode hfind
      rw [buildTreeFuel_succ, if_neg hv, Option.map_eq_some'] at h
      obtain ⟨cs, hcs, -⟩ := h
      rw [allCompleted_map_iff] at hcs
      obtain ⟨c, hc⟩ := exists_of_forall₂_left hcs hl
      unfold childCallback at hc
      simp only [hfind, Option.map_eq_some'] at hc
      obtain ⟨t', ht', -⟩ := hc
      exact ih childNode _ t' ht'
  intro node visited
  obtain ⟨t, ht⟩ := buildTreeFuel_complete allNodes allLinks node visited
  exact key _ node visited t ht

theorem mem_childLinks (allLinks : List (Link P)) (id : String) (link : Link P) :
    link ∈ childLinks allLinks id ↔
      link ∈ allLinks ∧ link.source = id ∧ link.ownership ≠ none := by
  unfold childLinks
  simp only [List.mem_filter, Bool.and_eq_true, beq_iff_eq, Option.isSome_iff_ne_none]

theorem find?_id_eq_some {allNodes : List Node} {target : String} {childNode : Node}
    (h : allNodes.find? (fun n => n.id == target) = some childNode) :
    childNode ∈ allNodes ∧ childNode.id = target := by
  refine ⟨List.mem_of_find?_eq_some h, ?_⟩
  have := List.find?_some h
  simpa using this

/-- Every proper descendant of the tree of a call made on behalf of `root` is
classified. -/
theorem occurrenceKind_of_descendant (allNodes : List Node) (allLinks : List (Link P))
    (root : Node) (visited₀ : List String) :
    ∀ node visited, Called allNodes allLinks root visited₀ node visited →
      ∀ o ∈ occurrencesList (node.id :: visited)
          (buildTreeRecursive node allNodes allLinks visited).children,
        OccurrenceKind allNodes allLinks root visited₀ o := by
  apply buildTreeRecursive_induction allNodes allLinks
  intro node visited ih hcalled o ho
  by_cases hv : node.id ∈ visited
  · rw [buildTreeRecursive_of_mem node allNodes allLinks visited hv] at ho
    simp [HierarchyNode.children, occurrencesList] at ho
  · rw [buildTreeRecursive_children node allNodes allLinks visited hv,
      mem_occurrencesList] at ho
    obtain ⟨c, hc, hoc⟩ := ho
    rcases List.mem_append.1 hc with hce | hcp
    · obtain ⟨link, hl, childNode, hfind, rfl⟩ :=
        (mem_entityChildren node allNodes allLinks visited c).1 hce
      rw [mem_occurrencesFrom, setOwnershipPerc_children, setOwnershipPerc_node,
        buildTreeRecursive_node] at hoc
      rcases hoc with rfl | hdesc
      · exact OccurrenceKind.entityChild node visited link childNode hcalled hv hl hfind rfl
      · refine ih hv link hl childNode hfind (Called.child hcalled hv hl hfind) o ?_
        rw [mem_occurrencesList]
        exact hdesc
    · obtain ⟨person, hm, ht, he, rfl⟩ := (mem_personChildren allNodes node.id c).1 hcp
      rw [mem_occurrencesFrom] at hoc
      rcases hoc with rfl | ⟨c', hc', -⟩
      · exact OccurrenceKind.personLeaf node visited person hcalled hv hm ht he rfl
      · simp [HierarchyNode.children] at hc'

/-- Every occurrence of the tree built for `root` is the root, a child produced
for a link by an expanding call, or a person leaf. -/
theorem occurrenceKind_of_mem (allNodes : List Node) (allLinks : List (Link P))
    (root : Node) (visited₀ : List String) (o : List String × HierarchyNode P)
    (ho : o ∈ occurrencesFrom visited₀ (buildTreeRecursive root allNodes allLinks visited₀)) :
    OccurrenceKind allNodes allLinks root visited₀ o := by
  rw [occurrencesFrom_eq, List.mem_cons, buildTreeRecursive_node] at ho
  rcases ho with rfl | hdesc
  · exact OccurrenceKind.root rfl
  · exact occurrenceKind_of_descendant allNodes allLinks root visited₀ root visited₀
      Called.root o hdesc

/-- The visited set of a call holds no id twice. -/
theorem called_nodup (allNodes : List Node) (allLinks : List (Link P)) (root : Node)
    (visited₀ : List String) (h₀ : visited₀.Nodup) (node : Node) (visited : List String)
    (h : Called allNodes allLinks root visited₀ node visited) : visited.Nodup := by
  induction h with
  | root => exact h₀
  | child _ hv _ _ ih => exact List.nodup_cons.2 ⟨hv, ih⟩

/-- Every id of the visited set of a call started from the empty set owns,
through a path of ownership links, the node of the call. -/
theorem called_path (allNodes : List Node) (allLinks : List (Link P)) (root : Node)
    (node : Node) (visited : List String)
    (h : Called allNodes allLinks root [] node visited) :
    ∀ v ∈ visited, OwnershipPath allLinks v node.id := by
  induction h with
  | root => intro v hv; cases hv
  | @child node visited link childNode _ _ hl hfind ih =>
    have hedge : OwnershipEdge allLinks node.id childNode.id := by
      obtain ⟨hmem, hsrc, hown⟩ := (mem_childLinks allLinks node.id link).1 hl
      exact ⟨link, hmem, hsrc, (find?_id_eq_some hfind).2.symm, hown⟩
    intro v hv
    rcases List.mem_cons.1 hv with rfl | hv'
    · exact Relation.TransGen.single hedge
    · exact Relation.TransGen.tail (ih v hv') hedge

/-! ## Termination and cycle truncation -/

/-- C1: for every root, node list and link list (cyclic or not), the call
`buildTreeRecursive(root, nodes, links)` with an empty visited set returns: there
is a tree `t` that the run returns as soon as it is given `nodes.length + 2`
levels of call stack, whatever it is given beyond that, and `t` is the value of
`buildTreeRecursive`. -/
theorem buildTreeRecursive_terminates (root : Node) (nodes : List Node)
    (links : List (Link P)) :
    ∃ t : HierarchyNode P,
      (∀ k, buildTreeFuel (nodes.length + 2 + k) root nodes links [] = some t) ∧
      buildTreeRecursive root nodes links [] = t :=
  ⟨buildTreeRecursive root nodes links [],
    fun k => buildTreeFuel_enough nodes links root [] k, rfl⟩

/-- C2: in the tree built from an empty visited set, every node whose id is the
id of one of its proper ancestors has an empty child list. -/
theorem truncated_at_second_occurrence (root : Node) (nodes : List Node)
    (links : List (Link P)) :
    ∀ o ∈ occurrencesFrom [] (buildTreeRecursive root nodes links []),
      o.2.node.id ∈ o.1 → o.2.children = [] := by
  intro o ho hrep
  rcases occurrenceKind_of_mem nodes links root [] o ho with
    h | ⟨parent, visited, link, childNode, _, _, _, _, h⟩ |
    ⟨parent, visited, person, _, _, _, _, _, h⟩
  · subst h
    cases hrep
  · subst h
    simp only [setOwnershipPerc_node, buildTreeRecursive_node] at hrep
    rw [setOwnershipPerc_children, buildTreeRecursive_of_mem _ _ _ _ hrep]
    rfl
  · subst h
    rfl

/-- Witness of C2: with links A→B, B→A the tree rooted at A is A[B[A[]]], and
the second occurrence of A has no children. -/
theorem truncated_at_second_occurrence_witness :
    buildTreeRecursive (entityNode "A") cycleNodes cycleLinks [] = cycleTree ∧
    (["B", "A"], cycleLeaf) ∈
      occurrencesFrom [] (buildTreeRecursive (entityNode "A") cycleNodes cycleLinks []) ∧
    cycleLeaf.node.id ∈ ["B", "A"] ∧
    cycleLeaf.children = [] :=
  ⟨rfl, List.Mem.tail _ (List.Mem.tail _ (List.Mem.head _)), by decide,
    truncated_at_second_occurrence (entityNode "A") cycleNodes cycleLinks
      (["B", "A"], cycleLeaf) (List.Mem.tail _ (List.Mem.tail _ (List.Mem.head _)))
      (by decide)⟩

/-- C3, refuted as stated: with links A→B, B→A the tree rooted at A has the
root-to-leaf path A, B, A, which holds the id A twice. -/
theorem rootToLeafPath_repeats_id :
    ∃ p ∈ rootToLeafPaths (buildTreeRecursive (entityNode "A") cycleNodes cycleLinks []),
      ¬ p.Nodup :=
  ⟨["A", "B", "A"], by decide, by decide⟩

theorem mem_rootToLeafPaths (t : HierarchyNode P) (p : List String) :
    p ∈ rootToLeafPaths t ↔
      ∃ o ∈ occurrencesFrom [] t, o.2.children = [] ∧ p = o.1.reverse ++ [o.2.node.id] := by
  unfold rootToLeafPaths
  simp only [List.mem_map, List.mem_filter, List.isEmpty_iff, List.reverse_cons]
  constructor
  · rintro ⟨o, ⟨ho, hleaf⟩, rfl⟩
    exact ⟨o, ho, hleaf, rfl⟩
  · rintro ⟨o, ho, hleaf, rfl⟩
    exact ⟨o, ⟨ho, hleaf⟩, rfl⟩

/-- The proper ancestors of every occurrence have pairwise distinct ids. -/
theorem ancestors_nodup (root : Node) (nodes : List Node) (links : List (Link P)) :
    ∀ o ∈ occurrencesFrom [] (buildTreeRecursive root nodes links []), o.1.Nodup := by
  intro o ho
  rcases occurrenceKind_of_mem nodes links root [] o ho with
    h | ⟨parent, visited, link, childNode, hc, hv, _, _, h⟩ |
    ⟨parent, visited, person, hc, hv, _, _, _, h⟩
  · subst h
    exact List.nodup_nil
  · subst h
    exact List.nodup_cons.2 ⟨hv, called_nodup nodes links root [] List.nodup_nil _ _ hc⟩
  · subst h
    exact List.nodup_cons.2 ⟨hv, called_nodup nodes links root [] List.nodup_nil _ _ hc⟩

/-- C3, amended: on every root-to-leaf path of the tree built from an empty
visited set, the nodes other than the leaf have pairwise distinct ids; only the
leaf may repeat the id of one of its ancestors, so no id occurs three times. -/
theorem rootToLeafPath_nodup_dropLast (root : Node) (nodes : List Node)
    (links : List (Link P)) :
    ∀ p ∈ rootToLeafPaths (buildTreeRecursive root nodes links []), p.dropLast.Nodup := by
  intro p hp
  obtain ⟨o, ho, -, rfl⟩ := (mem_rootToLeafPaths _ p).1 hp
  rw [List.dropLast_concat, List.nodup_reverse]
  exact ancestors_nodup root nodes links o ho

/-- Witness of the amended C3: on the path A, B, A of the two-cycle, the nodes
before the leaf are A, B. -/
theorem rootToLeafPath_nodup_dropLast_witness :
    ["A", "B", "A"] ∈
      rootToLeafPaths (buildTreeRecursive (entityNode "A") cycleNodes cycleLinks []) ∧
    (["A", "B", "A"] : List String).dropLast.Nodup :=
  ⟨by decide,
    rootToLeafPath_nodup_dropLast (entityNode "A") cycleNodes cycleLinks ["A", "B", "A"]
      (by decide)⟩

/-! ## The children of an expanded node -/

theorem resolvingOwnershipLinks_eq (allNodes : List Node) (allLinks : List (Link P))
    (id : String) :
    resolvingOwnershipLinks allNodes allLinks id =
      (childLinks allLinks id).filter
        (fun link => (allNodes.find? (fun n => n.id == link.target)).isSome) := by
  unfold resolvingOwnershipLinks childLinks
  rw [List.filter_filter]
  apply List.filter_congr
  intro link _
  rw [Bool.eq_iff_iff]
  simp only [Bool.and_eq_true, decide_eq_true_eq, List.any_eq_true, List.find?_isSome,
    beq_iff_eq]
  tauto

theorem personChildren_eq (allNodes : List Node) (id : String) :
    (personChildren allNodes id : List (HierarchyNode P)) =
      (personsOf allNodes id).map personLeaf := by
  unfold personChildren personsOf
  congr 1
  apply List.filter_congr
  intro n _
  rw [Bool.eq_iff_iff]
  simp

theorem entityChildren_producedBy (node : Node) (allNodes : List Node)
    (allLinks : List (Link P)) (visited : List String) :
    List.Forall₂ (ProducedBy allNodes) (resolvingOwnershipLinks allNodes allLinks node.id)
      (entityChildren node allNodes allLinks visited) := by
  rw [resolvingOwnershipLinks_eq]
  unfold entityChildren
  induction childLinks allLinks node.id with
  | nil => exact List.Forall₂.nil
  | cons link rest ih =>
    cases hfind : allNodes.find? (fun n => n.id == link.target) with
    | none =>
      simpa [List.filter_cons, List.filterMap_cons, hfind] using ih
    | some childNode =>
      simp only [List.filter_cons, List.filterMap_cons, hfind, Option.isSome_some, if_true,
        Option.map_some']
      refine List.Forall₂.cons ⟨?_, setOwnershipPerc_ownershipPerc _ _⟩ ih
      rw [setOwnershipPerc_node, buildTreeRecursive_node]
      exact hfind

/-- The tree of an expanding call is fully expanded. -/
theorem fullyExpanded_of_not_mem (node : Node) (allNodes : List Node)
    (allLinks : List (Link P)) (visited : List String) (hv : node.id ∉ visited) :
    FullyExpanded allNodes allLinks (buildTreeRecursive node allNodes allLinks visited) := by
  refine ⟨entityChildren node allNodes allLinks visited, ?_, ?_⟩
  · rw [buildTreeRecursive_children _ _ _ _ hv, buildTreeRecursive_node, personChildren_eq]
  · rw [buildTreeRecursive_node]
    exact entityChildren_producedBy node allNodes allLinks visited

/-- C4: when the id of `node` is not in the visited set, the children of the
returned tree node are, before the person leaves, exactly one child per link of
the link list with source `node.id`, non-null ownership and a target that
resolves in the node list, in link-list order; the child carries the node the
target resolves to and an `ownershipPerc` equal to the ownership of its link. -/
theorem entity_children_per_link (node : Node) (nodes : List Node) (links : List (Link P))
    (visited : List String) (hv : node.id ∉ visited) :
    ∃ ec : List (HierarchyNode P),
      (buildTreeRecursive node nodes links visited).children =
        ec ++ (personsOf nodes node.id).map personLeaf ∧
      List.Forall₂
        (fun link c => nodes.find? (fun n => n.id == link.target) = some c.node ∧
          c.ownershipPerc = some link.ownership)
        (links.filter (fun link => decide (link.source = node.id) && link.ownership.isSome &&
          nodes.any (fun n => decide (n.id = link.target))))
        ec := by
  refine ⟨entityChildren node nodes links visited, ?_, ?_⟩
  · rw [buildTreeRecursive_children _ _ _ _ hv, personChildren_eq]
  · exact entityChildren_producedBy node nodes links visited

/-- Witness of C4: entities A, B, C with links A→B:60, A→C:40 give A with
children [B(60), C(40)]. -/
theorem entity_children_per_link_witness :
    (entityNode "A").id ∉ ([] : List String) ∧
    (buildTreeRecursive (entityNode "A") scenarioNodes scenarioLinks []).children =
      [HierarchyNode.mk (entityNode "B") [] (some (some 60)),
       HierarchyNode.mk (entityNode "C") [] (some (some 40))] ∧
    ∃ ec : List (HierarchyNode Nat),
      (buildTreeRecursive (entityNode "A") scenarioNodes scenarioLinks []).children =
        ec ++ (personsOf scenarioNodes (entityNode "A").id).map personLeaf ∧
      List.Forall₂
        (fun link c => scenarioNodes.find? (fun n => n.id == link.target) = some c.node ∧
          c.ownershipPerc = some link.ownership)
        (scenarioLinks.filter (fun link =>
          decide (link.source = (entityNode "A").id) && link.ownership.isSome &&
          scenarioNodes.any (fun n => decide (n.id = link.target))))
        ec :=
  ⟨by decide, rfl,
    entity_children_per_link (entityNode "A") scenarioNodes scenarioLinks [] (by decide)⟩

/-! ## Acyclic ownership -/

theorem rank_lt_of_ownershipPath (links : List (Link P)) (rank : String → Nat)
    (h : ∀ l ∈ links, l.ownership ≠ none → rank l.source < rank l.target)
    (a b : String) (hab : OwnershipPath links a b) : rank a < rank b := by
  induction hab with
  | single hedge =>
    obtain ⟨l, hl, rfl, rfl, hown⟩ := hedge
    exact h l hl hown
  | tail _ hedge ih =>
    obtain ⟨l, hl, rfl, rfl, hown⟩ := hedge
    exact Nat.lt_trans ih (h l hl hown)

/-- Links that all increase some rank contain no directed cycle. -/
theorem acyclic_of_rank (links : List (Link P)) (rank : String → Nat)
    (h : ∀ l ∈ links, l.ownership ≠ none → rank l.source < rank l.target) :
    Acyclic links :=
  fun x hx => Nat.lt_irrefl _ (rank_lt_of_ownershipPath links rank h x x hx)

theorem fullyExpanded_setOwnershipPerc (allNodes : List Node) (allLinks : List (Link P))
    (v : Option P) (t : HierarchyNode P) (h : FullyExpanded allNodes allLinks t) :
    FullyExpanded allNodes allLinks (t.setOwnershipPerc v) := by
  unfold FullyExpanded at h ⊢
  rw [setOwnershipPerc_children, setOwnershipPerc_node]
  exact h

/-- C5, refuted as stated: with the entities A and B, a person P of A, the
ownership link P→B:50 and the attachment link of P there is no cycle, and the
occurrence of P in the tree rooted at A is a childless person leaf although the
link P→B has source P, a non-null percentage and a target that resolves. -/
theorem person_leaf_not_expanded :
    Acyclic ownerPersonLinks ∧
    ∃ o ∈ occurrencesFrom []
        (buildTreeRecursive (entityNode "A") ownerPersonNodes ownerPersonLinks []),
      ¬ FullyExpanded ownerPersonNodes ownerPersonLinks o.2 := by
  refine ⟨acyclic_of_rank _ ownerPersonRank (by decide),
    (["A"], personLeaf (personNode "P" (some "A"))),
    List.Mem.tail _ (List.Mem.head _), ?_⟩
  rintro ⟨ec, hchildren, hlinks⟩
  have hres : resolvingOwnershipLinks ownerPersonNodes ownerPersonLinks
      (personLeaf (personNode "P" (some "A")) : HierarchyNode Nat).node.id =
      [own "P" "B" 50] := by decide
  rw [hres] at hlinks
  have hnil : ec = [] := (List.append_eq_nil.1 hchildren.symm).1
  rw [hnil] at hlinks
  cases hlinks

/-- C5, amended: when the ownership links contain no directed cycle, every
occurrence that is not a person leaf (its `ownershipPerc` is not `null`) is not
truncated: its id is the id of none of its ancestors, and its children are one
child per resolving ownership link out of its id, in link order, each with the
percentage of its link, followed by its person leaves. -/
theorem acyclic_fully_expanded (root : Node) (nodes : List Node) (links : List (Link P))
    (hacyclic : Acyclic links) :
    ∀ o ∈ occurrencesFrom [] (buildTreeRecursive root nodes links []),
      o.2.ownershipPerc ≠ some none →
      o.2.node.id ∉ o.1 ∧ FullyExpanded nodes links o.2 := by
  intro o ho hperc
  rcases occurrenceKind_of_mem nodes links root [] o ho with
    h | ⟨parent, visited, link, childNode, hc, hv, hl, hfind, h⟩ |
    ⟨parent, visited, person, _, _, _, _, _, h⟩
  · subst h
    exact ⟨List.not_mem_nil _, fullyExpanded_of_not_mem root nodes links [] (List.not_mem_nil _)⟩
  · subst h
    have hnot : childNode.id ∉ parent.id :: visited := fun hmem =>
      hacyclic childNode.id
        (called_path nodes links root childNode _ (Called.child hc hv hl hfind) _ hmem)
    refine ⟨?_, fullyExpanded_setOwnershipPerc nodes links _ _
      (fullyExpanded_of_not_mem childNode nodes links _ hnot)⟩
    rw [setOwnershipPerc_node, buildTreeRecursive_node]
    exact hnot
  · subst h
    exact absurd rfl hperc

/-- Witness of the amended C5: the diamond A→B, A→C, B→D, C→D rooted at A yields D
once under B with the percentage of B→D and once under C with the percentage of
C→D; the occurrence of B is fully expanded. -/
theorem acyclic_fully_expanded_witness :
    Acyclic diamondLinks ∧
    buildTreeRecursive (entityNode "A") diamondNodes diamondLinks [] = diamondTree ∧
    (["A"], HierarchyNode.mk (entityNode "B")
        [HierarchyNode.mk (entityNode "D") [] (some (some 30))] (some (some 60))) ∈
      occurrencesFrom [] (buildTreeRecursive (entityNode "A") diamondNodes diamondLinks []) ∧
    ("B" ∉ ["A"] ∧
      FullyExpanded diamondNodes diamondLinks
        (HierarchyNode.mk (entityNode "B")
          [HierarchyNode.mk (entityNode "D") [] (some (some 30))] (some (some 60)))) :=
  ⟨acyclic_of_rank _ diamondRank (by decide), rfl, List.Mem.tail _ (List.Mem.head _),
    acyclic_fully_expanded (entityNode "A") diamondNodes diamondLinks
      (acyclic_of_rank _ diamondRank (by decide))
      (["A"], HierarchyNode.mk (entityNode "B")
        [HierarchyNode.mk (entityNode "D") [] (some (some 30))] (some (some 60)))
      (List.Mem.tail _ (List.Mem.head _)) (by simp [HierarchyNode.ownershipPerc])⟩

/-! ## Person leaves -/

theorem producedBy_ownershipPerc_ne_null (allNodes : List Node) (allLinks : List (Link P))
    (id : String) (ec : List (HierarchyNode P))
    (h : List.Forall₂ (ProducedBy allNodes) (resolvingOwnershipLinks allNodes allLinks id) ec) :
    ∀ c ∈ ec, c.ownershipPerc ≠ some none := by
  have hsub : ∀ l ∈ resolvingOwnershipLinks allNodes allLinks id, l.ownership ≠ none := by
    intro l hl
    rw [resolvingOwnershipLinks_eq] at hl
    exact ((mem_childLinks allLinks id l).1 (List.mem_of_mem_filter hl)).2.2
  generalize resolvingOwnershipLinks allNodes allLinks id = ls at h hsub
  induction h with
  | nil => intro c hc; cases hc
  | @cons l c ls cs hlc _ ih =>
    intro c' hc'
    rcases List.mem_cons.1 hc' with rfl | hmem
    · intro hnull
      rw [hlc.2] at hnull
      exact hsub l (List.mem_cons_self l ls) (Option.some.inj hnull)
    · exact ih (fun l' hl' => hsub l' (List.mem_cons_of_mem l hl')) c' hmem

/-- C6: when the id `x` of `node` is not in the visited set, the children of the
returned tree node are the children produced by links (none of which has a
`null` percentage) followed by exactly the person nodes of the node list whose
`entityId` is `x`, in node-list order, each as a leaf with no children and a
`null` `ownershipPerc`; and every person leaf anywhere in the tree has an
`entityId`, namely the id of its parent, so a person with no `entityId` is
never attached. -/
theorem person_leaves_appended (node : Node) (nodes : List Node) (links : List (Link P))
    (visited : List String) (hv : node.id ∉ visited) :
    (∃ ec : List (HierarchyNode P),
      (buildTreeRecursive node nodes links visited).children =
        ec ++ (nodes.filter (fun n => decide (n.type = NodeType.person) &&
          decide (n.entityId = some node.id))).map
            (fun person => HierarchyNode.mk person [] (some none)) ∧
      List.Forall₂ (ProducedBy nodes) (resolvingOwnershipLinks nodes links node.id) ec ∧
      ∀ c ∈ ec, c.ownershipPerc ≠ some none) ∧
    (∀ o ∈ occurrencesFrom visited (buildTreeRecursive node nodes links visited),
      ∀ person : Node, o.2 = HierarchyNode.mk person [] (some none) →
        person.type = NodeType.person ∧ person ∈ nodes ∧
        ∃ parent : String, o.1.head? = some parent ∧ person.entityId = some parent) := by
  refine ⟨⟨entityChildren node nodes links visited, ?_,
    entityChildren_producedBy node nodes links visited,
    producedBy_ownershipPerc_ne_null nodes links node.id _
      (entityChildren_producedBy node nodes links visited)⟩, ?_⟩
  · rw [buildTreeRecursive_children _ _ _ _ hv, personChildren_eq]
    rfl
  · intro o ho person hperson
    rcases occurrenceKind_of_mem nodes links node visited o ho with
      h | ⟨parent, visited', link, childNode, _, _, hl, _, h⟩ |
      ⟨parent, visited', person', _, _, hm, ht, he, h⟩
    · subst h
      have := buildTreeRecursive_ownershipPerc node nodes links visited
      simp only at hperson
      rw [hperson] at this
      cases this
    · subst h
      have := setOwnershipPerc_ownershipPerc link.ownership
        (buildTreeRecursive childNode nodes links (parent.id :: visited'))
      simp only at hperson
      rw [hperson] at this
      exact absurd (Option.some.inj this).symm ((mem_childLinks links parent.id link).1 hl).2.2
    · subst h
      simp only [HierarchyNode.mk.injEq, and_true] at hperson
      subst hperson
      exact ⟨ht, hm, parent.id, rfl, he⟩

/-- Witness of C6: entity A with the persons P1 and P3, the entity B owned by A
and the person P2 with no `entityId`: the children of A are B, then P1, P3. -/
theorem person_leaves_appended_witness :
    (entityNode "A").id ∉ ([] : List String) ∧
    (buildTreeRecursive (entityNode "A") staffNodes staffLinks []).children =
      [HierarchyNode.mk (entityNode "B") [] (some (some 60)),
       HierarchyNode.mk (personNode "P1" (some "A")) [] (some none),
       HierarchyNode.mk (personNode "P3" (some "A")) [] (some none)] ∧
    (∀ o ∈ occurrencesFrom [] (buildTreeRecursive (entityNode "A") staffNodes staffLinks []),
      ∀ person : Node, o.2 = HierarchyNode.mk person [] (some none) →
        person.type = NodeType.person ∧ person ∈ staffNodes ∧
        ∃ parent : String, o.1.head? = some parent ∧ person.entityId = some parent) :=
  ⟨by decide, rfl,
    (person_leaves_appended (entityNode "A") staffNodes staffLinks [] (by decide)).2⟩

/-! ## Children and links -/

/-- C7, refuted as stated: with an entity A, a person P of A and the attachment
link that `getFilteredData` synthesizes for P, which runs from P to A, the tree
rooted at A has the child P under A, and no link has source A and target P. -/
theorem person_child_without_link :
    personLinks attachmentNodes = attachmentLinks ∧
    ∃ o ∈ occurrencesFrom []
        (buildTreeRecursive (entityNode "A") attachmentNodes attachmentLinks []),
      ∃ c ∈ o.2.children,
        ¬ ∃ l ∈ attachmentLinks, l.source = o.2.node.id ∧ l.target = c.node.id :=
  ⟨by decide,
    ([], buildTreeRecursive (entityNode "A") attachmentNodes attachmentLinks []),
    List.Mem.head _, personLeaf (personNode "P" (some "A")), List.Mem.head _, by decide⟩

theorem children_link_or_person (node : Node) (allNodes : List Node)
    (allLinks : List (Link P)) (visited : List String) :
    ∀ c ∈ (buildTreeRecursive node allNodes allLinks visited).children,
      (∃ l ∈ allLinks, l.source = node.id ∧ l.target = c.node.id ∧
        l.ownership ≠ none ∧ c.ownershipPerc = some l.ownership) ∨
      (c.node ∈ allNodes ∧ c.node.type = NodeType.person ∧
        c.node.entityId = some node.id ∧ c.children = [] ∧ c.ownershipPerc = some none) := by
  intro c hc
  by_cases hv : node.id ∈ visited
  · rw [buildTreeRecursive_of_mem _ _ _ _ hv] at hc
    cases hc
  · rw [buildTreeRecursive_children _ _ _ _ hv] at hc
    rcases List.mem_append.1 hc with hce | hcp
    · obtain ⟨link, hl, childNode, hfind, rfl⟩ :=
        (mem_entityChildren node allNodes allLinks visited c).1 hce
      obtain ⟨hmem, hsrc, hown⟩ := (mem_childLinks allLinks node.id link).1 hl
      left
      refine ⟨link, hmem, hsrc, ?_, hown, setOwnershipPerc_ownershipPerc _ _⟩
      rw [setOwnershipPerc_node, buildTreeRecursive_node]
      exact (find?_id_eq_some hfind).2.symm
    · obtain ⟨person, hm, ht, he, rfl⟩ := (mem_personChildren allNodes node.id c).1 hcp
      right
      exact ⟨hm, ht, he, rfl, rfl⟩

/-- C7, amended: for every node N of the tree built from an empty visited set,
every child of N either is the target of a link of the link list whose source
is the id of N and whose ownership is non-null, and carries the ownership of
that link, or is a person leaf: a childless person node of the node list whose
`entityId` is the id of N, with a `null` `ownershipPerc`. -/
theorem child_is_link_target_or_person (root : Node) (nodes : List Node)
    (links : List (Link P)) :
    ∀ o ∈ occurrencesFrom [] (buildTreeRecursive root nodes links []),
      ∀ c ∈ o.2.children,
        (∃ l ∈ links, l.source = o.2.node.id ∧ l.target = c.node.id ∧
          l.ownership ≠ none ∧ c.ownershipPerc = some l.ownership) ∨
        (c.node ∈ nodes ∧ c.node.type = NodeType.person ∧
          c.node.entityId = some o.2.node.id ∧ c.children = [] ∧
          c.ownershipPerc = some none) := by
  intro o ho c hc
  rcases occurrenceKind_of_mem nodes links root [] o ho with
    h | ⟨parent, visited, link, childNode, _, _, _, _, h⟩ |
    ⟨parent, visited, person, _, _, _, _, _, h⟩
  · subst h
    simp only [buildTreeRecursive_node] at hc ⊢
    exact children_link_or_person root nodes links [] c hc
  · subst h
    simp only [setOwnershipPerc_node, setOwnershipPerc_children,
      buildTreeRecursive_node] at hc ⊢
    exact children_link_or_person childNode nodes links _ c hc
  · subst h
    cases hc

/-- Witness of the amended C7: in the tree of scenario 1 the child B of A is the
target of the link A→B:60 and carries 60. -/
theorem child_is_link_target_or_person_witness :
    ([], buildTreeRecursive (entityNode "A") scenarioNodes scenarioLinks []) ∈
      occurrencesFrom [] (buildTreeRecursive (entityNode "A") scenarioNodes scenarioLinks []) ∧
    HierarchyNode.mk (entityNode "B") [] (some (some 60)) ∈
      (buildTreeRecursive (entityNode "A") scenarioNodes scenarioLinks []).children ∧
    ((∃ l ∈ scenarioLinks, l.source = "A" ∧ l.target = "B" ∧
        l.ownership ≠ none ∧ some (some 60) = some l.ownership) ∨
      (entityNode "B" ∈ scenarioNodes ∧ (entityNode "B").type = NodeType.person ∧
        (entityNode "B").entityId = some "A" ∧
        (HierarchyNode.mk (entityNode "B") [] (some (some 60)) : HierarchyNode Nat).children
          = [] ∧
        (some (some 60) : Option (Option Nat)) = some none)) :=
  ⟨List.Mem.head _, List.Mem.head _,
    child_is_link_target_or_person (entityNode "A") scenarioNodes scenarioLinks
      ([], buildTreeRecursive (entityNode "A") scenarioNodes scenarioLinks [])
      (List.Mem.head _) (HierarchyNode.mk (entityNode "B") [] (some (some 60)))
      (List.Mem.head _)⟩

/-! ## Termination of `detectCircularReferences` -/

theorem dfsFuel_succ (ownershipLinks : List (Link P)) (fuel : Nat) (entityId : String)
    (path : List String) (st : DfsState) :
    dfsFuel ownershipLinks (fuel + 1) entityId path st =
      if entityId ∈ st.recursionStack then
        some (true,
          { st with cycles := st.cycles ++ [sliceFromIndexOf path entityId ++ [entityId]] })
      else if entityId ∈ st.visited then some (false, st)
      else
        (dfsChildren
          (fun child s => dfsFuel ownershipLinks fuel child (path ++ [entityId]) s)
          ((ownershipLinks.filter (fun link => link.source == entityId)).map
            (fun link => link.target))
          { st with visited := entityId :: st.visited,
                    recursionStack := entityId :: st.recursionStack }).map
          (fun st => (false,
            { st with recursionStack := st.recursionStack.filter (fun x => x != entityId) })) :=
  rfl

theorem card_sdiff_toFinset_mono (S : Finset String) (v w : List String) (h : v ⊆ w) :
    (S \ w.toFinset).card ≤ (S \ v.toFinset).card := by
  apply Finset.card_le_card
  intro y hy
  simp only [Finset.mem_sdiff, List.mem_toFinset] at hy ⊢
  exact ⟨hy.1, fun hv => hy.2 (h hv)⟩

theorem card_sdiff_toFinset_cons_lt (S : Finset String) (v : List String) (x : String)
    (hx : x ∈ S) (hv : x ∉ v) :
    (S \ (x :: v).toFinset).card < (S \ v.toFinset).card := by
  apply Finset.card_lt_card
  rw [Finset.ssubset_iff_of_subset]
  · refine ⟨x, ?_, ?_⟩
    · simp only [Finset.mem_sdiff, List.mem_toFinset]
      exact ⟨hx, hv⟩
    · simp
  · intro y hy
    simp only [Finset.mem_sdiff, List.mem_toFinset, List.mem_cons, not_or] at hy ⊢
    exact ⟨hy.1, hy.2.2⟩

theorem dfsChildren_complete (S : Finset String) (fuel : Nat)
    (call : String → DfsState → Option (Bool × DfsState))
    (hcall : ∀ c s, c ∈ S → (S \ s.visited.toFinset).card < fuel →
      ∃ b s', call c s = some (b, s') ∧ s.visited ⊆ s'.visited) :
    ∀ (children : List String) (st : DfsState), (∀ c ∈ children, c ∈ S) →
      (S \ st.visited.toFinset).card < fuel →
      ∃ st', dfsChildren call children st = some st' ∧ st.visited ⊆ st'.visited := by
  intro children
  induction children with
  | nil =>
    intro st _ _
    exact ⟨st, rfl, List.Subset.refl _⟩
  | cons child rest ih =>
    intro st hmem hlt
    obtain ⟨b, s', hs', hsub⟩ := hcall child st (hmem child (List.mem_cons_self _ _)) hlt
    cases b with
    | true =>
      exact ⟨s', by simp [dfsChildren, hs'], hsub⟩
    | false =>
      have hlt' : (S \ s'.visited.toFinset).card < fuel :=
        Nat.lt_of_le_of_lt (card_sdiff_toFinset_mono S _ _ hsub) hlt
      obtain ⟨st'', hst'', hsub''⟩ :=
        ih s' (fun c hc => hmem c (List.mem_cons_of_mem _ hc)) hlt'
      exact ⟨st'', by simp [dfsChildren, hs', hst''], List.Subset.trans hsub hsub''⟩

theorem dfsFuel_complete (ownershipLinks : List (Link P)) (S : Finset String)
    (hS : ∀ l ∈ ownershipLinks, l.target ∈ S) :
    ∀ (fuel : Nat) (entityId : String) (path : List String) (st : DfsState),
      entityId ∈ S → (S \ st.visited.toFinset).card < fuel →
      ∃ b st', dfsFuel ownershipLinks fuel entityId path st = some (b, st') ∧
        st.visited ⊆ st'.visited := by
  intro fuel
  induction fuel with
  | zero =>
    intro _ _ _ _ h
    exact absurd h (Nat.not_lt_zero _)
  | succ fuel ih =>
    intro entityId path st hmem hlt
    rw [dfsFuel_succ]
    by_cases hstack : entityId ∈ st.recursionStack
    · rw [if_pos hstack]
      exact ⟨_, _, rfl, List.Subset.refl _⟩
    · rw [if_neg hstack]
      by_cases hvis : entityId ∈ st.visited
      · rw [if_pos hvis]
        exact ⟨_, _, rfl, List.Subset.refl _⟩
      · rw [if_neg hvis]
        have hdec := card_sdiff_toFinset_cons_lt S st.visited entityId hmem hvis
        obtain ⟨st', hst', hsub⟩ := dfsChildren_complete S fuel
          (fun child s => dfsFuel ownershipLinks fuel child (path ++ [entityId]) s)
          (fun c s hc hs => ih c _ s hc hs)
          ((ownershipLinks.filter (fun link => link.source == entityId)).map
            (fun link => link.target))
          { st with visited := entityId :: st.visited,
                    recursionStack := entityId :: st.recursionStack }
          (by
            intro c hc
            obtain ⟨l, hl, rfl⟩ := List.mem_map.1 hc
            exact hS l (List.mem_of_mem_filter hl))
          (by
            show (S \ (entityId :: st.visited).toFinset).card < fuel
            omega)
        rw [hst']
        refine ⟨false, _, rfl, ?_⟩
        exact fun x hx => hsub (List.mem_cons_of_mem _ hx)

theorem dfsRoots_complete (S : Finset String) (fuel : Nat)
    (call : String → DfsState → Option (Bool × DfsState))
    (hcall : ∀ c s, c ∈ S → (S \ s.visited.toFinset).card < fuel →
      ∃ b s', call c s = some (b, s') ∧ s.visited ⊆ s'.visited)
    (hfuel : S.card < fuel) :
    ∀ (entityIds : List String) (st : DfsState), (∀ c ∈ entityIds, c ∈ S) →
      ∃ st', dfsRoots call entityIds st = some st' := by
  intro entityIds
  induction entityIds with
  | nil =>
    intro st _
    exact ⟨st, rfl⟩
  | cons entityId rest ih =>
    intro st hmem
    have hrest : ∀ c ∈ rest, c ∈ S := fun c hc => hmem c (List.mem_cons_of_mem _ hc)
    by_cases hvis : entityId ∈ st.visited
    · obtain ⟨st', hst'⟩ := ih st hrest
      exact ⟨st', by simp [dfsRoots, hvis, hst']⟩
    · have hlt : (S \ st.visited.toFinset).card < fuel :=
        Nat.lt_of_le_of_lt (Finset.card_le_card Finset.sdiff_subset) hfuel
      obtain ⟨b, s', hs', -⟩ := hcall entityId st (hmem entityId (List.mem_cons_self _ _)) hlt
      obtain ⟨st', hst'⟩ := ih s' hrest
      exact ⟨st', by simp [dfsRoots, hvis, hs', hst']⟩

theorem mem_setAdd (s : List String) (x y : String) :
    y ∈ setAdd s x ↔ y ∈ s ∨ y = x := by
  unfold setAdd
  by_cases hx : x ∈ s
  · rw [if_pos hx]
    constructor
    · exact Or.inl
    · rintro (h | rfl)
      · exact h
      · exact hx
  · rw [if_neg hx]
    simp

theorem mem_foldl_setAdd (ownershipLinks : List (Link P)) :
    ∀ (init : List String) (y : String),
      y ∈ ownershipLinks.foldl
        (fun ids link => setAdd (setAdd ids link.source) link.target) init →
      y ∈ init ∨ ∃ l ∈ ownershipLinks, y = l.source ∨ y = l.target := by
  induction ownershipLinks with
  | nil =>
    intro init y h
    exact Or.inl h
  | cons l rest ih =>
    intro init y h
    rw [List.foldl_cons] at h
    rcases ih _ y h with h1 | ⟨l', hl', h2⟩
    · rw [mem_setAdd, mem_setAdd] at h1
      rcases h1 with (h1 | h1) | h1
      · exact Or.inl h1
      · exact Or.inr ⟨l, List.mem_cons_self _ _, Or.inl h1⟩
      · exact Or.inr ⟨l, List.mem_cons_self _ _, Or.inr h1⟩
    · exact Or.inr ⟨l', List.mem_cons_of_mem _ hl', h2⟩

theorem endpoints_card_le (ownershipLinks : List (Link P)) :
    ((ownershipLinks.flatMap (fun l => [l.source, l.target])).toFinset).card ≤
      2 * ownershipLinks.length := by
  refine Nat.le_trans (List.toFinset_card_le _) ?_
  induction ownershipLinks with
  | nil => simp
  | cons l rest ih =>
    simp only [List.flatMap_cons, List.length_append, List.length_cons, List.length_nil]
    omega

theorem dfsRoots_collectEntityIds_complete (ownershipLinks : List (Link P)) (fuel : Nat)
    (hfuel : 2 * ownershipLinks.length < fuel) (st : DfsState) :
    ∃ st', dfsRoots (fun entityId s => dfsFuel ownershipLinks fuel entityId [] s)
      (collectEntityIds ownershipLinks) st = some st' := by
  have hS : ∀ l ∈ ownershipLinks,
      l.target ∈ (ownershipLinks.flatMap (fun l => [l.source, l.target])).toFinset := by
    intro l hl
    simp only [List.mem_toFinset, List.mem_flatMap]
    exact ⟨l, hl, by simp⟩
  have hroots : ∀ c ∈ collectEntityIds ownershipLinks,
      c ∈ (ownershipLinks.flatMap (fun l => [l.source, l.target])).toFinset := by
    intro c hc
    rcases mem_foldl_setAdd ownershipLinks [] c hc with h | ⟨l, hl, h⟩
    · cases h
    · simp only [List.mem_toFinset, List.mem_flatMap]
      refine ⟨l, hl, ?_⟩
      rcases h with rfl | rfl <;> simp
  exact dfsRoots_complete _ fuel _
    (fun c s hc hs => dfsFuel_complete ownershipLinks _ hS _ c [] s hc hs)
    (Nat.lt_of_le_of_lt (endpoints_card_le ownershipLinks) hfuel)
    (collectEntityIds ownershipLinks) st hroots

/-- The run of `detectCircularReferences` returns when `dfs` is given
`2 * links.length + 1` levels of call stack. -/
theorem detectCircularReferencesFuel_complete (links : List (Link P)) :
    ∃ cycles, detectCircularReferencesFuel (2 * links.length + 1) links = some cycles := by
  have hlen : (links.filter (fun link => link.ownership.isSome)).length ≤ links.length :=
    List.length_filter_le _ _
  obtain ⟨st', hst'⟩ := dfsRoots_collectEntityIds_complete
    (links.filter (fun link => link.ownership.isSome)) (2 * links.length + 1) (by omega)
    { cycles := [], visited := [], recursionStack := [] }
  refine ⟨st'.cycles, ?_⟩
  unfold detectCircularReferencesFuel
  simp only [hst', Option.map_some']

theorem dfsChildren_mono (call call' : String → DfsState → Option (Bool × DfsState))
    (h : ∀ c s r, call c s = some r → call' c s = some r) :
    ∀ (children : List String) (st st' : DfsState),
      dfsChildren call children st = some st' → dfsChildren call' children st = some st' := by
  intro children
  induction children with
  | nil =>
    intro st st' hst
    exact hst
  | cons child rest ih =>
    intro st st' hst
    unfold dfsChildren at hst ⊢
    cases hc : call child st with
    | none => simp [hc] at hst
    | some r =>
      obtain ⟨b, s⟩ := r
      rw [h child st _ hc]
      rw [hc] at hst
      cases b with
      | true => exact hst
      | false => exact ih s st' hst

theorem dfsRoots_mono (call call' : String → DfsState → Option (Bool × DfsState))
    (h : ∀ c s r, call c s = some r → call' c s = some r) :
    ∀ (entityIds : List String) (st st' : DfsState),
      dfsRoots call entityIds st = some st' → dfsRoots call' entityIds st = some st' := by
  intro entityIds
  induction entityIds with
  | nil =>
    intro st st' hst
    exact hst
  | cons entityId rest ih =>
    intro st st' hst
    unfold dfsRoots at hst ⊢
    by_cases hvis : entityId ∈ st.visited
    · rw [if_pos hvis] at hst ⊢
      exact ih st st' hst
    · rw [if_neg hvis] at hst ⊢
      cases hc : call entityId st with
      | none => simp [hc] at hst
      | some r =>
        rw [h entityId st _ hc]
        rw [hc] at hst
        exact ih r.2 st' hst

theorem dfsFuel_mono_succ (ownershipLinks : List (Link P)) :
    ∀ (fuel : Nat) (entityId : String) (path : List String) (st : DfsState)
      (r : Bool × DfsState),
      dfsFuel ownershipLinks fuel entityId path st = some r →
      dfsFuel ownershipLinks (fuel + 1) entityId path st = some r := by
  intro fuel
  induction fuel with
  | zero =>
    intro entityId path st r h
    simp [dfsFuel] at h
  | succ fuel ih =>
    intro entityId path st r h
    rw [dfsFuel_succ] at h ⊢
    by_cases hstack : entityId ∈ st.recursionStack
    · rw [if_pos hstack] at h ⊢
      exact h
    · rw [if_neg hstack] at h ⊢
      by_cases hvis : entityId ∈ st.visited
      · rw [if_pos hvis] at h ⊢
        exact h
      · rw [if_neg hvis] at h ⊢
        rw [Option.map_eq_some'] at h ⊢
        obtain ⟨st', hst', hr⟩ := h
        exact ⟨st', dfsChildren_mono _ _ (fun c s r hc => ih c _ s r hc) _ _ _ hst', hr⟩

theorem dfsFuel_mono (ownershipLinks : List (Link P)) (fuel k : Nat) (entityId : String)
    (path : List String) (st : DfsState) (r : Bool × DfsState)
    (h : dfsFuel ownershipLinks fuel entityId path st = some r) :
    dfsFuel ownershipLinks (fuel + k) entityId path st = some r := by
  induction k with
  | zero => exact h
  | succ k ih => exact dfsFuel_mono_succ ownershipLinks _ _ _ _ _ ih

/-- With `2 * links.length + 1` levels of call stack or more, the run of
`detectCircularReferences` returns the value of `detectCircularReferences`. -/
theorem detectCircularReferencesFuel_enough (links : List (Link P)) (k : Nat) :
    detectCircularReferencesFuel (2 * links.length + 1 + k) links =
      some (detectCircularReferences links) := by
  obtain ⟨cycles, hc⟩ := detectCircularReferencesFuel_complete links
  have hval : detectCircularReferences links = cycles := by
    simp [detectCircularReferences, hc]
  rw [hval]
  unfold detectCircularReferencesFuel at hc ⊢
  rw [Option.map_eq_some'] at hc ⊢
  obtain ⟨st, hst, hcycles⟩ := hc
  exact ⟨st, dfsRoots_mono _ _
    (fun c s r hr => dfsFuel_mono _ (2 * links.length + 1) k c [] s r hr) _ _ _ hst, hcycles⟩

/-! ## Root selection in `buildHierarchy` -/

/-- The node that `buildHierarchy` builds for an entity of the full dataset. -/
theorem fullNodes_eq_map (data : OrgChartData P) :
    fullNodes data = data.entities.map (fun entity =>
      ({ id := entity.ENTITY_ID, name := entity.ENTITY_NAME, type := NodeType.entity,
         jurisdiction := entity.ENTITY_TAX_JURISDICTION, role := none,
         entityId := none } : Node)) :=
  rfl

theorem isTrueRoot_iff (data : OrgChartData P) (e : Entity) (node : Node)
    (hid : node.id = e.ENTITY_ID) (htype : node.type = NodeType.entity) :
    (node.type == NodeType.entity &&
      !(fullLinks data).any (fun link => link.target == node.id && link.ownership.isSome))
      = true ↔ NoIncomingOwnership data e := by
  unfold NoIncomingOwnership fullLinks
  simp only [htype, hid, beq_self_eq_true, Bool.true_and, Bool.not_eq_true',
    List.any_eq_false, List.mem_map, Bool.and_eq_true, beq_iff_eq, not_and,
    forall_exists_index, and_imp, forall_apply_eq_imp_iff₂, Option.isSome_iff_ne_none,
    ne_eq, not_not]

theorem trueRoots_filter_map (data : OrgChartData P) (es : List Entity) :
    ((es.map (fun entity =>
      ({ id := entity.ENTITY_ID, name := entity.ENTITY_NAME, type := NodeType.entity,
         jurisdiction := entity.ENTITY_TAX_JURISDICTION, role := none,
         entityId := none } : Node))).filter (fun node =>
      node.type == NodeType.entity &&
      !(fullLinks data).any (fun link => link.target == node.id && link.ownership.isSome)))
      = [] ↔ ∀ e ∈ es, ¬ NoIncomingOwnership data e := by
  rw [List.filter_eq_nil_iff]
  constructor
  · intro h e he hno
    exact h _ (List.mem_map_of_mem _ he) ((isTrueRoot_iff data e _ rfl rfl).2 hno)
  · intro h node hnode hpred
    obtain ⟨e, he, rfl⟩ := List.mem_map.1 hnode
    exact h e he ((isTrueRoot_iff data e _ rfl rfl).1 hpred)

theorem trueRoots_eq_nil (data : OrgChartData P)
    (h : ∀ e ∈ data.entities, ¬ NoIncomingOwnership data e) : trueRoots data = [] := by
  unfold trueRoots
  rw [fullNodes_eq_map]
  exact (trueRoots_filter_map data data.entities).2 h

theorem trueRoots_eq_singleton (data : OrgChartData P) (pre post : List Entity) (r : Entity)
    (hent : data.entities = pre ++ r :: post)
    (hr : NoIncomingOwnership data r)
    (hothers : ∀ e ∈ pre ++ post, ¬ NoIncomingOwnership data e) :
    trueRoots data =
      [{ id := r.ENTITY_ID, name := r.ENTITY_NAME, type := NodeType.entity,
         jurisdiction := r.ENTITY_TAX_JURISDICTION, role := none, entityId := none }] := by
  unfold trueRoots
  rw [fullNodes_eq_map, hent, List.map_append, List.map_cons, List.filter_append,
    List.filter_cons,
    (trueRoots_filter_map data pre).2 (fun e he => hothers e (List.mem_append_left _ he)),
    (trueRoots_filter_map data post).2 (fun e he => hothers e (List.mem_append_right _ he)),
    if_pos ((isTrueRoot_iff data r _ rfl rfl).2 hr)]
  rfl

theorem truthy_some (u : String) (hu : u ≠ "") : truthy (some u) = true := by
  simp [truthy, hu]

theorem truthy_unset (uid : Option String) (h : uid = none ∨ uid = some "") :
    truthy uid = false := by
  rcases h with rfl | rfl <;> rfl

/-- C8: when the user-selected root id `u` is set (it passes the test
`if (userSelectedRootId)`: it is a non-empty string), `buildHierarchy` returns, for
every full dataset, the one-element forest built from the first node of the
filtered node list with id `u` when there is one and the empty forest when
there is none, and in both cases it does not call `showRootSelectionDialog`. -/
theorem user_selected_root_wins (data : OrgChartData P) (u : String) (hu : u ≠ "")
    (nodes : List Node) (links : List (Link P)) :
    (buildHierarchy data (some u) nodes links).forest =
      (match nodes.find? (fun n => n.id == u) with
        | some userRoot => [buildTreeRecursive userRoot nodes links []]
        | none => []) ∧
    (buildHierarchy data (some u) nodes links).rootSelectionDialog = none := by
  have hfind : nodes.find? (fun n => some n.id == some u) = nodes.find? (fun n => n.id == u) := by
    congr 1
  unfold buildHierarchy
  simp only [truthy_some u hu, if_true, hfind]
  cases nodes.find? (fun n => n.id == u) <;> exact ⟨rfl, rfl⟩

/-- Witness of C8: on the data of scenario 1, whose single true root is A, the
selection of B (which A owns) gives the tree of B alone, and the selection of an
id that is not in the filtered nodes gives the empty forest, without prompt. -/
theorem user_selected_root_wins_witness :
    "B" ≠ "" ∧
    (buildHierarchy scenarioData (some "B") scenarioNodes scenarioLinks).forest =
      [HierarchyNode.mk (entityNode "B") [] none] ∧
    (buildHierarchy scenarioData (some "B") scenarioNodes scenarioLinks).rootSelectionDialog
      = none ∧
    (buildHierarchy scenarioData (some "Z") scenarioNodes scenarioLinks).forest = [] :=
  ⟨by decide,
    (user_selected_root_wins scenarioData "B" (by decide) scenarioNodes scenarioLinks).1,
    (user_selected_root_wins scenarioData "B" (by decide) scenarioNodes scenarioLinks).2,
    (user_selected_root_wins scenarioData "Z" (by decide) scenarioNodes scenarioLinks).1⟩

/-- C9: with no user-selected root (the global is `null` or the empty string), when
exactly one entity `r` of the full dataset is the child of no ownership relation
with a non-null percentage, `buildHierarchy` returns, for every filtered node
list and link list, the one-element forest built from the first filtered node
with the id of `r` when there is one and the empty forest when there is none, and
it does not call `showRootSelectionDialog`. -/
theorem single_true_root (data : OrgChartData P) (uid : Option String)
    (huid : uid = none ∨ uid = some "") (pre post : List Entity) (r : Entity)
    (hent : data.entities = pre ++ r :: post)
    (hr : NoIncomingOwnership data r)
    (hothers : ∀ e ∈ pre ++ post, ¬ NoIncomingOwnership data e)
    (nodes : List Node) (links : List (Link P)) :
    (buildHierarchy data uid nodes links).forest =
      (match nodes.find? (fun n => n.id == r.ENTITY_ID) with
        | some filteredRoot => [buildTreeRecursive filteredRoot nodes links []]
        | none => []) ∧
    (buildHierarchy data uid nodes links).rootSelectionDialog = none := by
  unfold buildHierarchy
  simp only [truthy_unset uid huid, Bool.false_eq_true, if_false,
    trueRoots_eq_singleton data pre post r hent hr hothers]
  cases nodes.find? (fun n => n.id == r.ENTITY_ID) <;> exact ⟨rfl, rfl⟩

/-- Witness of C9: on the data of scenario 1 only A has no owner; the forest is
the tree A[B(60), C(40)], and it is empty when A is filtered out. -/
theorem single_true_root_witness :
    (buildHierarchy scenarioData none scenarioNodes scenarioLinks).forest =
      [HierarchyNode.mk (entityNode "A")
        [HierarchyNode.mk (entityNode "B") [] (some (some 60)),
         HierarchyNode.mk (entityNode "C") [] (some (some 40))] none] ∧
    (buildHierarchy scenarioData none scenarioNodes scenarioLinks).rootSelectionDialog
      = none ∧
    (buildHierarchy scenarioData none [entityNode "B", entityNode "C"]
      ([] : List (Link Nat))).forest = [] :=
  ⟨(single_true_root scenarioData none (Or.inl rfl) [] [⟨"B", "B", none⟩, ⟨"C", "C", none⟩]
      ⟨"A", "A", none⟩ rfl (by unfold NoIncomingOwnership; decide)
      (by unfold NoIncomingOwnership; decide) scenarioNodes scenarioLinks).1,
    (single_true_root scenarioData none (Or.inl rfl) [] [⟨"B", "B", none⟩, ⟨"C", "C", none⟩]
      ⟨"A", "A", none⟩ rfl (by unfold NoIncomingOwnership; decide)
      (by unfold NoIncomingOwnership; decide) scenarioNodes scenarioLinks).2,
    (single_true_root scenarioData none (Or.inl rfl) [] [⟨"B", "B", none⟩, ⟨"C", "C", none⟩]
      ⟨"A", "A", none⟩ rfl (by unfold NoIncomingOwnership; decide)
      (by unfold NoIncomingOwnership; decide) [entityNode "B", entityNode "C"] []).1⟩

/-- C10: with no user-selected root, when every entity of the full dataset is the
child of an ownership relation with a non-null percentage, `buildHierarchy`
returns the empty forest and calls `showRootSelectionDialog` with an empty list
of candidates, for every filtered node list and link list. -/
theorem no_true_root (data : OrgChartData P) (uid : Option String)
    (huid : uid = none ∨ uid = some "")
    (hall : ∀ e ∈ data.entities, ¬ NoIncomingOwnership data e)
    (nodes : List Node) (links : List (Link P)) :
    (buildHierarchy data uid nodes links).forest = [] ∧
    (buildHierarchy data uid nodes links).rootSelectionDialog =
      some ([], fullNodes data) := by
  unfold buildHierarchy
  simp only [truthy_unset uid huid, Bool.false_eq_true, if_false, trueRoots_eq_nil data hall,
    and_self]

/-- Witness of C10: entities A, B, C with the relations A→B:60, B→C:70, C→A:10. -/
theorem no_true_root_witness :
    (∀ e ∈ cyclicData.entities, ¬ NoIncomingOwnership cyclicData e) ∧
    (buildHierarchy cyclicData none scenarioNodes cyclicLinks).forest = [] ∧
    (buildHierarchy cyclicData none scenarioNodes cyclicLinks).rootSelectionDialog =
      some ([], scenarioNodes) :=
  ⟨by unfold NoIncomingOwnership; decide,
    no_true_root cyclicData none (Or.inl rfl) (by unfold NoIncomingOwnership; decide)
      scenarioNodes cyclicLinks⟩

/-! ## Properties of the closures -/

theorem mem_foldl_setAdd_iff (xs : List String) :
    ∀ (init : List String) (y : String), y ∈ xs.foldl setAdd init ↔ y ∈ init ∨ y ∈ xs := by
  induction xs with
  | nil => intro init y; simp
  | cons x xs ih =>
    intro init y
    rw [List.foldl_cons, ih, mem_setAdd, List.mem_cons]
    tauto

theorem nodup_setAdd (s : List String) (x : String) (h : s.Nodup) : (setAdd s x).Nodup := by
  unfold setAdd
  by_cases hx : x ∈ s
  · rw [if_pos hx]; exact h
  · rw [if_neg hx]
    rw [List.nodup_append]
    refine ⟨h, List.nodup_singleton x, ?_⟩
    intro a ha hb
    rw [List.mem_singleton] at hb
    exact hx (hb ▸ ha)

theorem nodup_foldl_setAdd (xs : List String) :
    ∀ (init : List String), init.Nodup → (xs.foldl setAdd init).Nodup := by
  induction xs with
  | nil => intro init h; exact h
  | cons x xs ih =>
    intro init h
    rw [List.foldl_cons]
    exact ih _ (nodup_setAdd init x h)

theorem mem_uniq (xs : List String) (y : String) : y ∈ uniq xs ↔ y ∈ xs := by
  unfold uniq
  rw [mem_foldl_setAdd_iff]
  simp

theorem nodup_uniq (xs : List String) : (uniq xs).Nodup :=
  nodup_foldl_setAdd xs [] List.nodup_nil

theorem traverseFuel_succ (select : String → Link P → Bool) (idOf : Link P → String)
    (fuel : Nat) (entityId : String) (allLinks : List (Link P)) (visited : List String) :
    traverseFuel select idOf (fuel + 1) entityId allLinks visited =
      if entityId ∈ visited then some ([], visited)
      else
        (collectEach idOf (fun id v => traverseFuel select idOf fuel id allLinks v)
          (allLinks.filter (select entityId)) [] (entityId :: visited)).map
          (fun r => (uniq r.1, r.2)) :=
  rfl

theorem findAllShareholdersFuel_eq_traverseFuel (allLinks : List (Link P)) :
    ∀ (fuel : Nat) (entityId : String) (visited : List String),
      findAllShareholdersFuel fuel entityId allLinks visited =
        traverseFuel (fun id link => link.target == id && link.ownership.isSome)
          (fun link => link.source) fuel entityId allLinks visited := by
  intro fuel
  induction fuel with
  | zero => intro _ _; rfl
  | succ fuel ih =>
    intro entityId visited
    have hcall : (fun parentId v => findAllShareholdersFuel fuel parentId allLinks v) =
        (fun id v => traverseFuel (fun id link => link.target == id && link.ownership.isSome)
          (fun link => link.source) fuel id allLinks v) := by
      funext id v
      exact ih id v
    rw [traverseFuel_succ, ← hcall]
    rfl

theorem findAllSubsidiariesFuel_eq_traverseFuel (allLinks : List (Link P)) :
    ∀ (fuel : Nat) (entityId : String) (visited : List String),
      findAllSubsidiariesFuel fuel entityId allLinks visited =
        traverseFuel (fun id link => link.source == id && link.ownership.isSome)
          (fun link => link.target) fuel entityId allLinks visited := by
  intro fuel
  induction fuel with
  | zero => intro _ _; rfl
  | succ fuel ih =>
    intro entityId visited
    have hcall : (fun childId v => findAllSubsidiariesFuel fuel childId allLinks v) =
        (fun id v => traverseFuel (fun id link => link.source == id && link.ownership.isSome)
          (fun link => link.target) fuel id allLinks v) := by
      funext id v
      exact ih id v
    rw [traverseFuel_succ, ← hcall]
    rfl

/-- What a call of a traversal guarantees, for the id `e` it is made on, the set
`v` it receives, the array `res` it returns and the set `v'` it leaves. -/
theorem collectEach_spec (select : String → Link P → Bool) (idOf : Link P → String)
    (allLinks : List (Link P)) (e : String)
    (call : String → List String → Option (List String × List String))
    (hcall : ∀ id v res v', call id v = some (res, v') →
      v ⊆ v' ∧ id ∈ v' ∧
      (∀ y ∈ v', y ∉ v → ∀ b, TraverseStep select idOf allLinks y b → b ∈ res ∧ b ∈ v') ∧
      (∀ b ∈ res, Relation.TransGen (TraverseStep select idOf allLinks) id b)) :
    ∀ (ls : List (Link P)) (found cur found' cur' : List String),
      (∀ l ∈ ls, l ∈ allLinks ∧ select e l = true) →
      collectEach idOf call ls found cur = some (found', cur') →
      cur ⊆ cur' ∧ found ⊆ found' ∧
      (∀ l ∈ ls, idOf l ∈ found' ∧ idOf l ∈ cur') ∧
      (∀ y ∈ cur', y ∉ cur → ∀ b, TraverseStep select idOf allLinks y b →
        b ∈ found' ∧ b ∈ cur') ∧
      (∀ b ∈ found', b ∈ found ∨
        Relation.TransGen (TraverseStep select idOf allLinks) e b) := by
  intro ls
  induction ls with
  | nil =>
    intro found cur found' cur' _ h
    simp only [collectEach, Option.some.injEq, Prod.mk.injEq] at h
    obtain ⟨rfl, rfl⟩ := h
    refine ⟨List.Subset.refl _, List.Subset.refl _, ?_, ?_, ?_⟩
    · intro l hl; cases hl
    · intro y hy hny; exact absurd hy hny
    · intro b hb; exact Or.inl hb
  | cons l rest ih =>
    intro found cur found' cur' hls h
    unfold collectEach at h
    cases hc : call (idOf l) cur with
    | none => simp [hc] at h
    | some r =>
      obtain ⟨more, c1⟩ := r
      simp only [hc] at h
      obtain ⟨hsub1, hid1, hnew1, hsound1⟩ := hcall _ _ _ _ hc
      obtain ⟨hsub2, hfound2, hids2, hnew2, hsound2⟩ :=
        ih _ _ _ _ (fun l' hl' => hls l' (List.mem_cons_of_mem _ hl')) h
      have hstep : TraverseStep select idOf allLinks e (idOf l) :=
        ⟨l, (hls l (List.mem_cons_self _ _)).1, (hls l (List.mem_cons_self _ _)).2, rfl⟩
      refine ⟨List.Subset.trans hsub1 hsub2, ?_, ?_, ?_, ?_⟩
      · intro b hb
        exact hfound2 (List.mem_append_left _ (List.mem_append_left _ hb))
      · intro l' hl'
        rcases List.mem_cons.1 hl' with rfl | hmem
        · exact ⟨hfound2 (List.mem_append_left _ (List.mem_append_right _
            (List.mem_singleton_self _))), hsub2 hid1⟩
        · exact hids2 l' hmem
      · intro y hy hny b hb
        by_cases hy1 : y ∈ c1
        · obtain ⟨hb1, hb2⟩ := hnew1 y hy1 hny b hb
          exact ⟨hfound2 (List.mem_append_right _ hb1), hsub2 hb2⟩
        · exact hnew2 y hy hy1 b hb
      · intro b hb
        rcases hsound2 b hb with hb2 | hb2
        · rcases List.mem_append.1 hb2 with hb3 | hb3
          · rcases List.mem_append.1 hb3 with hb4 | hb4
            · exact Or.inl hb4
            · rw [List.mem_singleton] at hb4
              subst hb4
              exact Or.inr (Relation.TransGen.single hstep)
          · exact Or.inr (Relation.TransGen.head hstep (hsound1 b hb3))
        · exact Or.inr hb2

theorem traverseFuel_spec (select : String → Link P → Bool) (idOf : Link P → String)
    (allLinks : List (Link P)) :
    ∀ (fuel : Nat) (e : String) (v res v' : List String),
      traverseFuel select idOf fuel e allLinks v = some (res, v') →
      v ⊆ v' ∧ e ∈ v' ∧
      (∀ y ∈ v', y ∉ v → ∀ b, TraverseStep select idOf allLinks y b → b ∈ res ∧ b ∈ v') ∧
      (∀ b ∈ res, Relation.TransGen (TraverseStep select idOf allLinks) e b) := by
  intro fuel
  induction fuel with
  | zero =>
    intro e v res v' h
    simp [traverseFuel] at h
  | succ fuel ih =>
    intro e v res v' h
    rw [traverseFuel_succ] at h
    by_cases hv : e ∈ v
    · rw [if_pos hv] at h
      simp only [Option.some.injEq, Prod.mk.injEq] at h
      obtain ⟨rfl, rfl⟩ := h
      refine ⟨List.Subset.refl _, hv, ?_, ?_⟩
      · intro y hy hny; exact absurd hy hny
      · intro b hb; cases hb
    · rw [if_neg hv, Option.map_eq_some'] at h
      obtain ⟨⟨found', cur'⟩, hloop, hres⟩ := h
      simp only [Prod.mk.injEq] at hres
      obtain ⟨rfl, rfl⟩ := hres
      obtain ⟨hsub, -, hids, hnew, hsound⟩ :=
        collectEach_spec select idOf allLinks e _ (fun id v res v' hc => ih id v res v' hc)
          (allLinks.filter (select e)) [] (e :: v) found' cur'
          (fun l hl => ⟨List.mem_of_mem_filter hl, (List.mem_filter.1 hl).2⟩) hloop
      refine ⟨fun x hx => hsub (List.mem_cons_of_mem _ hx), hsub (List.mem_cons_self _ _),
        ?_, ?_⟩
      · intro y hy hny b hb
        rw [mem_uniq]
        by_cases hye : y = e
        · subst hye
          obtain ⟨l, hl, hsel, rfl⟩ := hb
          exact hids l (List.mem_filter.2 ⟨hl, hsel⟩)
        · refine hnew y hy ?_ b hb
          intro hmem
          rcases List.mem_cons.1 hmem with h1 | h1
          · exact hye h1
          · exact hny h1
      · intro b hb
        rw [mem_uniq] at hb
        rcases hsound b hb with h1 | h1
        · cases h1
        · exact h1

/-- A traversal started with a fresh visited set returns exactly the ids that a
non-empty sequence of steps reaches. -/
theorem traverseFuel_mem_iff (select : String → Link P → Bool) (idOf : Link P → String)
    (allLinks : List (Link P)) (fuel : Nat) (x : String) (res v' : List String)
    (h : traverseFuel select idOf fuel x allLinks [] = some (res, v')) (b : String) :
    b ∈ res ↔ Relation.TransGen (TraverseStep select idOf allLinks) x b := by
  obtain ⟨-, hx, hnew, hsound⟩ := traverseFuel_spec select idOf allLinks fuel x [] res v' h
  constructor
  · exact hsound b
  · intro hb
    have key : b ∈ res ∧ b ∈ v' := by
      induction hb with
      | single hstep => exact hnew x hx (List.not_mem_nil _) _ hstep
      | tail _ hstep ih => exact hnew _ ih.2 (List.not_mem_nil _) _ hstep
    exact key.1

theorem traverseFuel_nodup (select : String → Link P → Bool) (idOf : Link P → String)
    (allLinks : List (Link P)) (fuel : Nat) (e : String) (v res v' : List String)
    (h : traverseFuel select idOf fuel e allLinks v = some (res, v')) : res.Nodup := by
  cases fuel with
  | zero => simp [traverseFuel] at h
  | succ fuel =>
    rw [traverseFuel_succ] at h
    by_cases hv : e ∈ v
    · rw [if_pos hv] at h
      simp only [Option.some.injEq, Prod.mk.injEq] at h
      rw [← h.1]
      exact List.nodup_nil
    · rw [if_neg hv, Option.map_eq_some'] at h
      obtain ⟨r, -, hres⟩ := h
      simp only [Prod.mk.injEq] at hres
      rw [← hres.1]
      exact nodup_uniq _

theorem collectEach_mono (idOf : Link P → String)
    (call call' : String → List String → Option (List String × List String))
    (h : ∀ id v r, call id v = some r → call' id v = some r) :
    ∀ (ls : List (Link P)) (found cur : List String) (r : List String × List String),
      collectEach idOf call ls found cur = some r →
      collectEach idOf call' ls found cur = some r := by
  intro ls
  induction ls with
  | nil => intro found cur r hr; exact hr
  | cons l rest ih =>
    intro found cur r hr
    unfold collectEach at hr ⊢
    cases hc : call (idOf l) cur with
    | none => simp [hc] at hr
    | some r1 =>
      rw [h _ _ _ hc]
      rw [hc] at hr
      exact ih _ _ r hr

theorem traverseFuel_mono_succ (select : String → Link P → Bool) (idOf : Link P → String)
    (allLinks : List (Link P)) :
    ∀ (fuel : Nat) (e : String) (v : List String) (r : List String × List String),
      traverseFuel select idOf fuel e allLinks v = some r →
      traverseFuel select idOf (fuel + 1) e allLinks v = some r := by
  intro fuel
  induction fuel with
  | zero =>
    intro e v r h
    simp [traverseFuel] at h
  | succ fuel ih =>
    intro e v r h
    rw [traverseFuel_succ] at h ⊢
    by_cases hv : e ∈ v
    · rw [if_pos hv] at h ⊢
      exact h
    · rw [if_neg hv, Option.map_eq_some'] at h ⊢
      obtain ⟨r1, hloop, hres⟩ := h
      exact ⟨r1, collectEach_mono idOf _ _ (fun id v r hc => ih id v r hc) _ _ _ r1 hloop, hres⟩

theorem traverseFuel_mono (select : String → Link P → Bool) (idOf : Link P → String)
    (allLinks : List (Link P)) (fuel k : Nat) (e : String) (v : List String)
    (r : List String × List String)
    (h : traverseFuel select idOf fuel e allLinks v = some r) :
    traverseFuel select idOf (fuel + k) e allLinks v = some r := by
  induction k with
  | zero => exact h
  | succ k ih => exact traverseFuel_mono_succ select idOf allLinks _ _ _ _ ih

theorem collectEach_complete (idOf : Link P → String) (S : Finset String) (fuel : Nat)
    (call : String → List String → Option (List String × List String))
    (hcall : ∀ id v, id ∈ S → (S \ v.toFinset).card < fuel →
      ∃ res v', call id v = some (res, v') ∧ v ⊆ v') :
    ∀ (ls : List (Link P)) (found cur : List String), (∀ l ∈ ls, idOf l ∈ S) →
      (S \ cur.toFinset).card < fuel →
      ∃ found' cur', collectEach idOf call ls found cur = some (found', cur') ∧
        cur ⊆ cur' := by
  intro ls
  induction ls with
  | nil =>
    intro found cur _ _
    exact ⟨found, cur, rfl, List.Subset.refl _⟩
  | cons l rest ih =>
    intro found cur hmem hlt
    obtain ⟨more, c1, hc, hsub⟩ := hcall (idOf l) cur (hmem l (List.mem_cons_self _ _)) hlt
    have hlt' : (S \ c1.toFinset).card < fuel :=
      Nat.lt_of_le_of_lt (card_sdiff_toFinset_mono S _ _ hsub) hlt
    obtain ⟨found', cur', hrest, hsub'⟩ :=
      ih (found ++ [idOf l] ++ more) c1 (fun l' hl' => hmem l' (List.mem_cons_of_mem _ hl')) hlt'
    refine ⟨found', cur', ?_, List.Subset.trans hsub hsub'⟩
    unfold collectEach
    rw [hc]
    exact hrest

theorem traverseFuel_complete_of_mem (select : String → Link P → Bool)
    (idOf : Link P → String) (allLinks : List (Link P)) (S : Finset String)
    (hS : ∀ l ∈ allLinks, idOf l ∈ S) :
    ∀ (fuel : Nat) (e : String) (v : List String), e ∈ S →
      (S \ v.toFinset).card < fuel →
      ∃ res v', traverseFuel select idOf fuel e allLinks v = some (res, v') ∧ v ⊆ v' := by
  intro fuel
  induction fuel with
  | zero =>
    intro _ _ _ h
    exact absurd h (Nat.not_lt_zero _)
  | succ fuel ih =>
    intro e v he hlt
    rw [traverseFuel_succ]
    by_cases hv : e ∈ v
    · rw [if_pos hv]
      exact ⟨_, _, rfl, List.Subset.refl _⟩
    · rw [if_neg hv]
      have hdec := card_sdiff_toFinset_cons_lt S v e he hv
      obtain ⟨found', cur', hloop, hsub⟩ := collectEach_complete idOf S fuel
        (fun id v => traverseFuel select idOf fuel id allLinks v)
        (fun id v hid hv => ih id v hid hv)
        (allLinks.filter (select e)) [] (e :: v)
        (fun l hl => hS l (List.mem_of_mem_filter hl)) (by omega)
      rw [hloop]
      exact ⟨_, _, rfl, fun x hx => hsub (List.mem_cons_of_mem _ hx)⟩

/-- A traversal returns when it is given `allLinks.length + 2` levels of call
stack. -/
theorem traverseFuel_complete (select : String → Link P → Bool) (idOf : Link P → String)
    (allLinks : List (Link P)) (x : String) (v : List String) :
    ∃ r, traverseFuel select idOf (allLinks.length + 2) x allLinks v = some r := by
  have hcard : (insert x (allLinks.map idOf).toFinset).card ≤ allLinks.length + 1 := by
    refine Nat.le_trans (Finset.card_insert_le _ _) ?_
    have := List.toFinset_card_le (allLinks.map idOf)
    rw [List.length_map] at this
    omega
  obtain ⟨res, v', h, -⟩ := traverseFuel_complete_of_mem select idOf allLinks
    (insert x (allLinks.map idOf).toFinset)
    (fun l hl => Finset.mem_insert_of_mem (List.mem_toFinset.2 (List.mem_map_of_mem _ hl)))
    (allLinks.length + 2) x v (Finset.mem_insert_self _ _)
    (Nat.lt_of_le_of_lt (Finset.card_le_card Finset.sdiff_subset) (by omega))
  exact ⟨_, h⟩

/-- With `allLinks.length + 2` levels of call stack or more, the run of
`findAllShareholders` returns the value of `findAllShareholders`. -/
theorem findAllShareholdersFuel_enough (x : String) (allLinks : List (Link P)) (k : Nat) :
    (findAllShareholdersFuel (allLinks.length + 2 + k) x allLinks []).map (fun r => r.1) =
      some (findAllShareholders x allLinks) := by
  obtain ⟨r, hr⟩ := traverseFuel_complete
    (fun id link => link.target == id && link.ownership.isSome) (fun link => link.source)
    allLinks x []
  have hk := traverseFuel_mono _ _ allLinks _ k x [] r hr
  unfold findAllShareholders
  rw [findAllShareholdersFuel_eq_traverseFuel, findAllShareholdersFuel_eq_traverseFuel, hk, hr]
  rfl

/-- With `allLinks.length + 2` levels of call stack or more, the run of
`findAllSubsidiaries` returns the value of `findAllSubsidiaries`. -/
theorem findAllSubsidiariesFuel_enough (x : String) (allLinks : List (Link P)) (k : Nat) :
    (findAllSubsidiariesFuel (allLinks.length + 2 + k) x allLinks []).map (fun r => r.1) =
      some (findAllSubsidiaries x allLinks) := by
  obtain ⟨r, hr⟩ := traverseFuel_complete
    (fun id link => link.source == id && link.ownership.isSome) (fun link => link.target)
    allLinks x []
  have hk := traverseFuel_mono _ _ allLinks _ k x [] r hr
  unfold findAllSubsidiaries
  rw [findAllSubsidiariesFuel_eq_traverseFuel, findAllSubsidiariesFuel_eq_traverseFuel, hk, hr]
  rfl

theorem shareholderStep_iff (allLinks : List (Link P)) (y b : String) :
    TraverseStep (fun id link => link.target == id && link.ownership.isSome)
      (fun link => link.source) allLinks y b ↔ OwnershipEdge allLinks b y := by
  unfold TraverseStep OwnershipEdge
  simp only [Bool.and_eq_true, beq_iff_eq, Option.isSome_iff_ne_none]
  constructor
  · rintro ⟨l, hl, ⟨ht, ho⟩, hs⟩
    exact ⟨l, hl, hs, ht, ho⟩
  · rintro ⟨l, hl, hs, ht, ho⟩
    exact ⟨l, hl, ⟨ht, ho⟩, hs⟩

theorem subsidiaryStep_iff (allLinks : List (Link P)) (y b : String) :
    TraverseStep (fun id link => link.source == id && link.ownership.isSome)
      (fun link => link.target) allLinks y b ↔ OwnershipEdge allLinks y b := by
  unfold TraverseStep OwnershipEdge
  simp only [Bool.and_eq_true, beq_iff_eq, Option.isSome_iff_ne_none]
  constructor
  · rintro ⟨l, hl, ⟨hs, ho⟩, ht⟩
    exact ⟨l, hl, hs, ht, ho⟩
  · rintro ⟨l, hl, hs, ht, ho⟩
    exact ⟨l, hl, ⟨hs, ho⟩, ht⟩

/-- The shareholders of `x` are the ids that own `x` through a non-empty path. -/
theorem mem_findAllShareholders (x : String) (allLinks : List (Link P)) (a : String) :
    a ∈ findAllShareholders x allLinks ↔ OwnershipPath allLinks a x := by
  obtain ⟨⟨res, v'⟩, hr⟩ := traverseFuel_complete
    (fun id link => link.target == id && link.ownership.isSome) (fun link => link.source)
    allLinks x []
  have hval : findAllShareholders x allLinks = res := by
    unfold findAllShareholders
    rw [findAllShareholdersFuel_eq_traverseFuel, hr]
    rfl
  rw [hval, traverseFuel_mem_iff _ _ allLinks _ x res v' hr a]
  have hrel : TraverseStep (fun id link => link.target == id && link.ownership.isSome)
      (fun link => link.source) allLinks = Function.swap (OwnershipEdge allLinks) := by
    funext y b
    exact propext (shareholderStep_iff allLinks y b)
  rw [hrel]
  exact Relation.transGen_swap

/-- The subsidiaries of `x` are the ids that `x` owns through a non-empty path. -/
theorem mem_findAllSubsidiaries (x : String) (allLinks : List (Link P)) (d : String) :
    d ∈ findAllSubsidiaries x allLinks ↔ OwnershipPath allLinks x d := by
  obtain ⟨⟨res, v'⟩, hr⟩ := traverseFuel_complete
    (fun id link => link.source == id && link.ownership.isSome) (fun link => link.target)
    allLinks x []
  have hval : findAllSubsidiaries x allLinks = res := by
    unfold findAllSubsidiaries
    rw [findAllSubsidiariesFuel_eq_traverseFuel, hr]
    rfl
  rw [hval, traverseFuel_mem_iff _ _ allLinks _ x res v' hr d]
  have hrel : TraverseStep (fun id link => link.source == id && link.ownership.isSome)
      (fun link => link.target) allLinks = OwnershipEdge allLinks := by
    funext y b
    exact propext (subsidiaryStep_iff allLinks y b)
  rw [hrel]
  rfl

theorem nodup_findAllShareholders (x : String) (allLinks : List (Link P)) :
    (findAllShareholders x allLinks).Nodup := by
  obtain ⟨⟨res, v'⟩, hr⟩ := traverseFuel_complete
    (fun id link => link.target == id && link.ownership.isSome) (fun link => link.source)
    allLinks x []
  have hval : findAllShareholders x allLinks = res := by
    unfold findAllShareholders
    rw [findAllShareholdersFuel_eq_traverseFuel, hr]
    rfl
  rw [hval]
  exact traverseFuel_nodup _ _ allLinks _ x [] res v' hr

theorem nodup_findAllSubsidiaries (x : String) (allLinks : List (Link P)) :
    (findAllSubsidiaries x allLinks).Nodup := by
  obtain ⟨⟨res, v'⟩, hr⟩ := traverseFuel_complete
    (fun id link => link.source == id && link.ownership.isSome) (fun link => link.target)
    allLinks x []
  have hval : findAllSubsidiaries x allLinks = res := by
    unfold findAllSubsidiaries
    rw [findAllSubsidiariesFuel_eq_traverseFuel, hr]
    rfl
  rw [hval]
  exact traverseFuel_nodup _ _ allLinks _ x [] res v' hr

/-- C14: for every id `x` and link list `L`, the run of `findAllShareholders(x, L)` with
a fresh visited set returns, and so does the run of `findAllSubsidiaries(x, L)`;
the first list is duplicate-free and holds exactly the ids from which a non-empty
path of links with a non-null ownership leads to `x`, the second is
duplicate-free and holds exactly the ids to which such a path leads from `x`; so
`x` is in either list exactly when it lies on an ownership cycle. -/
theorem closures_are_ownership_paths (x : String) (L : List (Link P)) :
    (∀ k, (findAllShareholdersFuel (L.length + 2 + k) x L []).map (fun r => r.1) =
      some (findAllShareholders x L)) ∧
    (findAllShareholders x L).Nodup ∧
    (∀ a, a ∈ findAllShareholders x L ↔ OwnershipPath L a x) ∧
    (∀ k, (findAllSubsidiariesFuel (L.length + 2 + k) x L []).map (fun r => r.1) =
      some (findAllSubsidiaries x L)) ∧
    (findAllSubsidiaries x L).Nodup ∧
    (∀ d, d ∈ findAllSubsidiaries x L ↔ OwnershipPath L x d) ∧
    (x ∈ findAllShareholders x L ↔ OwnershipPath L x x) ∧
    (x ∈ findAllSubsidiaries x L ↔ OwnershipPath L x x) :=
  ⟨findAllShareholdersFuel_enough x L, nodup_findAllShareholders x L,
    mem_findAllShareholders x L, findAllSubsidiariesFuel_enough x L,
    nodup_findAllSubsidiaries x L, mem_findAllSubsidiaries x L,
    mem_findAllShareholders x L x, mem_findAllSubsidiaries x L x⟩

/-- C15: the closures are transitive: the shareholders of a shareholder of `x` are
shareholders of `x`, and the subsidiaries of a subsidiary of `x` are
subsidiaries of `x`, so running again on an id of the closure adds no id. -/
theorem closures_transitive (x : String) (L : List (Link P)) :
    (∀ a ∈ findAllShareholders x L, ∀ b ∈ findAllShareholders a L,
      b ∈ findAllShareholders x L) ∧
    (∀ d ∈ findAllSubsidiaries x L, ∀ e ∈ findAllSubsidiaries d L,
      e ∈ findAllSubsidiaries x L) := by
  constructor
  · intro a ha b hb
    rw [mem_findAllShareholders] at ha hb ⊢
    exact Relation.TransGen.trans hb ha
  · intro d hd e he
    rw [mem_findAllSubsidiaries] at hd he ⊢
    exact Relation.TransGen.trans hd he

/-- Witness of C15: in the diamond, B is a shareholder of D, A is a shareholder of
B, and A is a shareholder of D; B is a subsidiary of A, D is a subsidiary of B,
and D is a subsidiary of A. -/
theorem closures_transitive_witness :
    ("B" ∈ findAllShareholders "D" diamondLinks ∧ "A" ∈ findAllShareholders "B" diamondLinks ∧
      "A" ∈ findAllShareholders "D" diamondLinks) ∧
    ("B" ∈ findAllSubsidiaries "A" diamondLinks ∧ "D" ∈ findAllSubsidiaries "B" diamondLinks ∧
      "D" ∈ findAllSubsidiaries "A" diamondLinks) :=
  ⟨⟨by decide, by decide,
      (closures_transitive "D" diamondLinks).1 "B" (by decide) "A" (by decide)⟩,
    ⟨by decide, by decide,
      (closures_transitive "A" diamondLinks).2 "B" (by decide) "D" (by decide)⟩⟩

/-! ## Several true roots -/

theorem hasNoIncomingOwnership_iff (data : OrgChartData P) (e : Entity) :
    hasNoIncomingOwnership data e = true ↔ NoIncomingOwnership data e := by
  unfold hasNoIncomingOwnership NoIncomingOwnership
  simp only [List.all_eq_true, Bool.not_eq_true', Bool.and_eq_false_imp, decide_eq_true_eq]
  constructor
  · intro h rel hrel hid
    have := h rel hrel hid
    cases hp : rel.OWNERSHIP_PERC with
    | none => rfl
    | some p => simp [hp] at this
  · intro h rel hrel hid
    rw [h rel hrel hid]
    rfl

theorem trueRoots_eq_map (data : OrgChartData P) :
    trueRoots data = (trueRootEntities data).map nodeOfEntity := by
  unfold trueRoots trueRootEntities
  rw [fullNodes_eq_map]
  show List.filter _ (data.entities.map nodeOfEntity) = _
  rw [List.filter_map]
  congr 1
  apply List.filter_congr
  intro e _
  rw [Bool.eq_iff_iff, hasNoIncomingOwnership_iff]
  exact isTrueRoot_iff data e (nodeOfEntity e) rfl rfl

theorem filter_present_map (nodes : List Node) (es : List Entity) :
    (es.map nodeOfEntity).filter (fun root => nodes.any (fun n => n.id == root.id)) =
      (es.filter (fun e => nodes.any (fun n => decide (n.id = e.ENTITY_ID)))).map
        nodeOfEntity := by
  rw [List.filter_map]
  rfl

/-- C11: with no user-selected root (the global is `null` or the empty string), when
the full dataset has two or more true roots, `buildHierarchy` returns the empty
forest and calls `showRootSelectionDialog` with, as candidates, the nodes of the
true roots whose id is the id of a filtered node, in dataset order, or the nodes
of all the true roots when none of them is; when every true root is the id of a
filtered node, the candidates are the nodes of all the true roots. The true
roots are the entities that are the child of no ownership relation with a
non-null percentage. -/
theorem several_true_roots (data : OrgChartData P) (uid : Option String)
    (huid : uid = none ∨ uid = some "") (htwo : 2 ≤ (trueRootEntities data).length)
    (nodes : List Node) (links : List (Link P)) :
    (∀ e, e ∈ trueRootEntities data ↔ e ∈ data.entities ∧ NoIncomingOwnership data e) ∧
    (buildHierarchy data uid nodes links).forest = [] ∧
    (buildHierarchy data uid nodes links).rootSelectionDialog =
      some
        (if ((trueRootEntities data).filter
              (fun e => nodes.any (fun n => decide (n.id = e.ENTITY_ID)))).isEmpty
          then (trueRootEntities data).map nodeOfEntity
          else ((trueRootEntities data).filter
              (fun e => nodes.any (fun n => decide (n.id = e.ENTITY_ID)))).map nodeOfEntity,
         (data.entities.map nodeOfEntity)) ∧
    ((∀ e ∈ trueRootEntities data, ∃ n ∈ nodes, n.id = e.ENTITY_ID) →
      (buildHierarchy data uid nodes links).rootSelectionDialog =
        some ((trueRootEntities data).map nodeOfEntity, data.entities.map nodeOfEntity)) := by
  have hroots := trueRoots_eq_map data
  have hdialog : (buildHierarchy data uid nodes links).forest = [] ∧
      (buildHierarchy data uid nodes links).rootSelectionDialog =
      some
        (if ((trueRootEntities data).filter
              (fun e => nodes.any (fun n => decide (n.id = e.ENTITY_ID)))).isEmpty
          then (trueRootEntities data).map nodeOfEntity
          else ((trueRootEntities data).filter
              (fun e => nodes.any (fun n => decide (n.id = e.ENTITY_ID)))).map nodeOfEntity,
         (data.entities.map nodeOfEntity)) := by
    unfold buildHierarchy
    simp only [truthy_unset uid huid, Bool.false_eq_true, if_false]
    match hm : trueRootEntities data, htwo with
    | e1 :: e2 :: rest, _ =>
      rw [hroots, hm]
      simp only [List.map_cons, true_and]
      have hf := filter_present_map nodes (e1 :: e2 :: rest)
      simp only [List.map_cons] at hf
      simp only [hf]
      cases hfil : (e1 :: e2 :: rest).filter
          (fun e => nodes.any (fun n => decide (n.id = e.ENTITY_ID))) with
      | nil => rfl
      | cons a as =>
        rw [if_pos (by simp), fullNodes_eq_map]
        rfl
  refine ⟨?_, hdialog.1, hdialog.2, ?_⟩
  · intro e
    unfold trueRootEntities
    rw [List.mem_filter, hasNoIncomingOwnership_iff]
  · intro hall
    rw [hdialog.2]
    have hfilter : (trueRootEntities data).filter
        (fun e => nodes.any (fun n => decide (n.id = e.ENTITY_ID))) = trueRootEntities data := by
      rw [List.filter_eq_self]
      intro e he
      obtain ⟨n, hn, hid⟩ := hall e he
      simp only [List.any_eq_true, decide_eq_true_eq]
      exact ⟨n, hn, hid⟩
    rw [hfilter]
    cases hm : trueRootEntities data with
    | nil => rfl
    | cons a as => rfl

/-- Witness of C11: with the true roots R1 and R2, the candidates are R2 alone
when only R2 and X are filtered nodes, and R1, R2 when both are filtered out. -/
theorem several_true_roots_witness :
    2 ≤ (trueRootEntities twoRootData).length ∧
    (buildHierarchy twoRootData none [entityNode "R2", entityNode "X"] twoRootLinks).forest
      = [] ∧
    (buildHierarchy twoRootData none [entityNode "R2", entityNode "X"]
      twoRootLinks).rootSelectionDialog = some ([entityNode "R2"], twoRootNodes) ∧
    (buildHierarchy twoRootData none [entityNode "X"] twoRootLinks).rootSelectionDialog
      = some ([entityNode "R1", entityNode "R2"], twoRootNodes) :=
  ⟨by decide,
    (several_true_roots twoRootData none (Or.inl rfl) (by decide)
      [entityNode "R2", entityNode "X"] twoRootLinks).2.1,
    (several_true_roots twoRootData none (Or.inl rfl) (by decide)
      [entityNode "R2", entityNode "X"] twoRootLinks).2.2.1,
    (several_true_roots twoRootData none (Or.inl rfl) (by decide)
      [entityNode "X"] twoRootLinks).2.2.1⟩

/-! ## The focused hierarchy -/

theorem allCompleted_map_some {α β : Type} (f : α → β) (l : List α) :
    allCompleted ((l.map some).map (fun root => root.map f)) = some (l.map f) := by
  induction l with
  | nil => rfl
  | cons a l ih =>
    rw [List.map_cons, List.map_cons, Option.map_some', allCompleted, ih]
    rfl

theorem mem_relevantNodes (focusId : String) (allNodes : List Node) (allLinks : List (Link P))
    (n : Node) :
    n ∈ relevantNodes focusId allNodes allLinks ↔
      n ∈ allNodes ∧
      ((n.type = NodeType.entity ∧ n.id ∈ relevantEntityIds focusId allLinks) ∨
       (n.type = NodeType.person ∧
          ∃ owner, n.entityId = some owner ∧ owner ∈ relevantEntityIds focusId allLinks)) := by
  unfold relevantNodes
  rw [List.mem_filter]
  apply and_congr_right
  intro _
  cases ht : n.type with
  | entity => simp
  | person =>
    cases he : n.entityId with
    | none => simp
    | some owner => simp

theorem mem_relevantLinks (focusId : String) (allLinks : List (Link P)) (l : Link P) :
    l ∈ relevantLinks focusId allLinks ↔
      l ∈ allLinks ∧ l.source ∈ relevantEntityIds focusId allLinks ∧
        l.target ∈ relevantEntityIds focusId allLinks := by
  unfold relevantLinks
  simp only [List.mem_filter, Bool.and_eq_true, decide_eq_true_eq]

theorem mem_ultimateRoots (focusId : String) (allNodes : List Node) (allLinks : List (Link P))
    (n : Node) :
    n ∈ ultimateRoots focusId allNodes allLinks ↔
      n ∈ relevantNodes focusId allNodes allLinks ∧ n.type = NodeType.entity ∧
        ∀ l ∈ relevantLinks focusId allLinks, l.target = n.id → l.ownership = none := by
  unfold ultimateRoots
  simp only [List.mem_filter, Bool.and_eq_true, beq_iff_eq, Bool.not_eq_true',
    List.any_eq_false, not_and, Option.isSome_iff_ne_none, ne_eq, not_not]

theorem mem_relevantEntityIds (focusId : String) (allLinks : List (Link P)) (id : String) :
    id ∈ relevantEntityIds focusId allLinks ↔
      id = focusId ∨ id ∈ findAllShareholders focusId allLinks ∨
        id ∈ findAllSubsidiaries focusId allLinks := by
  unfold relevantEntityIds
  simp only [List.mem_cons, List.mem_append]

/-- The four ways in which `buildFocusedHierarchy` ends once the focus id resolves. -/
theorem buildFocusedHierarchy_of_roots (focusId : String) (allNodes : List Node)
    (allLinks : List (Link P)) (n : Node)
    (hfind : allNodes.find? (fun n => n.id == focusId) = some n)
    (hroots : ultimateRoots focusId allNodes allLinks ≠ []) :
    buildFocusedHierarchy focusId allNodes allLinks =
      some ((ultimateRoots focusId allNodes allLinks).map (fun root =>
        buildTreeRecursive root (relevantNodes focusId allNodes allLinks)
          (relevantLinks focusId allLinks) [])) := by
  unfold buildFocusedHierarchy focusRoots
  have hlen : ((ultimateRoots focusId allNodes allLinks).length == 0) = false := by
    cases h : ultimateRoots focusId allNodes allLinks with
    | nil => exact absurd h hroots
    | cons a as => rfl
  simp only [hfind, hlen, Bool.false_and, Bool.false_eq_true, if_false]
  exact allCompleted_map_some _ _

theorem buildFocusedHierarchy_of_fallback (focusId : String) (allNodes : List Node)
    (allLinks : List (Link P)) (n : Node)
    (hfind : allNodes.find? (fun n => n.id == focusId) = some n)
    (hroots : ultimateRoots focusId allNodes allLinks = [])
    (hnodes : relevantNodes focusId allNodes allLinks ≠ []) :
    buildFocusedHierarchy focusId allNodes allLinks =
      allCompleted [(((relevantNodes focusId allNodes allLinks).filter
        (fun n => n.type == NodeType.entity)).head?).map (fun root =>
          buildTreeRecursive root (relevantNodes focusId allNodes allLinks)
            (relevantLinks focusId allLinks) [])] := by
  unfold buildFocusedHierarchy focusRoots
  have hlen : decide ((relevantNodes focusId allNodes allLinks).length > 0) = true := by
    cases h : relevantNodes focusId allNodes allLinks with
    | nil => exact absurd h hnodes
    | cons a as => simp
  simp only [hfind, hroots, hlen, List.length_nil, beq_self_eq_true, Bool.and_self, if_true,
    List.map_cons, List.map_nil]

theorem buildFocusedHierarchy_of_empty (focusId : String) (allNodes : List Node)
    (allLinks : List (Link P)) (n : Node)
    (hfind : allNodes.find? (fun n => n.id == focusId) = some n)
    (hroots : ultimateRoots focusId allNodes allLinks = [])
    (hnodes : relevantNodes focusId allNodes allLinks = []) :
    buildFocusedHierarchy focusId allNodes allLinks = some [] := by
  unfold buildFocusedHierarchy focusRoots
  simp only [hfind, hroots, hnodes]
  rfl

theorem buildFocusedHierarchy_of_not_found (focusId : String) (allNodes : List Node)
    (allLinks : List (Link P)) (h : ∀ n ∈ allNodes, n.id ≠ focusId) :
    buildFocusedHierarchy focusId allNodes allLinks = some [] := by
  have hfind : allNodes.find? (fun n => n.id == focusId) = none := by
    rw [List.find?_eq_none]
    intro n hn
    simpa using h n hn
  unfold buildFocusedHierarchy
  rw [hfind]

theorem find?_isSome_of_mem (allNodes : List Node) (focusId : String) (e : Node)
    (he : e ∈ allNodes) (hid : e.id = focusId) :
    ∃ n, allNodes.find? (fun n => n.id == focusId) = some n := by
  cases h : allNodes.find? (fun n => n.id == focusId) with
  | some n => exact ⟨n, rfl⟩
  | none =>
    rw [List.find?_eq_none] at h
    exact absurd (by simpa using hid) (h e he)

/-- Every node of a tree is its root or a node of the node list it was built from. -/
theorem occurrence_node_mem (root : Node) (allNodes : List Node) (allLinks : List (Link P))
    (o : List String × HierarchyNode P)
    (ho : o ∈ occurrencesFrom [] (buildTreeRecursive root allNodes allLinks [])) :
    o.2.node = root ∨ o.2.node ∈ allNodes := by
  rcases occurrenceKind_of_mem allNodes allLinks root [] o ho with
    h | ⟨parent, visited, link, childNode, _, _, _, hfind, h⟩ |
    ⟨parent, visited, person, _, _, hm, _, _, h⟩
  · subst h
    exact Or.inl (buildTreeRecursive_node _ _ _ _)
  · subst h
    right
    simp only [setOwnershipPerc_node, buildTreeRecursive_node]
    exact (find?_id_eq_some hfind).1
  · subst h
    exact Or.inr hm

theorem entity_mem_relevantNodes (focusId : String) (allNodes : List Node)
    (allLinks : List (Link P)) (e : Node) (he : e ∈ allNodes) (hid : e.id = focusId)
    (htype : e.type = NodeType.entity) :
    e ∈ (relevantNodes focusId allNodes allLinks).filter
      (fun n => n.type == NodeType.entity) := by
  rw [List.mem_filter, mem_relevantNodes]
  refine ⟨⟨he, Or.inl ⟨htype, ?_⟩⟩, by simp [htype]⟩
  rw [mem_relevantEntityIds]
  exact Or.inl hid

/-- When an entity node has the focus id, the call returns a non-empty forest. -/
theorem buildFocusedHierarchy_ne_nil (focusId : String) (allNodes : List Node)
    (allLinks : List (Link P)) (e : Node) (he : e ∈ allNodes) (hid : e.id = focusId)
    (htype : e.type = NodeType.entity) :
    ∃ forest, buildFocusedHierarchy focusId allNodes allLinks = some forest ∧ forest ≠ [] := by
  obtain ⟨n, hfind⟩ := find?_isSome_of_mem allNodes focusId e he hid
  have hent := entity_mem_relevantNodes focusId allNodes allLinks e he hid htype
  by_cases hroots : ultimateRoots focusId allNodes allLinks = []
  · have hnodes : relevantNodes focusId allNodes allLinks ≠ [] :=
      List.ne_nil_of_mem (List.mem_of_mem_filter hent)
    rw [buildFocusedHierarchy_of_fallback focusId allNodes allLinks n hfind hroots hnodes]
    cases hhead : ((relevantNodes focusId allNodes allLinks).filter
        (fun n => n.type == NodeType.entity)) with
    | nil => rw [hhead] at hent; cases hent
    | cons r rest => exact ⟨_, rfl, List.cons_ne_nil _ _⟩
  · rw [buildFocusedHierarchy_of_roots focusId allNodes allLinks n hfind hroots]
    refine ⟨_, rfl, ?_⟩
    intro hnil
    exact hroots (List.map_eq_nil_iff.1 hnil)

/-- C16, refuted as stated: an empty forest does not mean exactly that the focus is
absent. With an entity A, a person P of A and the attachment link of P, a node
has the focus id P and the forest is empty: the restricted node set is empty.
With a person P, an entity B and the link P→B:50, no entity node has the focus
id P and the forest is not empty: it is the tree of B, the first entity of the
restricted node set. -/
theorem empty_forest_not_iff_absent :
    ((∃ n ∈ attachmentNodes, n.id = "P") ∧
      buildFocusedHierarchy "P" attachmentNodes attachmentLinks = some []) ∧
    ((∀ n ∈ [personNode "P" none, entityNode "B"], n.id = "P" → n.type ≠ NodeType.entity) ∧
      buildFocusedHierarchy "P" [personNode "P" none, entityNode "B"] [own "P" "B" 50] =
        some [HierarchyNode.mk (entityNode "B") [] none]) :=
  ⟨⟨by decide, rfl⟩, by decide, rfl⟩

/-- C16, amended: `buildFocusedHierarchy(focusId, nodes, links)` returns the empty
forest when no node has the id `focusId`, and returns a non-empty forest when
`focusId` is the id of an entity node of the list; so, when every node of the
list with the id `focusId` is an entity node, the returned forest is empty
exactly when no node has the id `focusId`. -/
theorem focused_forest_empty_iff_absent (focusId : String) (nodes : List Node)
    (links : List (Link P)) :
    ((∀ n ∈ nodes, n.id ≠ focusId) →
      buildFocusedHierarchy focusId nodes links = some []) ∧
    ((∃ n ∈ nodes, n.id = focusId ∧ n.type = NodeType.entity) →
      ∃ forest, buildFocusedHierarchy focusId nodes links = some forest ∧ forest ≠ []) ∧
    ((∀ n ∈ nodes, n.id = focusId → n.type = NodeType.entity) →
      (buildFocusedHierarchy focusId nodes links = some [] ↔ ∀ n ∈ nodes, n.id ≠ focusId)) := by
  refine ⟨buildFocusedHierarchy_of_not_found focusId nodes links, ?_, ?_⟩
  · rintro ⟨e, he, hid, htype⟩
    exact buildFocusedHierarchy_ne_nil focusId nodes links e he hid htype
  · intro hent
    constructor
    · intro hempty n hn hid
      obtain ⟨forest, hf, hne⟩ :=
        buildFocusedHierarchy_ne_nil focusId nodes links n hn hid (hent n hn hid)
      rw [hempty] at hf
      exact hne (Option.some.inj hf).symm
    · exact buildFocusedHierarchy_of_not_found focusId nodes links

/-- Witness of C16, amended: on the nodes A, B, C, which are all entities, the focus
Z gives the empty forest, the focus B gives a forest of one tree, and the forest
of the focus B is empty exactly when no node has the id B. -/
theorem focused_forest_empty_iff_absent_witness :
    (∀ n ∈ scenarioNodes, n.id ≠ "Z") ∧
    buildFocusedHierarchy "Z" scenarioNodes scenarioLinks = some [] ∧
    (∃ n ∈ scenarioNodes, n.id = "B" ∧ n.type = NodeType.entity) ∧
    (∃ forest, buildFocusedHierarchy "B" scenarioNodes scenarioLinks = some forest ∧
      forest ≠ []) ∧
    (∀ n ∈ scenarioNodes, n.id = "B" → n.type = NodeType.entity) ∧
    (buildFocusedHierarchy "B" scenarioNodes scenarioLinks = some [] ↔
      ∀ n ∈ scenarioNodes, n.id ≠ "B") :=
  ⟨by decide,
    (focused_forest_empty_iff_absent "Z" scenarioNodes scenarioLinks).1 (by decide),
    ⟨entityNode "B", by decide, rfl, rfl⟩,
    (focused_forest_empty_iff_absent "B" scenarioNodes scenarioLinks).2.1
      ⟨entityNode "B", by decide, rfl, rfl⟩,
    by decide,
    (focused_forest_empty_iff_absent "B" scenarioNodes scenarioLinks).2.2 (by decide)⟩

theorem focusRoot_mem_relevantNodes (focusId : String) (allNodes : List Node)
    (allLinks : List (Link P)) (forest : List (HierarchyNode P))
    (h : buildFocusedHierarchy focusId allNodes allLinks = some forest) :
    ∀ t ∈ forest, ∃ root ∈ relevantNodes focusId allNodes allLinks,
      root.type = NodeType.entity ∧
      t = buildTreeRecursive root (relevantNodes focusId allNodes allLinks)
        (relevantLinks focusId allLinks) [] := by
  intro t ht
  cases hfind : allNodes.find? (fun n => n.id == focusId) with
  | none =>
    unfold buildFocusedHierarchy at h
    rw [hfind] at h
    cases Option.some.inj h
    cases ht
  | some n =>
    by_cases hroots : ultimateRoots focusId allNodes allLinks = []
    · by_cases hnodes : relevantNodes focusId allNodes allLinks = []
      · rw [buildFocusedHierarchy_of_empty focusId allNodes allLinks n hfind hroots hnodes] at h
        cases Option.some.inj h
        cases ht
      · rw [buildFocusedHierarchy_of_fallback focusId allNodes allLinks n hfind hroots hnodes]
          at h
        cases hhead : ((relevantNodes focusId allNodes allLinks).filter
            (fun n => n.type == NodeType.entity)) with
        | nil =>
          rw [hhead] at h
          cases h
        | cons r rest =>
          rw [hhead] at h
          have hmem : r ∈ (relevantNodes focusId allNodes allLinks).filter
              (fun n => n.type == NodeType.entity) := by
            rw [hhead]
            exact List.mem_cons_self _ _
          cases Option.some.inj h
          rw [List.mem_singleton] at ht
          refine ⟨r, List.mem_of_mem_filter hmem, ?_, ht⟩
          simpa using (List.mem_filter.1 hmem).2
    · rw [buildFocusedHierarchy_of_roots focusId allNodes allLinks n hfind hroots] at h
      cases Option.some.inj h
      obtain ⟨root, hroot, rfl⟩ := List.mem_map.1 ht
      obtain ⟨hrel, htype, -⟩ := (mem_ultimateRoots focusId allNodes allLinks root).1 hroot
      exact ⟨root, hrel, htype, rfl⟩

/-- C17: every entity node that occurs in a tree of the forest returned by
`buildFocusedHierarchy` has its id in `relevant`, the focus id together with the
shareholders and the subsidiaries of the focus id, and every person node that
occurs in it has an `entityId` in `relevant`. -/
theorem focused_forest_within_relevant (focusId : String) (nodes : List Node)
    (links : List (Link P)) (forest : List (HierarchyNode P))
    (h : buildFocusedHierarchy focusId nodes links = some forest) :
    ∀ t ∈ forest, ∀ o ∈ occurrencesFrom [] t,
      (o.2.node.type = NodeType.entity →
        o.2.node.id = focusId ∨ o.2.node.id ∈ findAllShareholders focusId links ∨
          o.2.node.id ∈ findAllSubsidiaries focusId links) ∧
      (o.2.node.type = NodeType.person →
        ∃ owner, o.2.node.entityId = some owner ∧
          (owner = focusId ∨ owner ∈ findAllShareholders focusId links ∨
            owner ∈ findAllSubsidiaries focusId links)) := by
  intro t ht o ho
  obtain ⟨root, hroot, -, rfl⟩ := focusRoot_mem_relevantNodes focusId nodes links forest h t ht
  have hmem : o.2.node ∈ relevantNodes focusId nodes links := by
    rcases occurrence_node_mem root _ _ o ho with h1 | h1
    · rw [h1]; exact hroot
    · exact h1
  rw [mem_relevantNodes] at hmem
  rcases hmem.2 with ⟨htype, hid⟩ | ⟨htype, owner, howner, hid⟩
  · refine ⟨fun _ => (mem_relevantEntityIds focusId links _).1 hid, ?_⟩
    intro hp
    rw [htype] at hp
    cases hp
  · refine ⟨?_, fun _ => ⟨owner, howner, (mem_relevantEntityIds focusId links _).1 hid⟩⟩
    intro hp
    rw [htype] at hp
    cases hp

/-- Witness of C17: entities A, B, C with links A→B:60, A→C:40 and focus B give
the shareholders [A], no subsidiary, and the single tree A[B]; the node B of this
tree has the focus id. -/
theorem focused_forest_within_relevant_witness :
    findAllShareholders "B" scenarioLinks = ["A"] ∧
    findAllSubsidiaries "B" scenarioLinks = [] ∧
    buildFocusedHierarchy "B" scenarioNodes scenarioLinks =
      some [HierarchyNode.mk (entityNode "A")
        [HierarchyNode.mk (entityNode "B") [] (some (some 60))] none] ∧
    ((entityNode "B").type = NodeType.entity →
      (entityNode "B").id = "B" ∨ (entityNode "B").id ∈ findAllShareholders "B" scenarioLinks ∨
        (entityNode "B").id ∈ findAllSubsidiaries "B" scenarioLinks) :=
  ⟨by decide, by decide, rfl,
    (focused_forest_within_relevant "B" scenarioNodes scenarioLinks
      [HierarchyNode.mk (entityNode "A")
        [HierarchyNode.mk (entityNode "B") [] (some (some 60))] none] rfl
      (HierarchyNode.mk (entityNode "A")
        [HierarchyNode.mk (entityNode "B") [] (some (some 60))] none) (List.Mem.head _)
      (["A"], HierarchyNode.mk (entityNode "B") [] (some (some 60)))
      (List.Mem.tail _ (List.Mem.head _))).1⟩

/-- C18, refuted as stated: with an entity A, a person P of A and the attachment
link of P, the focus id P resolves (to the person node), no entity node of the
restricted node set is a local root, and the returned forest is empty instead
of a single tree: the restricted node set is empty. -/
theorem focus_on_person_gives_empty_forest :
    attachmentNodes.find? (fun n => n.id == "P") = some (personNode "P" (some "A")) ∧
    relevantNodes "P" attachmentNodes attachmentLinks = [] ∧
    ultimateRoots "P" attachmentNodes attachmentLinks = [] ∧
    buildFocusedHierarchy "P" attachmentNodes attachmentLinks = some [] ∧
    ¬ ∃ t, buildFocusedHierarchy "P" attachmentNodes attachmentLinks = some [t] := by
  refine ⟨by decide, by decide, by decide, rfl, ?_⟩
  rintro ⟨t, ht⟩
  have h : buildFocusedHierarchy "P" attachmentNodes attachmentLinks = some [] := rfl
  rw [h] at ht
  cases ht

/-- C18, amended: when the focus id resolves, the local roots are, in node-list
order, exactly the entity nodes of the restricted node set that are the target
of no link of the restricted link set with a non-null ownership; when there is
a local root, the forest is one tree per local root, built by
`buildTreeRecursive` over the restricted nodes and links; when there is none and
the restricted node set holds an entity node, the forest is the single tree of
the first entity node of the restricted node set; when the restricted node set
is empty, the forest is empty. -/
theorem focused_forest_roots (focusId : String) (nodes : List Node) (links : List (Link P))
    (n : Node) (hres : nodes.find? (fun n => n.id == focusId) = some n) :
    (∃ isLocalRoot : Node → Bool,
      (∀ r, isLocalRoot r = true ↔ r.type = NodeType.entity ∧
        ∀ l ∈ relevantLinks focusId links, l.target = r.id → l.ownership = none) ∧
      ultimateRoots focusId nodes links =
        (relevantNodes focusId nodes links).filter isLocalRoot) ∧
    (ultimateRoots focusId nodes links ≠ [] →
      buildFocusedHierarchy focusId nodes links =
        some ((ultimateRoots focusId nodes links).map (fun root =>
          buildTreeRecursive root (relevantNodes focusId nodes links)
            (relevantLinks focusId links) []))) ∧
    (ultimateRoots focusId nodes links = [] →
      ∀ r rest, (relevantNodes focusId nodes links).filter
          (fun n => decide (n.type = NodeType.entity)) = r :: rest →
        buildFocusedHierarchy focusId nodes links =
          some [buildTreeRecursive r (relevantNodes focusId nodes links)
            (relevantLinks focusId links) []]) ∧
    (relevantNodes focusId nodes links = [] →
      buildFocusedHierarchy focusId nodes links = some []) := by
  refine ⟨⟨_, ?_, rfl⟩, ?_, ?_, ?_⟩
  · intro r
    simp only [Bool.and_eq_true, beq_iff_eq, Bool.not_eq_true', List.any_eq_false, not_and,
      Option.isSome_iff_ne_none, ne_eq, not_not]
  · exact buildFocusedHierarchy_of_roots focusId nodes links n hres
  · intro hroots r rest hhead
    have hnodes : relevantNodes focusId nodes links ≠ [] := by
      intro hnil
      rw [hnil] at hhead
      cases hhead
    rw [buildFocusedHierarchy_of_fallback focusId nodes links n hres hroots hnodes]
    have hhead' : (relevantNodes focusId nodes links).filter
        (fun n => n.type == NodeType.entity) = r :: rest := hhead
    rw [hhead']
    rfl
  · intro hnodes
    have hroots : ultimateRoots focusId nodes links = [] := by
      unfold ultimateRoots
      rw [hnodes]
      rfl
    exact buildFocusedHierarchy_of_empty focusId nodes links n hres hroots hnodes

/-- Witness of the amended C18: with the focus B in scenario 1 the only local root
is A and the forest is the tree of A over the restricted nodes A, B and the
restricted link A→B. -/
theorem focused_forest_roots_witness :
    scenarioNodes.find? (fun n => n.id == "B") = some (entityNode "B") ∧
    ultimateRoots "B" scenarioNodes scenarioLinks = [entityNode "A"] ∧
    relevantNodes "B" scenarioNodes scenarioLinks = [entityNode "A", entityNode "B"] ∧
    relevantLinks "B" scenarioLinks = [own "A" "B" 60] ∧
    buildFocusedHierarchy "B" scenarioNodes scenarioLinks =
      some ((ultimateRoots "B" scenarioNodes scenarioLinks).map (fun root =>
        buildTreeRecursive root (relevantNodes "B" scenarioNodes scenarioLinks)
          (relevantLinks "B" scenarioLinks) [])) :=
  ⟨by decide, by decide, by decide, by decide,
    (focused_forest_roots "B" scenarioNodes scenarioLinks (entityNode "B") (by decide)).2.1
      (by decide)⟩

/-- C20, the code at the failing input: the node list holds only a person whose id
is the focus id and the id of its entity, with the attachment link that
`getFilteredData` builds for it. The focus id resolves, the restricted node set
is this person, there is no local root, the fallback takes
`relevantNodes.filter(n => n.type === 'entity')[0]`, which is `undefined`, and
the call of `buildTreeRecursive` on it faults. -/
theorem focused_hierarchy_faults_without_entity :
    personLinks clashNodes = clashLinks ∧
    clashNodes.find? (fun n => n.id == "1") = some (personNode "1" (some "1")) ∧
    relevantNodes "1" clashNodes clashLinks = clashNodes ∧
    ultimateRoots "1" clashNodes clashLinks = [] ∧
    focusRoots "1" clashNodes clashLinks = [none] ∧
    buildFocusedHierarchy "1" clashNodes clashLinks = none :=
  ⟨by decide, by decide, by decide, by decide, by decide, rfl⟩

/-! ## The focus in the focused forest -/

theorem avoidingWalk_not_mem (links : List (Link P)) (avoid : List String) (n : Nat)
    (a b : String) (h : AvoidingWalk links avoid n a b) : a ∉ avoid := by
  cases h with
  | refl _ ha => exact ha
  | step ha _ _ => exact ha

theorem avoidingWalk_split (links : List (Link P)) (avoid : List String) (x : String) :
    ∀ (n : Nat) (c b : String), AvoidingWalk links avoid n c b →
      AvoidingWalk links (x :: avoid) n c b ∨ ∃ m, m ≤ n ∧ AvoidingWalk links avoid m x b := by
  intro n c b h
  induction h with
  | refl a ha =>
    by_cases hax : a = x
    · subst hax
      exact Or.inr ⟨0, Nat.le_refl _, AvoidingWalk.refl a ha⟩
    · refine Or.inl (AvoidingWalk.refl a ?_)
      intro hmem
      rcases List.mem_cons.1 hmem with h1 | h1
      · exact hax h1
      · exact ha h1
  | @step n a c b ha hedge hrest ih =>
    by_cases hax : a = x
    · subst hax
      exact Or.inr ⟨n + 1, Nat.le_refl _, AvoidingWalk.step ha hedge hrest⟩
    · rcases ih with h1 | ⟨m, hm, hw⟩
      · refine Or.inl (AvoidingWalk.step ?_ hedge h1)
        intro hmem
        rcases List.mem_cons.1 hmem with h2 | h2
        · exact hax h2
        · exact ha h2
      · exact Or.inr ⟨m, Nat.le_succ_of_le hm, hw⟩

/-- A walk from `a` to another id can leave `a` for good at its first step. -/
theorem avoidingWalk_first_step (links : List (Link P)) (avoid : List String) (b : String) :
    ∀ (n : Nat) (a : String), AvoidingWalk links avoid n a b → a ≠ b →
      ∃ c m, OwnershipEdge links a c ∧ AvoidingWalk links (a :: avoid) m c b := by
  intro n
  induction n using Nat.strong_induction_on with
  | _ n ih =>
    intro a h hab
    cases h with
    | refl _ _ => exact absurd rfl hab
    | @step k _ c _ ha hedge hrest =>
      rcases avoidingWalk_split links avoid a k c b hrest with h1 | ⟨m, hm, hw⟩
      · exact ⟨c, k, hedge, h1⟩
      · exact ih m (Nat.lt_succ_of_le hm) a hw hab

theorem avoidingWalk_of_path (links : List (Link P)) (a b : String)
    (h : Relation.ReflTransGen (OwnershipEdge links) a b) :
    ∃ n, AvoidingWalk links [] n a b := by
  induction h using Relation.ReflTransGen.head_induction_on with
  | refl => exact ⟨0, AvoidingWalk.refl b (List.not_mem_nil _)⟩
  | head hedge _ ih =>
    obtain ⟨n, hn⟩ := ih
    exact ⟨n + 1, AvoidingWalk.step (List.not_mem_nil _) hedge hn⟩

theorem exists_occurrence_setOwnershipPerc (anc : List String) (v : Option P)
    (t : HierarchyNode P) (x : String)
    (h : ∃ o ∈ occurrencesFrom anc t, o.2.node.id = x) :
    ∃ o ∈ occurrencesFrom anc (t.setOwnershipPerc v), o.2.node.id = x := by
  obtain ⟨o, ho, hid⟩ := h
  rw [occurrencesFrom_eq, List.mem_cons] at ho
  rcases ho with rfl | hdesc
  · refine ⟨(anc, t.setOwnershipPerc v), ?_, ?_⟩
    · rw [occurrencesFrom_eq]
      exact List.mem_cons_self _ _
    · simpa [setOwnershipPerc_node] using hid
  · refine ⟨o, ?_, hid⟩
    rw [occurrencesFrom_eq, setOwnershipPerc_node, setOwnershipPerc_children]
    exact List.mem_cons_of_mem _ hdesc

/-- A tree holds every id that a walk of resolving links reaches from its root
without meeting the visited set. -/
theorem exists_occurrence_of_walk (allNodes : List Node) (allLinks : List (Link P))
    (x : String)
    (hres : ∀ l ∈ allLinks, l.ownership ≠ none → ∃ n ∈ allNodes, n.id = l.target) :
    ∀ node visited, ∀ n, AvoidingWalk allLinks visited n node.id x →
      ∀ anc, ∃ o ∈ occurrencesFrom anc (buildTreeRecursive node allNodes allLinks visited),
        o.2.node.id = x := by
  apply buildTreeRecursive_induction allNodes allLinks
  intro node visited ih n hwalk anc
  have hv : node.id ∉ visited := avoidingWalk_not_mem allLinks visited n _ _ hwalk
  by_cases hx : node.id = x
  · refine ⟨(anc, buildTreeRecursive node allNodes allLinks visited), ?_, ?_⟩
    · rw [occurrencesFrom_eq]
      exact List.mem_cons_self _ _
    · simpa [buildTreeRecursive_node] using hx
  · obtain ⟨c, m, hedge, hrest⟩ := avoidingWalk_first_step allLinks visited x n node.id hwalk hx
    obtain ⟨l, hl, hsrc, htgt, hown⟩ := hedge
    have hchild : l ∈ childLinks allLinks node.id :=
      (mem_childLinks allLinks node.id l).2 ⟨hl, hsrc, hown⟩
    obtain ⟨target, htarget, htid⟩ := hres l hl hown
    obtain ⟨childNode, hfind⟩ := find?_isSome_of_mem allNodes l.target target htarget htid
    have hcid : childNode.id = c := by
      rw [(find?_id_eq_some hfind).2, htgt]
    rw [← hcid] at hrest
    obtain ⟨o, ho, hoid⟩ := exists_occurrence_setOwnershipPerc (node.id :: anc) l.ownership _ x
      (ih hv l hchild childNode hfind m hrest (node.id :: anc))
    refine ⟨o, ?_, hoid⟩
    rw [mem_occurrencesFrom, buildTreeRecursive_node,
      buildTreeRecursive_children _ _ _ _ hv]
    right
    refine ⟨_, List.mem_append_left _ ((mem_entityChildren node allNodes allLinks visited _).2
      ⟨l, hchild, childNode, hfind, rfl⟩), ho⟩

theorem occursIn_iff (x : String) (t : HierarchyNode P) :
    occursIn x t = true ↔ ∃ o ∈ occurrencesFrom [] t, o.2.node.id = x := by
  unfold occursIn
  simp only [List.any_eq_true, beq_iff_eq]

/-- The ownership paths to the focus id run inside the restricted links. -/
theorem relevant_path_of_path (focusId : String) (allLinks : List (Link P)) (a : String)
    (h : OwnershipPath allLinks a focusId) :
    OwnershipPath (relevantLinks focusId allLinks) a focusId := by
  induction h using Relation.TransGen.head_induction_on with
  | base hedge =>
    obtain ⟨l, hl, hsrc, htgt, hown⟩ := hedge
    refine Relation.TransGen.single ⟨l, ?_, hsrc, htgt, hown⟩
    rw [mem_relevantLinks, mem_relevantEntityIds, mem_relevantEntityIds]
    refine ⟨hl, Or.inr (Or.inl ?_), Or.inl htgt⟩
    rw [mem_findAllShareholders]
    exact Relation.TransGen.single ⟨l, hl, rfl, htgt, hown⟩
  | ih hedge hrest ih =>
    obtain ⟨l, hl, hsrc, htgt, hown⟩ := hedge
    refine Relation.TransGen.head ⟨l, ?_, hsrc, htgt, hown⟩ ih
    rw [mem_relevantLinks, mem_relevantEntityIds, mem_relevantEntityIds]
    refine ⟨hl, Or.inr (Or.inl ?_), Or.inr (Or.inl ?_)⟩
    · rw [mem_findAllShareholders]
      exact Relation.TransGen.head ⟨l, hl, rfl, htgt, hown⟩ hrest
    · rw [mem_findAllShareholders, htgt]
      exact hrest

/-- A local root is the focus or owns it through a path. -/
theorem ultimateRoot_owns_focus (focusId : String) (allNodes : List Node)
    (allLinks : List (Link P)) (r : Node)
    (hr : r ∈ ultimateRoots focusId allNodes allLinks) :
    r.id = focusId ∨ OwnershipPath allLinks r.id focusId := by
  obtain ⟨hrel, htype, hnone⟩ := (mem_ultimateRoots focusId allNodes allLinks r).1 hr
  rw [mem_relevantNodes] at hrel
  rcases hrel.2 with ⟨-, hid⟩ | ⟨hperson, -⟩
  · rw [mem_relevantEntityIds] at hid
    rcases hid with h1 | h1 | h1
    · exact Or.inl h1
    · exact Or.inr ((mem_findAllShareholders focusId allLinks r.id).1 h1)
    · exfalso
      rw [mem_findAllSubsidiaries] at h1
      obtain ⟨c, hc, hedge⟩ := Relation.TransGen.tail'_iff.1 h1
      obtain ⟨l, hl, hsrc, htgt, hown⟩ := hedge
      have hcrel : c ∈ relevantEntityIds focusId allLinks := by
        rw [mem_relevantEntityIds]
        rcases Relation.reflTransGen_iff_eq_or_transGen.1 hc with h2 | h2
        · exact Or.inl h2
        · exact Or.inr (Or.inr ((mem_findAllSubsidiaries focusId allLinks c).2 h2))
      have hlrel : l ∈ relevantLinks focusId allLinks := by
        rw [mem_relevantLinks]
        refine ⟨hl, hsrc ▸ hcrel, ?_⟩
        rw [htgt, mem_relevantEntityIds]
        exact Or.inr (Or.inr ((mem_findAllSubsidiaries focusId allLinks r.id).2 h1))
      exact hown (hnone l hlrel htgt)
  · rw [htype] at hperson
    cases hperson

/-- C19, refuted as stated. In scenario 1, when B is filtered out and its
shareholder A survives, the forest focused on B is empty, so B is in no tree.
With two roots R1 and R2 that both own X, X is in the two trees of the forest
focused on X. With X and W owning each other and X owning D, listed first,
there is no local root, the fallback tree is the tree of D, and X is in no
tree although it survives. -/
theorem focus_in_no_tree_or_in_two :
    ("A" ∈ findAllShareholders "B" scenarioLinks ∧
      buildFocusedHierarchy "B" [entityNode "A"] ([] : List (Link Nat)) = some []) ∧
    (∃ forest, buildFocusedHierarchy "X" twoRootNodes twoRootLinks = some forest ∧
      (forest.filter (occursIn "X")).length = 2) ∧
    (∃ forest, buildFocusedHierarchy "X" tailNodes tailLinks = some forest ∧
      (forest.filter (occursIn "X")).length = 0) :=
  ⟨⟨by decide, rfl⟩,
    ⟨[HierarchyNode.mk (entityNode "R1")
        [HierarchyNode.mk (entityNode "X") [] (some (some 50))] none,
      HierarchyNode.mk (entityNode "R2")
        [HierarchyNode.mk (entityNode "X") [] (some (some 50))] none], rfl, by decide⟩,
    ⟨[HierarchyNode.mk (entityNode "D") [] none], rfl, by decide⟩⟩

/-- C19, amended: when an entity node with the id `X` is in the filtered node list
and every filtered link with a non-null ownership has the id of an entity node
of the list as target, `buildFocusedHierarchy(X, nodes, links)` returns a
non-empty forest and, when the restricted set has a local root, the forest has
one tree per local root and `X` occurs in every tree of it: in exactly one tree
when there is exactly one local root. -/
theorem focus_occurs_under_every_local_root (X : String) (nodes : List Node)
    (links : List (Link P))
    (hX : ∃ n ∈ nodes, n.id = X ∧ n.type = NodeType.entity)
    (hlinks : ∀ l ∈ links, l.ownership ≠ none →
      ∃ n ∈ nodes, n.id = l.target ∧ n.type = NodeType.entity) :
    ∃ forest, buildFocusedHierarchy X nodes links = some forest ∧ forest ≠ [] ∧
      (ultimateRoots X nodes links ≠ [] →
        forest.length = (ultimateRoots X nodes links).length ∧
        (∀ t ∈ forest, occursIn X t = true) ∧
        (forest.filter (occursIn X)).length = (ultimateRoots X nodes links).length) := by
  obtain ⟨e, he, hid, htype⟩ := hX
  obtain ⟨forest, hforest, hne⟩ := buildFocusedHierarchy_ne_nil X nodes links e he hid htype
  refine ⟨forest, hforest, hne, ?_⟩
  intro hroots
  obtain ⟨n, hfind⟩ := find?_isSome_of_mem nodes X e he hid
  rw [buildFocusedHierarchy_of_roots X nodes links n hfind hroots] at hforest
  have hval := (Option.some.inj hforest).symm
  have hres : ∀ l ∈ relevantLinks X links, l.ownership ≠ none →
      ∃ n ∈ relevantNodes X nodes links, n.id = l.target := by
    intro l hl hown
    obtain ⟨hmem, -, htgt⟩ := (mem_relevantLinks X links l).1 hl
    obtain ⟨target, htarget, htid, httype⟩ := hlinks l hmem hown
    refine ⟨target, ?_, htid⟩
    rw [mem_relevantNodes]
    exact ⟨htarget, Or.inl ⟨httype, htid ▸ htgt⟩⟩
  have hall : ∀ t ∈ forest, occursIn X t = true := by
    intro t ht
    rw [hval] at ht
    obtain ⟨r, hr, rfl⟩ := List.mem_map.1 ht
    rw [occursIn_iff]
    have hreach : Relation.ReflTransGen (OwnershipEdge (relevantLinks X links)) r.id X := by
      rcases ultimateRoot_owns_focus X nodes links r hr with h1 | h1
      · rw [h1]
      · exact Relation.TransGen.to_reflTransGen (relevant_path_of_path X links r.id h1)
    obtain ⟨k, hwalk⟩ := avoidingWalk_of_path (relevantLinks X links) r.id X hreach
    exact exists_occurrence_of_walk (relevantNodes X nodes links) (relevantLinks X links) X
      hres r [] k hwalk []
  have hlen : forest.length = (ultimateRoots X nodes links).length := by
    rw [hval, List.length_map]
  refine ⟨hlen, hall, ?_⟩
  rw [List.filter_eq_self.2 hall, hlen]

/-- Witness of the amended C19: with the two local roots R1 and R2 of X, the forest
focused on X has two trees, and X occurs in both. -/
theorem focus_occurs_under_every_local_root_witness :
    (∃ n ∈ twoRootNodes, n.id = "X" ∧ n.type = NodeType.entity) ∧
    (∀ l ∈ twoRootLinks, l.ownership ≠ none →
      ∃ n ∈ twoRootNodes, n.id = l.target ∧ n.type = NodeType.entity) ∧
    ultimateRoots "X" twoRootNodes twoRootLinks = [entityNode "R1", entityNode "R2"] ∧
    ∃ forest, buildFocusedHierarchy "X" twoRootNodes twoRootLinks = some forest ∧
      forest ≠ [] ∧
      (ultimateRoots "X" twoRootNodes twoRootLinks ≠ [] →
        forest.length = (ultimateRoots "X" twoRootNodes twoRootLinks).length ∧
        (∀ t ∈ forest, occursIn "X" t = true) ∧
        (forest.filter (occursIn "X")).length =
          (ultimateRoots "X" twoRootNodes twoRootLinks).length) :=
  ⟨by decide, by decide, by decide,
    focus_occurs_under_every_local_root "X" twoRootNodes twoRootLinks (by decide) (by decide)⟩

/-! ## The cycles that `detectCircularReferences` reports -/

theorem drop_indexOf_of_mem (e : String) :
    ∀ (path : List String), e ∈ path →
      ∃ pre tl, path = pre ++ e :: tl ∧ path.drop (path.indexOf e) = e :: tl := by
  intro path
  induction path with
  | nil => intro h; cases h
  | cons a rest ih =>
    intro h
    by_cases hae : a = e
    · subst hae
      exact ⟨[], rest, rfl, by rw [List.indexOf_cons_self]; rfl⟩
    · have hmem : e ∈ rest := by
        rcases List.mem_cons.1 h with h1 | h1
        · exact absurd h1.symm hae
        · exact h1
      obtain ⟨pre, tl, hpath, hdrop⟩ := ih hmem
      refine ⟨a :: pre, tl, by rw [hpath]; rfl, ?_⟩
      rw [List.indexOf_cons_ne _ hae]
      exact hdrop

/-- The cycle that `dfs` pushes when it meets an id of the recursion stack. -/
theorem isOwnershipCycle_slice (links : List (Link P)) (path : List String) (e : String)
    (he : e ∈ path) (hnodup : path.Nodup)
    (hchain : List.Chain' (OwnershipEdge links) (path ++ [e])) :
    IsOwnershipCycle links (sliceFromIndexOf path e ++ [e]) := by
  obtain ⟨pre, tl, hpath, hdrop⟩ := drop_indexOf_of_mem e path he
  unfold sliceFromIndexOf
  rw [if_pos he, hdrop]
  refine ⟨e, tl, rfl, ?_, ?_⟩
  · rw [hpath] at hnodup
    exact (List.nodup_append.1 hnodup).2.1
  · rw [hpath, List.append_assoc] at hchain
    exact hchain.right_of_append

theorem dfsChildren_invariant (Inv : DfsState → Prop)
    (call : String → DfsState → Option (Bool × DfsState)) (children : List String)
    (hcall : ∀ c ∈ children, ∀ s r, Inv s → call c s = some r → Inv r.2) :
    ∀ (st st' : DfsState), Inv st → dfsChildren call children st = some st' → Inv st' := by
  induction children with
  | nil =>
    intro st st' hinv h
    simp only [dfsChildren, Option.some.injEq] at h
    rw [← h]
    exact hinv
  | cons child rest ih =>
    intro st st' hinv h
    unfold dfsChildren at h
    cases hc : call child st with
    | none => simp [hc] at h
    | some r =>
      obtain ⟨b, s⟩ := r
      have hs : Inv s := hcall child (List.mem_cons_self _ _) st (b, s) hinv hc
      rw [hc] at h
      cases b with
      | true =>
        simp only [Option.some.injEq] at h
        rw [← h]
        exact hs
      | false =>
        exact ih (fun c hc' => hcall c (List.mem_cons_of_mem _ hc')) s st' hs h

theorem dfsRoots_invariant (Inv : DfsState → Prop)
    (call : String → DfsState → Option (Bool × DfsState)) (entityIds : List String)
    (hcall : ∀ c ∈ entityIds, ∀ s r, Inv s → call c s = some r → Inv r.2) :
    ∀ (st st' : DfsState), Inv st → dfsRoots call entityIds st = some st' → Inv st' := by
  induction entityIds with
  | nil =>
    intro st st' hinv h
    simp only [dfsRoots, Option.some.injEq] at h
    rw [← h]
    exact hinv
  | cons entityId rest ih =>
    intro st st' hinv h
    unfold dfsRoots at h
    have hrest : ∀ c ∈ rest, ∀ s r, Inv s → call c s = some r → Inv r.2 :=
      fun c hc' => hcall c (List.mem_cons_of_mem _ hc')
    by_cases hvis : entityId ∈ st.visited
    · rw [if_pos hvis] at h
      exact ih hrest st st' hinv h
    · rw [if_neg hvis] at h
      cases hc : call entityId st with
      | none => simp [hc] at h
      | some r =>
        rw [hc] at h
        exact ih hrest r.2 st' (hcall entityId (List.mem_cons_self _ _) st r hinv hc) h

/-- Every call of `dfs` keeps the recursion stack equal to the path and pushes
only ownership cycles. -/
theorem dfsFuel_invariant (links : List (Link P)) :
    ∀ (fuel : Nat) (e : String) (path : List String) (st : DfsState) (r : Bool × DfsState),
      dfsFuel (links.filter (fun link => link.ownership.isSome)) fuel e path st = some r →
      (∀ x, x ∈ st.recursionStack ↔ x ∈ path) → path.Nodup →
      List.Chain' (OwnershipEdge links) (path ++ [e]) →
      (∀ c ∈ st.cycles, IsOwnershipCycle links c) →
      (∀ x, x ∈ r.2.recursionStack ↔ x ∈ path) ∧
        (∀ c ∈ r.2.cycles, IsOwnershipCycle links c) := by
  intro fuel
  induction fuel with
  | zero =>
    intro e path st r h
    simp [dfsFuel] at h
  | succ fuel ih =>
    intro e path st r h hstack hnodup hchain hcycles
    rw [dfsFuel_succ] at h
    by_cases hin : e ∈ st.recursionStack
    · rw [if_pos hin] at h
      rw [← Option.some.inj h]
      refine ⟨hstack, ?_⟩
      intro c hc
      rcases List.mem_append.1 hc with h1 | h1
      · exact hcycles c h1
      · rw [List.mem_singleton] at h1
        rw [h1]
        exact isOwnershipCycle_slice links path e ((hstack e).1 hin) hnodup hchain
    · rw [if_neg hin] at h
      by_cases hvis : e ∈ st.visited
      · rw [if_pos hvis] at h
        rw [← Option.some.inj h]
        exact ⟨hstack, hcycles⟩
      · rw [if_neg hvis, Option.map_eq_some'] at h
        obtain ⟨st', hloop, hr⟩ := h
        have hnot : e ∉ path := fun hp => hin ((hstack e).2 hp)
        have hinv := dfsChildren_invariant
          (fun s => (∀ x, x ∈ s.recursionStack ↔ x ∈ path ++ [e]) ∧
            (∀ c ∈ s.cycles, IsOwnershipCycle links c))
          _ _
          (by
            intro c hc s r' hs hcall
            obtain ⟨l, hl, rfl⟩ := List.mem_map.1 hc
            obtain ⟨hl1, hsrc⟩ := List.mem_filter.1 hl
            obtain ⟨hl2, hown⟩ := List.mem_filter.1 hl1
            have hedge : OwnershipEdge links e l.target :=
              ⟨l, hl2, by simpa using hsrc, rfl, Option.isSome_iff_ne_none.1 hown⟩
            refine ih l.target (path ++ [e]) s r' hcall hs.1 ?_ ?_ hs.2
            · rw [List.nodup_append]
              refine ⟨hnodup, List.nodup_singleton e, ?_⟩
              intro a ha hb
              rw [List.mem_singleton] at hb
              exact hnot (hb ▸ ha)
            · refine List.Chain'.append hchain (List.chain'_singleton _) ?_
              intro x hx y hy
              rw [List.getLast?_append_of_ne_nil _ (List.cons_ne_nil _ _)] at hx
              simp only [List.getLast?_singleton, Option.mem_def, Option.some.injEq] at hx
              simp only [List.head?_cons, Option.mem_def, Option.some.injEq] at hy
              rw [← hx, ← hy]
              exact hedge)
          _ st'
          (by
            refine ⟨?_, hcycles⟩
            intro x
            simp only [List.mem_cons, List.mem_append, List.mem_singleton, hstack x]
            tauto)
          hloop
        rw [← hr]
        refine ⟨?_, hinv.2⟩
        intro x
        simp only [List.mem_filter, hinv.1 x, List.mem_append, List.mem_singleton, bne_iff_ne,
          ne_eq]
        constructor
        · rintro ⟨h1 | h1, h2⟩
          · exact h1
          · exact absurd h1 h2
        · intro hx
          exact ⟨Or.inl hx, fun hxe => hnot (hxe ▸ hx)⟩

/-- The value of `detectCircularReferences` is the list of cycles of a run. -/
theorem detectCircularReferences_eq (links : List (Link P)) :
    ∃ st, dfsRoots
        (fun entityId s => dfsFuel (links.filter (fun link => link.ownership.isSome))
          (2 * links.length + 1) entityId [] s)
        (collectEntityIds (links.filter (fun link => link.ownership.isSome)))
        { cycles := [], visited := [], recursionStack := [] } = some st ∧
      detectCircularReferences links = st.cycles := by
  obtain ⟨cycles, hc⟩ := detectCircularReferencesFuel_complete links
  have hval : detectCircularReferences links = cycles := by
    simp [detectCircularReferences, hc]
  unfold detectCircularReferencesFuel at hc
  rw [Option.map_eq_some'] at hc
  obtain ⟨st, hst, hcycles⟩ := hc
  exact ⟨st, hst, by rw [hval, hcycles]⟩

/-- C12: every cycle that `detectCircularReferences` reports is a closed sequence
`[v0, v1, ..., vk]` with `k ≥ 1` and `vk = v0` in which `v0, ..., v(k-1)` are pairwise
distinct and every id is joined to the next by a link of the list with a
non-null ownership. -/
theorem reported_cycles_are_cycles (links : List (Link P)) :
    ∀ c ∈ detectCircularReferences links,
      ∃ (v0 : String) (rest : List String),
        c = (v0 :: rest) ++ [v0] ∧ (v0 :: rest).Nodup ∧
        List.Chain' (fun a b => ∃ l ∈ links, l.source = a ∧ l.target = b ∧ l.ownership ≠ none)
          c := by
  obtain ⟨st, hst, hval⟩ := detectCircularReferences_eq links
  rw [hval]
  have hinv := dfsRoots_invariant
    (fun s => (∀ x, x ∈ s.recursionStack ↔ x ∈ ([] : List String)) ∧
      (∀ c ∈ s.cycles, IsOwnershipCycle links c))
    _ _
    (by
      intro e _ s r hs hcall
      exact dfsFuel_invariant links _ e [] s r hcall hs.1 List.nodup_nil
        (List.chain'_singleton _) hs.2)
    _ st
    (by
      refine ⟨fun x => Iff.rfl, ?_⟩
      intro c hc
      cases hc)
    hst
  exact hinv.2

/-- Witness of C12: the cycle A, B, C, A reported for the links A→B, B→C, C→A. -/
theorem reported_cycles_are_cycles_witness :
    ["A", "B", "C", "A"] ∈ detectCircularReferences cyclicLinks ∧
    ∃ (v0 : String) (rest : List String),
      ["A", "B", "C", "A"] = (v0 :: rest) ++ [v0] ∧ (v0 :: rest).Nodup ∧
      List.Chain'
        (fun a b => ∃ l ∈ cyclicLinks, l.source = a ∧ l.target = b ∧ l.ownership ≠ none)
        ["A", "B", "C", "A"] :=
  ⟨by decide, reported_cycles_are_cycles cyclicLinks ["A", "B", "C", "A"] (by decide)⟩

/-! ## The cycle reported for a ring of links -/

theorem dfsChildren_singleton (call : String → DfsState → Option (Bool × DfsState))
    (c : String) (st : DfsState) (b : Bool) (s : DfsState) (h : call c st = some (b, s)) :
    dfsChildren call [c] st = some s := by
  unfold dfsChildren
  rw [h]
  cases b <;> rfl

theorem children_of_position (links : List (Link P)) :
    ∀ (pre : List String) (v : String) (post tpre : List String) (t : String)
      (tpost : List String),
      links.map (fun l => l.source) = pre ++ v :: post →
      links.map (fun l => l.target) = tpre ++ t :: tpost →
      pre.length = tpre.length → (pre ++ v :: post).Nodup →
      (links.filter (fun link => link.source == v)).map (fun link => link.target) = [t] := by
  induction links with
  | nil =>
    intro pre v post tpre t tpost hsrc
    simp at hsrc
  | cons l ls ih =>
    intro pre v post tpre t tpost hsrc htgt hlen hnodup
    cases pre with
    | nil =>
      cases tpre with
      | cons b tpre' => simp at hlen
      | nil =>
        simp only [List.map_cons, List.nil_append, List.cons.injEq] at hsrc htgt
        obtain ⟨hs, hss⟩ := hsrc
        have hv : v ∉ post := (List.nodup_cons.1 hnodup).1
        have hnone : ls.filter (fun link => link.source == v) = [] := by
          rw [List.filter_eq_nil_iff]
          intro l' hl' hsel
          apply hv
          rw [← hss]
          have : l'.source = v := by simpa using hsel
          rw [← this]
          exact List.mem_map_of_mem _ hl'
        rw [List.filter_cons, if_pos (by simpa using hs), hnone]
        simp [htgt.1]
    | cons a pre' =>
      cases tpre with
      | nil => simp at hlen
      | cons b tpre' =>
        simp only [List.map_cons, List.cons_append, List.cons.injEq] at hsrc htgt
        obtain ⟨hs, hss⟩ := hsrc
        have hav : a ≠ v := by
          intro hav
          have := (List.nodup_cons.1 hnodup).1
          apply this
          rw [hav]
          simp
        rw [List.filter_cons, if_neg (by simpa [hs] using hav)]
        exact ih pre' v post tpre' t tpost hss htgt.2 (by simpa using hlen)
          (List.nodup_cons.1 hnodup).2

theorem ring_targets_split (v0 : String) (rest pre : List String) (v : String)
    (post : List String) (h : v0 :: rest = pre ++ v :: post) :
    ∃ tpre, rest ++ [v0] = tpre ++ (post ++ [v0]) ∧ pre.length = tpre.length := by
  cases pre with
  | nil =>
    simp only [List.nil_append, List.cons.injEq] at h
    exact ⟨[], by rw [h.2]; rfl, rfl⟩
  | cons a pre' =>
    simp only [List.cons_append, List.cons.injEq] at h
    refine ⟨pre' ++ [v], ?_, by simp⟩
    rw [h.2]
    simp

/-- In a ring of links, the children of an id are the next id of the ring. -/
theorem children_of_ring (links : List (Link P)) (v0 : String) (rest : List String)
    (hsrc : links.map (fun l => l.source) = v0 :: rest)
    (htgt : links.map (fun l => l.target) = rest ++ [v0])
    (hnodup : (v0 :: rest).Nodup)
    (pre : List String) (v : String) (post : List String)
    (hsplit : v0 :: rest = pre ++ v :: post) (t : String) (tpost : List String)
    (hnext : post ++ [v0] = t :: tpost) :
    (links.filter (fun link => link.source == v)).map (fun link => link.target) = [t] := by
  obtain ⟨tpre, htpre, hlen⟩ := ring_targets_split v0 rest pre v post hsplit
  refine children_of_position links pre v post tpre t tpost (by rw [hsrc, hsplit]) ?_ hlen
    (by rw [← hsplit]; exact hnodup)
  rw [htgt, htpre, hnext]

/-- The call of `dfs` on an id of a ring, with the ids before it on the path:
it pushes the ring as the only cycle and visits the whole ring. -/
theorem dfsFuel_ring (links : List (Link P)) (v0 : String) (rest : List String)
    (hsrc : links.map (fun l => l.source) = v0 :: rest)
    (htgt : links.map (fun l => l.target) = rest ++ [v0])
    (hnodup : (v0 :: rest).Nodup) :
    ∀ (post pre : List String) (v : String), v0 :: rest = pre ++ v :: post →
      ∀ (fuel : Nat) (st : DfsState), post.length + 2 ≤ fuel → st.cycles = [] →
      (∀ x, x ∈ st.visited ↔ x ∈ pre) → (∀ x, x ∈ st.recursionStack ↔ x ∈ pre) →
      ∃ st', dfsFuel links fuel v pre st = some (false, st') ∧
        st'.cycles = [(v0 :: rest) ++ [v0]] ∧
        (∀ x, x ∈ st'.visited ↔ x ∈ v0 :: rest) ∧
        (∀ x, x ∈ st'.recursionStack ↔ x ∈ pre) := by
  intro post
  induction post with
  | nil =>
    intro pre v hsplit fuel st hfuel hcycles hvis hstack
    obtain ⟨f, rfl⟩ : ∃ f, fuel = f + 1 := ⟨fuel - 1, by omega⟩
    obtain ⟨f', rfl⟩ : ∃ f', f = f' + 1 := ⟨f - 1, by simp at hfuel; omega⟩
    have hvpre : v ∉ pre := by
      have h := hnodup
      rw [hsplit] at h
      have := (List.nodup_append.1 h).2.2
      intro hv
      exact this hv (List.mem_cons_self _ _)
    have hchildren := children_of_ring links v0 rest hsrc htgt hnodup pre v [] hsplit v0 []
      rfl
    have hv0 : v0 ∈ pre ++ [v] := by
      rw [← hsplit]
      exact List.mem_cons_self _ _
    have hinner : dfsFuel links (f' + 1) v0 (pre ++ [v])
        { st with visited := v :: st.visited, recursionStack := v :: st.recursionStack } =
        some (true,
          { cycles := [(v0 :: rest) ++ [v0]], visited := v :: st.visited,
            recursionStack := v :: st.recursionStack }) := by
      rw [dfsFuel_succ, if_pos]
      · have hslice : sliceFromIndexOf (pre ++ [v]) v0 = v0 :: rest := by
          rw [← hsplit]
          unfold sliceFromIndexOf
          rw [if_pos (List.mem_cons_self _ _), List.indexOf_cons_self]
          rfl
        rw [hslice, hcycles]
        rfl
      · show v0 ∈ v :: st.recursionStack
        rcases List.mem_append.1 hv0 with h1 | h1
        · exact List.mem_cons_of_mem _ ((hstack v0).2 h1)
        · rw [List.mem_singleton] at h1
          rw [h1]
          exact List.mem_cons_self _ _
    refine ⟨DfsState.mk [(v0 :: rest) ++ [v0]] (v :: st.visited)
        ((v :: st.recursionStack).filter (fun y => y != v)), ?_, ?_, ?_, ?_⟩
    · rw [dfsFuel_succ, if_neg (fun h => hvpre ((hstack v).1 h)),
        if_neg (fun h => hvpre ((hvis v).1 h)), hchildren,
        dfsChildren_singleton _ v0 _ true _ hinner]
      rfl
    · rfl
    · intro x
      show x ∈ v :: st.visited ↔ x ∈ v0 :: rest
      rw [hsplit, List.mem_cons, hvis x, List.mem_append, List.mem_singleton]
      tauto
    · intro x
      show x ∈ (v :: st.recursionStack).filter (fun y => y != v) ↔ x ∈ pre
      simp only [List.mem_filter, List.mem_cons, hstack x, bne_iff_ne, ne_eq]
      constructor
      · rintro ⟨h1 | h1, h2⟩
        · exact absurd h1 h2
        · exact h1
      · intro hx
        exact ⟨Or.inr hx, fun hxv => hvpre (hxv ▸ hx)⟩
  | cons w post' ih =>
    intro pre v hsplit fuel st hfuel hcycles hvis hstack
    obtain ⟨f, rfl⟩ : ∃ f, fuel = f + 1 := ⟨fuel - 1, by omega⟩
    have hvpre : v ∉ pre := by
      have h := hnodup
      rw [hsplit] at h
      have := (List.nodup_append.1 h).2.2
      intro hv
      exact this hv (List.mem_cons_self _ _)
    have hchildren := children_of_ring links v0 rest hsrc htgt hnodup pre v (w :: post') hsplit
      w (post' ++ [v0]) rfl
    obtain ⟨st2, hcall, hc2, hv2, hs2⟩ := ih (pre ++ [v]) w (by rw [hsplit]; simp) f
      { st with visited := v :: st.visited, recursionStack := v :: st.recursionStack }
      (by simp at hfuel ⊢; omega) hcycles
      (by
        intro x
        show x ∈ v :: st.visited ↔ x ∈ pre ++ [v]
        rw [List.mem_cons, hvis x, List.mem_append, List.mem_singleton]
        tauto)
      (by
        intro x
        show x ∈ v :: st.recursionStack ↔ x ∈ pre ++ [v]
        rw [List.mem_cons, hstack x, List.mem_append, List.mem_singleton]
        tauto)
    refine ⟨DfsState.mk st2.cycles st2.visited
        (st2.recursionStack.filter (fun y => y != v)), ?_, hc2, hv2, ?_⟩
    · rw [dfsFuel_succ, if_neg (fun h => hvpre ((hstack v).1 h)),
        if_neg (fun h => hvpre ((hvis v).1 h)), hchildren,
        dfsChildren_singleton _ w _ false _ hcall]
      rfl
    · intro x
      show x ∈ st2.recursionStack.filter (fun y => y != v) ↔ x ∈ pre
      simp only [List.mem_filter, hs2 x, List.mem_append, List.mem_singleton, bne_iff_ne, ne_eq]
      constructor
      · rintro ⟨h1 | h1, h2⟩
        · exact h1
        · exact absurd h1 h2
      · intro hx
        exact ⟨Or.inl hx, fun hxv => hvpre (hxv ▸ hx)⟩

theorem setAdd_prefix (s : List String) (x : String) : ∃ ext, setAdd s x = s ++ ext := by
  unfold setAdd
  by_cases hx : x ∈ s
  · exact ⟨[], by rw [if_pos hx, List.append_nil]⟩
  · exact ⟨[x], by rw [if_neg hx]⟩

theorem foldl_setAdd_prefix (ownershipLinks : List (Link P)) :
    ∀ (init : List String), ∃ ext,
      ownershipLinks.foldl (fun ids link => setAdd (setAdd ids link.source) link.target) init
        = init ++ ext := by
  induction ownershipLinks with
  | nil => intro init; exact ⟨[], by simp⟩
  | cons l ls ih =>
    intro init
    obtain ⟨e1, h1⟩ := setAdd_prefix init l.source
    obtain ⟨e2, h2⟩ := setAdd_prefix (setAdd init l.source) l.target
    obtain ⟨e3, h3⟩ := ih (setAdd (setAdd init l.source) l.target)
    refine ⟨e1 ++ e2 ++ e3, ?_⟩
    rw [List.foldl_cons, h3, h2, h1]
    simp

theorem dfsRoots_of_visited (call : String → DfsState → Option (Bool × DfsState)) :
    ∀ (entityIds : List String) (st : DfsState), (∀ x ∈ entityIds, x ∈ st.visited) →
      dfsRoots call entityIds st = some st := by
  intro entityIds
  induction entityIds with
  | nil => intro st _; rfl
  | cons entityId rest ih =>
    intro st h
    unfold dfsRoots
    rw [if_pos (h entityId (List.mem_cons_self _ _))]
    exact ih st (fun x hx => h x (List.mem_cons_of_mem _ hx))

/-- C13: when the link list is the ring `v0→v1, v1→v2, ..., v(n-1)→v0`, in this
order, of `n ≥ 1` pairwise distinct ids with non-null percentages,
`detectCircularReferences` returns the one-element list `[[v0, v1, ..., v(n-1), v0]]`. -/
theorem ring_reports_one_cycle (v0 : String) (rest : List String) (links : List (Link P))
    (hnodup : (v0 :: rest).Nodup)
    (hsrc : links.map (fun l => l.source) = v0 :: rest)
    (htgt : links.map (fun l => l.target) = rest ++ [v0])
    (hown : ∀ l ∈ links, l.ownership ≠ none) :
    detectCircularReferences links = [(v0 :: rest) ++ [v0]] := by
  have hfilter : links.filter (fun link => link.ownership.isSome) = links := by
    rw [List.filter_eq_self]
    intro l hl
    exact Option.isSome_iff_ne_none.2 (hown l hl)
  obtain ⟨st, hst, hval⟩ := detectCircularReferences_eq links
  rw [hfilter] at hst
  have hlen : links.length = rest.length + 1 := by
    have := congrArg List.length hsrc
    simpa using this
  obtain ⟨others, hids⟩ : ∃ others, collectEntityIds links = v0 :: others := by
    cases hl : links with
    | nil => rw [hl] at hsrc; simp at hsrc
    | cons l0 ls =>
      have hs0 : l0.source = v0 := by
        rw [hl] at hsrc
        simp only [List.map_cons, List.cons.injEq] at hsrc
        exact hsrc.1
      obtain ⟨e1, h1⟩ := setAdd_prefix (setAdd [] l0.source) l0.target
      obtain ⟨e2, h2⟩ := foldl_setAdd_prefix ls (setAdd (setAdd [] l0.source) l0.target)
      refine ⟨e1 ++ e2, ?_⟩
      unfold collectEntityIds
      rw [List.foldl_cons, h2, h1, hs0]
      simp [setAdd]
  have hmem : ∀ x ∈ collectEntityIds links, x ∈ v0 :: rest := by
    intro x hx
    rcases mem_foldl_setAdd links [] x hx with h | ⟨l, hl, h⟩
    · cases h
    · rcases h with rfl | rfl
      · rw [← hsrc]
        exact List.mem_map_of_mem _ hl
      · have : l.target ∈ rest ++ [v0] := by
          rw [← htgt]
          exact List.mem_map_of_mem _ hl
        rcases List.mem_append.1 this with h1 | h1
        · exact List.mem_cons_of_mem _ h1
        · rw [List.mem_singleton] at h1
          rw [h1]
          exact List.mem_cons_self _ _
  obtain ⟨st1, hcall, hcycles, hvis, -⟩ := dfsFuel_ring links v0 rest hsrc htgt hnodup rest []
    v0 rfl (2 * links.length + 1) { cycles := [], visited := [], recursionStack := [] }
    (by omega) rfl (fun x => Iff.rfl) (fun x => Iff.rfl)
  rw [hids] at hst hmem
  unfold dfsRoots at hst
  rw [if_neg (List.not_mem_nil _)] at hst
  simp only [hcall] at hst
  rw [dfsRoots_of_visited _ others st1
    (fun x hx => (hvis x).2 (hmem x (List.mem_cons_of_mem _ hx)))] at hst
  rw [hval, ← Option.some.inj hst, hcycles]

/-- Witness of C13: the links A→B:60, B→C:70, C→A:10 give `[[A, B, C, A]]`. -/
theorem ring_reports_one_cycle_witness :
    (["A", "B", "C"] : List String).Nodup ∧
    cyclicLinks.map (fun l => l.source) = ["A", "B", "C"] ∧
    cyclicLinks.map (fun l => l.target) = ["B", "C"] ++ ["A"] ∧
    (∀ l ∈ cyclicLinks, l.ownership ≠ none) ∧
    detectCircularReferences cyclicLinks = [["A", "B", "C", "A"]] :=
  ⟨by decide, by decide, by decide, by decide,
    ring_reports_one_cycle "A" ["B", "C"] cyclicLinks (by decide) (by decide) (by decide)
      (by decide)⟩

/-! ## Properties of `getFilteredData` -/

theorem includes_empty (s : String) : includes s "" = true := by
  unfold includes
  exact decide_eq_true List.nil_infix

theorem getFilteredData_nodes {T : Type} (toLowerCase : String → String)
    (atLeast : Option P → T → Bool) (data : OrgChartData P) (showing : Bool)
    (focusId : Option String) (criteria : FilterCriteria T) :
    (getFilteredData toLowerCase atLeast data showing focusId criteria).nodes =
      (filteredEntities toLowerCase data showing focusId
        (toLowerCase criteria.entitySearch) criteria.jurisdictionFilter).map nodeOfEntity ++
      (if criteria.showPersons then
        (filteredPersons toLowerCase data (toLowerCase criteria.entitySearch)).map nodeOfPerson
       else []) := by
  unfold getFilteredData
  cases criteria.showPersons <;> simp

theorem getFilteredData_links {T : Type} (toLowerCase : String → String)
    (atLeast : Option P → T → Bool) (data : OrgChartData P) (showing : Bool)
    (focusId : Option String) (criteria : FilterCriteria T) :
    (getFilteredData toLowerCase atLeast data showing focusId criteria).links =
      ownershipLinks (filteredOwnership atLeast data criteria.ownershipThreshold)
        (getFilteredData toLowerCase atLeast data showing focusId criteria).nodes ++
      (if criteria.showPersons then
        personLinks (getFilteredData toLowerCase atLeast data showing focusId criteria).nodes
       else []) := by
  unfold getFilteredData
  cases criteria.showPersons <;> simp

theorem filter_entity_map_nodeOfEntity (es : List Entity) :
    (es.map nodeOfEntity).filter (fun n => n.type == NodeType.entity) = es.map nodeOfEntity := by
  rw [List.filter_eq_self]
  intro n hn
  obtain ⟨e, -, rfl⟩ := List.mem_map.1 hn
  rfl

theorem filter_entity_map_nodeOfPerson (ps : List Person) :
    (ps.map nodeOfPerson).filter (fun n => n.type == NodeType.entity) = [] := by
  rw [List.filter_eq_nil_iff]
  intro n hn
  obtain ⟨p, -, rfl⟩ := List.mem_map.1 hn
  simp [nodeOfPerson]

theorem filter_person_map_nodeOfEntity (es : List Entity) :
    (es.map nodeOfEntity).filter (fun n => n.type == NodeType.person) = [] := by
  rw [List.filter_eq_nil_iff]
  intro n hn
  obtain ⟨e, -, rfl⟩ := List.mem_map.1 hn
  simp [nodeOfEntity]

theorem filter_person_map_nodeOfPerson (ps : List Person) :
    (ps.map nodeOfPerson).filter (fun n => n.type == NodeType.person) = ps.map nodeOfPerson := by
  rw [List.filter_eq_self]
  intro n hn
  obtain ⟨p, -, rfl⟩ := List.mem_map.1 hn
  rfl

theorem getFilteredData_entityNodes {T : Type} (toLowerCase : String → String)
    (atLeast : Option P → T → Bool) (data : OrgChartData P) (showing : Bool)
    (focusId : Option String) (criteria : FilterCriteria T) :
    (getFilteredData toLowerCase atLeast data showing focusId criteria).nodes.filter
        (fun n => n.type == NodeType.entity) =
      (filteredEntities toLowerCase data showing focusId
        (toLowerCase criteria.entitySearch) criteria.jurisdictionFilter).map nodeOfEntity := by
  rw [getFilteredData_nodes, List.filter_append, filter_entity_map_nodeOfEntity]
  cases criteria.showPersons
  · simp
  · simp only [if_true, filter_entity_map_nodeOfPerson, List.append_nil]

theorem getFilteredData_personNodes {T : Type} (toLowerCase : String → String)
    (atLeast : Option P → T → Bool) (data : OrgChartData P) (showing : Bool)
    (focusId : Option String) (criteria : FilterCriteria T) :
    (getFilteredData toLowerCase atLeast data showing focusId criteria).nodes.filter
        (fun n => n.type == NodeType.person) =
      if criteria.showPersons then
        (filteredPersons toLowerCase data (toLowerCase criteria.entitySearch)).map nodeOfPerson
      else [] := by
  rw [getFilteredData_nodes, List.filter_append, filter_person_map_nodeOfEntity]
  cases criteria.showPersons
  · simp
  · simp only [if_true, filter_person_map_nodeOfPerson, List.nil_append]

theorem filteredEntities_without_focus (toLowerCase : String → String)
    (data : OrgChartData P) (showing : Bool) (focusId : Option String)
    (searchTerm jurisdictionFilter : String)
    (hfocus : (showing && truthy focusId) = false) :
    filteredEntities toLowerCase data showing focusId searchTerm jurisdictionFilter =
      data.entities.filter (fun entity =>
        if searchTerm != "" && !includes (toLowerCase entity.ENTITY_NAME) searchTerm &&
            !includes (toLowerCase entity.ENTITY_ID) searchTerm then false
        else if jurisdictionFilter != "" &&
            entity.ENTITY_TAX_JURISDICTION != some jurisdictionFilter then false
        else true) := by
  unfold filteredEntities
  rw [hfocus]

theorem filteredEntities_with_focus (toLowerCase : String → String)
    (data : OrgChartData P) (u : String) (searchTerm jurisdictionFilter : String)
    (hu : u ≠ "") :
    filteredEntities toLowerCase data true (some u) searchTerm jurisdictionFilter =
      if searchTerm != "" then
        (data.entities.filter (fun entity =>
          if entity.ENTITY_ID == u then true
          else if !data.ownership.any (fun rel => rel.CHILD_ID == entity.ENTITY_ID) then true
          else if (getFocusedEntityChain data u).contains entity.ENTITY_ID then
            if jurisdictionFilter != "" &&
                entity.ENTITY_TAX_JURISDICTION != some jurisdictionFilter then false
            else true
          else false)).filter (fun entity =>
            includes (toLowerCase entity.ENTITY_NAME) searchTerm ||
            includes (toLowerCase entity.ENTITY_ID) searchTerm)
      else
        data.entities.filter (fun entity =>
          if entity.ENTITY_ID == u then true
          else if !data.ownership.any (fun rel => rel.CHILD_ID == entity.ENTITY_ID) then true
          else if (getFocusedEntityChain data u).contains entity.ENTITY_ID then
            if jurisdictionFilter != "" &&
                entity.ENTITY_TAX_JURISDICTION != some jurisdictionFilter then false
            else true
          else false) := by
  have ht : (true && truthy (some u)) = true := by
    simp [truthy, hu]
  unfold filteredEntities
  rw [ht]

/-- The search rule of the specification for a record with the given name and id:
the search text is empty, or the lower-cased search text is a substring of the
lower-cased name or of the lower-cased id. -/
theorem search_rule_iff (toLowerCase : String → String) (hlower : toLowerCase "" = "")
    (entitySearch name id : String) :
    (if toLowerCase entitySearch != "" &&
        !includes (toLowerCase name) (toLowerCase entitySearch) &&
        !includes (toLowerCase id) (toLowerCase entitySearch) then false else true) = true ↔
      (entitySearch = "" ∨ includes (toLowerCase name) (toLowerCase entitySearch) = true ∨
        includes (toLowerCase id) (toLowerCase entitySearch) = true) := by
  by_cases hs : toLowerCase entitySearch = ""
  · rw [hs]
    simp [includes_empty]
  · have hne : entitySearch ≠ "" := by
      intro h
      rw [h] at hs
      exact hs hlower
    cases h1 : includes (toLowerCase name) (toLowerCase entitySearch) <;>
      cases h2 : includes (toLowerCase id) (toLowerCase entitySearch) <;>
      simp [hs, hne]

/-- C21: when no focus is active, the entity nodes of the output of
`getFilteredData` are, in dataset order, the nodes (id, name, jurisdiction) of
exactly the entities for which the search text is empty or the lower-cased
search text is a substring of the lower-cased name or id, and for which no
jurisdiction filter is set or the jurisdiction equals the filter. -/
theorem entity_nodes_without_focus {T : Type} (toLowerCase : String → String)
    (atLeast : Option P → T → Bool) (data : OrgChartData P) (showing : Bool)
    (focusId : Option String) (criteria : FilterCriteria T)
    (hlower : toLowerCase "" = "")
    (hfocus : (showing && truthy focusId) = false) :
    (getFilteredData toLowerCase atLeast data showing focusId criteria).nodes.filter
        (fun n => n.type == NodeType.entity) =
      (data.entities.filter (fun e =>
        decide ((criteria.entitySearch = "" ∨
            includes (toLowerCase e.ENTITY_NAME) (toLowerCase criteria.entitySearch) = true ∨
            includes (toLowerCase e.ENTITY_ID) (toLowerCase criteria.entitySearch) = true) ∧
          (criteria.jurisdictionFilter = "" ∨
            e.ENTITY_TAX_JURISDICTION = some criteria.jurisdictionFilter)))).map
        (fun e => { id := e.ENTITY_ID, name := e.ENTITY_NAME, type := NodeType.entity,
                    jurisdiction := e.ENTITY_TAX_JURISDICTION, role := none,
                    entityId := none }) := by
  rw [getFilteredData_entityNodes, filteredEntities_without_focus _ _ _ _ _ _ hfocus]
  congr 1
  apply List.filter_congr
  intro e _
  have hsearch := search_rule_iff toLowerCase hlower criteria.entitySearch e.ENTITY_NAME
    e.ENTITY_ID
  by_cases hrule : (criteria.entitySearch = "" ∨
      includes (toLowerCase e.ENTITY_NAME) (toLowerCase criteria.entitySearch) = true ∨
      includes (toLowerCase e.ENTITY_ID) (toLowerCase criteria.entitySearch) = true)
  · have h1 := hsearch.2 hrule
    by_cases hj : (criteria.jurisdictionFilter = "" ∨
        e.ENTITY_TAX_JURISDICTION = some criteria.jurisdictionFilter)
    · rw [decide_eq_true (And.intro hrule hj)]
      rcases hj with hj | hj
      · simp only [hj] at h1 ⊢
        revert h1
        split <;> simp
      · simp only [hj] at h1 ⊢
        revert h1
        split <;> simp
    · rw [decide_eq_false (fun h => hj h.2)]
      push_neg at hj
      revert h1
      split
      · simp
      · intro _
        simp [hj.1, hj.2]
  · rw [decide_eq_false (fun h => hrule h.1)]
    have h1 : ¬ ((if toLowerCase criteria.entitySearch != "" &&
        !includes (toLowerCase e.ENTITY_NAME) (toLowerCase criteria.entitySearch) &&
        !includes (toLowerCase e.ENTITY_ID) (toLowerCase criteria.entitySearch) then false
        else true) = true) := fun h => hrule (hsearch.1 h)
    revert h1
    split
    · simp
    · simp

/-- Witness of C21: in the dataset of the holding E1, the search text ALPHA and
the jurisdiction NL leave the entity node of E1 only. -/
theorem entity_nodes_without_focus_witness :
    lowerAscii "" = "" ∧ (false && truthy none) = false ∧
    (getFilteredData lowerAscii natAtLeast groupData false none alphaCriteria).nodes.filter
        (fun n => n.type == NodeType.entity) =
      [{ id := "E1", name := "Alpha Holding", type := NodeType.entity,
         jurisdiction := some "NL", role := none, entityId := none }] :=
  ⟨by decide, rfl,
    (entity_nodes_without_focus lowerAscii natAtLeast groupData false none alphaCriteria
      (by decide) rfl).trans (by decide)⟩

/-- C22: the links of the output of `getFilteredData` are, in dataset order, the
links (same source, target and percentage) of exactly the ownership relations
that pass the comparison `OWNERSHIP_PERC >= ownershipThreshold` and whose parent
id and child id are both ids of output nodes, followed by the attachment links of
the persons when persons are shown; so no relation that fails the comparison
yields a link. -/
theorem ownership_links_pass_threshold {T : Type} (toLowerCase : String → String)
    (atLeast : Option P → T → Bool) (data : OrgChartData P) (showing : Bool)
    (focusId : Option String) (criteria : FilterCriteria T) :
    (getFilteredData toLowerCase atLeast data showing focusId criteria).links =
      (data.ownership.filter (fun rel =>
        atLeast rel.OWNERSHIP_PERC criteria.ownershipThreshold &&
        ((getFilteredData toLowerCase atLeast data showing focusId criteria).nodes.any
          (fun n => n.id == rel.PARENT_ID) &&
         (getFilteredData toLowerCase atLeast data showing focusId criteria).nodes.any
          (fun n => n.id == rel.CHILD_ID)))).map
        (fun rel => { source := rel.PARENT_ID, target := rel.CHILD_ID,
                      ownership := rel.OWNERSHIP_PERC }) ++
      (if criteria.showPersons then
        personLinks (getFilteredData toLowerCase atLeast data showing focusId criteria).nodes
       else []) := by
  rw [getFilteredData_links]
  congr 1
  unfold ownershipLinks filteredOwnership
  rw [List.filter_filter]
  congr 1
  apply List.filter_congr
  intro rel _
  exact Bool.and_comm _ _

/-- Witness of C22: with the threshold 50 the relations A→B:60 and A→C:40 leave
the link A→B:60 only, and the tree is A with the single child B. -/
theorem ownership_links_pass_threshold_witness :
    (getFilteredData lowerAscii natAtLeast scenarioData false none (searchCriteria "" 50)).links =
      [own "A" "B" 60] ∧
    (buildHierarchy scenarioData none
      (getFilteredData lowerAscii natAtLeast scenarioData false none (searchCriteria "" 50)).nodes
      (getFilteredData lowerAscii natAtLeast scenarioData false none
        (searchCriteria "" 50)).links).forest =
      [HierarchyNode.mk (entityNode "A")
        [HierarchyNode.mk (entityNode "B") [] (some (some 60))] none] :=
  ⟨(ownership_links_pass_threshold lowerAscii natAtLeast scenarioData false none
      (searchCriteria "" 50)).trans (by decide), rfl⟩

theorem mem_ownershipLinks (rels : List (OwnershipRelation P)) (nodes : List Node)
    (l : Link P) :
    l ∈ ownershipLinks rels nodes ↔
      ∃ rel ∈ rels, (∃ n ∈ nodes, n.id = rel.PARENT_ID) ∧ (∃ n ∈ nodes, n.id = rel.CHILD_ID) ∧
        l = linkOfRelation rel := by
  unfold ownershipLinks
  simp only [List.mem_map, List.mem_filter, Bool.and_eq_true, List.any_eq_true, beq_iff_eq]
  constructor
  · rintro ⟨rel, ⟨hrel, hp, hc⟩, rfl⟩
    exact ⟨rel, hrel, hp, hc, rfl⟩
  · rintro ⟨rel, hrel, hp, hc, rfl⟩
    exact ⟨rel, ⟨hrel, hp, hc⟩, rfl⟩

/-- The attachment links of `personLinks`, person node by person node. -/
theorem personLinks_eq_filterMap (all nodes : List Node) :
    (((nodes.filter (fun n => n.type == NodeType.person && truthy n.entityId)).filter
      (fun person => all.any (fun entity => some entity.id == person.entityId))).filterMap
      (fun person => person.entityId.map (fun target =>
        ({ source := person.id, target := target, ownership := none } : Link P)))) =
    (nodes.filter (fun n => n.type == NodeType.person)).filterMap (fun p =>
      match p.entityId with
      | some e =>
        if e != "" && all.any (fun n => n.id == e) then
          some { source := p.id, target := e, ownership := none }
        else none
      | none => none) := by
  rw [List.filter_filter, List.filterMap_filter, List.filterMap_filter]
  apply List.filterMap_congr
  intro n _
  cases htype : n.type
  · simp
  · cases hid : n.entityId with
    | none => simp [truthy]
    | some e =>
      by_cases he : e = ""
      · simp [truthy, he]
      · cases hany : all.any (fun entity => entity.id == e)
        · have hany2 : all.any (fun entity => some entity.id == some e) = false := by
            simpa using hany
          simp [truthy, he, hany, hany2]
        · have hany2 : all.any (fun entity => some entity.id == some e) = true := by
            simpa using hany
          simp [truthy, he, hany, hany2]

theorem mem_personLinks (nodes : List Node) (l : Link P) :
    l ∈ (personLinks nodes : List (Link P)) ↔
      ∃ p ∈ nodes, p.type = NodeType.person ∧ ∃ e, p.entityId = some e ∧ e ≠ "" ∧
        (∃ n ∈ nodes, n.id = e) ∧ l = { source := p.id, target := e, ownership := none } := by
  unfold personLinks
  rw [personLinks_eq_filterMap, List.mem_filterMap]
  constructor
  · rintro ⟨p, hp, hl⟩
    rw [List.mem_filter] at hp
    cases he : p.entityId with
    | none => simp [he] at hl
    | some e =>
      simp only [he] at hl
      split at hl
      · rename_i hc
        simp only [Bool.and_eq_true, bne_iff_ne, ne_eq, List.any_eq_true, beq_iff_eq] at hc
        exact ⟨p, hp.1, by simpa using hp.2, e, he, hc.1, hc.2, (Option.some.inj hl).symm⟩
      · cases hl
  · rintro ⟨p, hp, htype, e, he, hne, ⟨n, hn, hid⟩, rfl⟩
    refine ⟨p, List.mem_filter.2 ⟨hp, by simp [htype]⟩, ?_⟩
    simp only [he]
    rw [if_pos]
    simp only [Bool.and_eq_true, bne_iff_ne, ne_eq, List.any_eq_true, beq_iff_eq]
    exact ⟨hne, n, hn, hid⟩

/-- C23: every link of the output of `getFilteredData`, ownership link or
attachment link of a person, has its source id and its target id among the ids
of the output nodes. -/
theorem links_join_output_nodes {T : Type} (toLowerCase : String → String)
    (atLeast : Option P → T → Bool) (data : OrgChartData P) (showing : Bool)
    (focusId : Option String) (criteria : FilterCriteria T) :
    ∀ l ∈ (getFilteredData toLowerCase atLeast data showing focusId criteria).links,
      (∃ n ∈ (getFilteredData toLowerCase atLeast data showing focusId criteria).nodes,
        n.id = l.source) ∧
      (∃ n ∈ (getFilteredData toLowerCase atLeast data showing focusId criteria).nodes,
        n.id = l.target) := by
  intro l hl
  rw [getFilteredData_links, List.mem_append] at hl
  rcases hl with hl | hl
  · obtain ⟨rel, -, hp, hc, rfl⟩ := (mem_ownershipLinks _ _ _).1 hl
    exact ⟨hp, hc⟩
  · cases hshow : criteria.showPersons
    · rw [hshow] at hl
      simp at hl
    · rw [hshow, if_pos rfl] at hl
      obtain ⟨p, hp, -, e, -, -, hn, rfl⟩ := (mem_personLinks _ _).1 hl
      exact ⟨⟨p, hp, rfl⟩, hn⟩

/-- Witness of C23: in the dataset of the holding E1 with persons shown, the
attachment link of Ann runs from the person node P1 to the entity node E1, which
are both output nodes. -/
theorem links_join_output_nodes_witness :
    ({ source := "P1", target := "E1", ownership := none } : Link Nat) ∈
      (getFilteredData lowerAscii natAtLeast groupData false none personCriteria).links ∧
    ((∃ n ∈ (getFilteredData lowerAscii natAtLeast groupData false none personCriteria).nodes,
        n.id = "P1") ∧
      (∃ n ∈ (getFilteredData lowerAscii natAtLeast groupData false none personCriteria).nodes,
        n.id = "E1")) :=
  ⟨by decide,
    links_join_output_nodes lowerAscii natAtLeast groupData false none personCriteria
      { source := "P1", target := "E1", ownership := none } (by decide)⟩

/-- C24, refuted as stated: with the entities A, B, C, the relations A→B:60 and
A→C:40 and the focus on B, the search text c leaves no node at all, neither the
focused entity B nor the true root A; and with the relations A→B:60 and B→R
(`null` percentage) and the focus on A, the true root R is not in the output
although no search text and no jurisdiction is set. -/
theorem focus_search_drops_focus_and_root :
    hasNoIncomingOwnership scenarioData ⟨"A", "A", none⟩ = true ∧
    (getFilteredData lowerAscii natAtLeast scenarioData true (some "B")
      (searchCriteria "c" 0)).nodes = [] ∧
    hasNoIncomingOwnership nullPercData ⟨"R", "R", none⟩ = true ∧
    (getFilteredData lowerAscii natAtLeast nullPercData true (some "A")
      (searchCriteria "" 0)).nodes = [entityNode "A", entityNode "B"] := by
  decide

/-- C24, amended: when a focus is active, for every jurisdiction filter and every
threshold the entity nodes of the output of `getFilteredData` include the node of
the focused entity and the node of every entity that is the child of no
ownership relation at all, provided the search text is empty or its lower-cased
form is a substring of the lower-cased name or id of that entity. -/
theorem focus_keeps_focus_and_roots {T : Type} (toLowerCase : String → String)
    (atLeast : Option P → T → Bool) (data : OrgChartData P) (u : String)
    (criteria : FilterCriteria T) (e : Entity)
    (hlower : toLowerCase "" = "") (hu : u ≠ "") (he : e ∈ data.entities)
    (hkeep : e.ENTITY_ID = u ∨ ∀ rel ∈ data.ownership, rel.CHILD_ID ≠ e.ENTITY_ID)
    (hsearch : criteria.entitySearch = "" ∨
      includes (toLowerCase e.ENTITY_NAME) (toLowerCase criteria.entitySearch) = true ∨
      includes (toLowerCase e.ENTITY_ID) (toLowerCase criteria.entitySearch) = true) :
    nodeOfEntity e ∈
      (getFilteredData toLowerCase atLeast data true (some u) criteria).nodes.filter
        (fun n => n.type == NodeType.entity) := by
  rw [getFilteredData_entityNodes, filteredEntities_with_focus _ _ _ _ _ hu]
  apply List.mem_map_of_mem
  have hfocus : e ∈ data.entities.filter (fun entity =>
      if entity.ENTITY_ID == u then true
      else if !data.ownership.any (fun rel => rel.CHILD_ID == entity.ENTITY_ID) then true
      else if (getFocusedEntityChain data u).contains entity.ENTITY_ID then
        if criteria.jurisdictionFilter != "" &&
            entity.ENTITY_TAX_JURISDICTION != some criteria.jurisdictionFilter then false
        else true
      else false) := by
    rw [List.mem_filter]
    refine ⟨he, ?_⟩
    rcases hkeep with hk | hk
    · rw [if_pos (by simpa using hk)]
    · have hany : data.ownership.any (fun rel => rel.CHILD_ID == e.ENTITY_ID) = false := by
        rw [List.any_eq_false]
        intro rel hrel
        simpa using hk rel hrel
      rw [hany]
      split <;> rfl
  by_cases hs : toLowerCase criteria.entitySearch = ""
  · rw [if_neg (by simp [hs])]
    exact hfocus
  · rw [if_pos (by simpa using hs)]
    rw [List.mem_filter]
    refine ⟨hfocus, ?_⟩
    rcases hsearch with h | h | h
    · rw [h] at hs
      exact absurd hlower hs
    · rw [h]; rfl
    · rw [h]; simp

/-- Witness of C24, amended: with the focus on B and the search text a, the
output keeps the node of A, which no relation owns and whose name holds the
search text. -/
theorem focus_keeps_focus_and_roots_witness :
    nodeOfEntity ⟨"A", "A", none⟩ ∈
      (getFilteredData lowerAscii natAtLeast scenarioData true (some "B")
        (searchCriteria "a" 0)).nodes.filter (fun n => n.type == NodeType.entity) :=
  focus_keeps_focus_and_roots lowerAscii natAtLeast scenarioData "B" (searchCriteria "a" 0)
    ⟨"A", "A", none⟩ (by decide) (by decide) (by decide) (Or.inr (by decide))
    (Or.inr (Or.inl (by decide)))

/-- C25: when `showPersons` is not set, the output of `getFilteredData` holds no
person node and its links are the ownership links only; when it is set, the
nodes are the entity nodes followed by the nodes of exactly the persons that
pass the search rule on name or id, in dataset order, and the links are the
ownership links followed by one attachment link (from the person id to the
entity id, with a `null` percentage) for every person node of the output whose
entity id is a non-empty string and the id of an output node. -/
theorem persons_follow_showPersons {T : Type} (toLowerCase : String → String)
    (atLeast : Option P → T → Bool) (data : OrgChartData P) (showing : Bool)
    (focusId : Option String) (criteria : FilterCriteria T)
    (hlower : toLowerCase "" = "") :
    (criteria.showPersons = false →
      (∀ n ∈ (getFilteredData toLowerCase atLeast data showing focusId criteria).nodes,
        n.type ≠ NodeType.person) ∧
      (getFilteredData toLowerCase atLeast data showing focusId criteria).links =
        ownershipLinks (filteredOwnership atLeast data criteria.ownershipThreshold)
          (getFilteredData toLowerCase atLeast data showing focusId criteria).nodes) ∧
    (criteria.showPersons = true →
      (getFilteredData toLowerCase atLeast data showing focusId criteria).nodes =
        (getFilteredData toLowerCase atLeast data showing focusId criteria).nodes.filter
          (fun n => n.type == NodeType.entity) ++
        (data.persons.filter (fun p =>
          decide (criteria.entitySearch = "" ∨
            includes (toLowerCase p.PERSON_NAME) (toLowerCase criteria.entitySearch) = true ∨
            includes (toLowerCase p.PERSON_ID) (toLowerCase criteria.entitySearch) = true))).map
          (fun p => { id := p.PERSON_ID, name := p.PERSON_NAME, type := NodeType.person,
                      jurisdiction := none, role := p.PERSON_ROLE,
                      entityId := p.ENTITY_ID }) ∧
      (getFilteredData toLowerCase atLeast data showing focusId criteria).links =
        ownershipLinks (filteredOwnership atLeast data criteria.ownershipThreshold)
          (getFilteredData toLowerCase atLeast data showing focusId criteria).nodes ++
        ((getFilteredData toLowerCase atLeast data showing focusId criteria).nodes.filter
          (fun n => n.type == NodeType.person)).filterMap (fun p =>
            match p.entityId with
            | some e =>
              if e != "" &&
                  (getFilteredData toLowerCase atLeast data showing focusId criteria).nodes.any
                    (fun n => n.id == e) then
                some { source := p.id, target := e, ownership := none }
              else none
            | none => none)) := by
  constructor
  · intro hshow
    constructor
    · intro n hn hp
      have hmem : n ∈ (getFilteredData toLowerCase atLeast data showing focusId
          criteria).nodes.filter (fun n => n.type == NodeType.person) :=
        List.mem_filter.2 ⟨hn, by simp [hp]⟩
      rw [getFilteredData_personNodes, hshow] at hmem
      simp at hmem
    · rw [getFilteredData_links, hshow]
      simp
  · intro hshow
    constructor
    · rw [getFilteredData_entityNodes]
      rw [getFilteredData_nodes, hshow, if_pos rfl]
      congr 1
      unfold filteredPersons
      congr 1
      apply List.filter_congr
      intro p _
      have hrule := search_rule_iff toLowerCase hlower criteria.entitySearch p.PERSON_NAME
        p.PERSON_ID
      by_cases h : (criteria.entitySearch = "" ∨
          includes (toLowerCase p.PERSON_NAME) (toLowerCase criteria.entitySearch) = true ∨
          includes (toLowerCase p.PERSON_ID) (toLowerCase criteria.entitySearch) = true)
      · rw [decide_eq_true h]
        exact hrule.2 h
      · rw [decide_eq_false h]
        exact Bool.eq_false_iff.2 (fun hc => h (hrule.1 hc))
    · rw [getFilteredData_links, hshow, if_pos rfl]
      congr 1
      unfold personLinks
      exact personLinks_eq_filterMap _ _

/-- Witness of C25: in the dataset of the holding E1 with persons shown, the
person nodes of Ann, Bob and Cy follow the three entity nodes, and the only
attachment link is the link of Ann to E1: the entity of Bob is not an output
node and Cy has no entity. -/
theorem persons_follow_showPersons_witness :
    lowerAscii "" = "" ∧ personCriteria.showPersons = true ∧
    (getFilteredData lowerAscii natAtLeast groupData false none personCriteria).nodes.map
      (fun n => n.id) = ["E1", "E2", "E3", "P1", "P2", "P3"] ∧
    (getFilteredData lowerAscii natAtLeast groupData false none personCriteria).links =
      [own "E1" "E2" 60, own "E1" "E3" 40,
       { source := "P1", target := "E1", ownership := none }] :=
  ⟨by decide, rfl, by decide,
    ((persons_follow_showPersons lowerAscii natAtLeast groupData false none personCriteria
      (by decide)).2 rfl).2.trans (by decide)⟩

/-- C26: the global `userSelectedRootId` has after a call of `buildHierarchy` the
value it had before the call, whatever branch is taken; so a selection whose
node is filtered out in one call is the root of the forest of a later call
whose node list holds a node with the selected id. -/
theorem userSelectedRootId_unchanged (data : OrgChartData P) (uid : Option String)
    (nodes : List Node) (links : List (Link P)) :
    (buildHierarchy data uid nodes links).userSelectedRootId = uid ∧
    ∀ (u : String) (later : List Node) (laterLinks : List (Link P)) (root : Node),
      uid = some u → u ≠ "" → later.find? (fun n => n.id == u) = some root →
      (buildHierarchy data (buildHierarchy data uid nodes links).userSelectedRootId
        later laterLinks).forest = [buildTreeRecursive root later laterLinks []] := by
  have hsame : (buildHierarchy data uid nodes links).userSelectedRootId = uid := by
    unfold buildHierarchy
    split
    · split <;> rfl
    · split
      · split <;> rfl
      · rfl
      · rfl
  refine ⟨hsame, ?_⟩
  intro u later laterLinks root huid hu hfind
  rw [hsame, huid]
  have hfind2 : later.find? (fun n => some n.id == some u) = some root := by
    rw [← hfind]
    congr 1
  unfold buildHierarchy
  rw [if_pos (by simp [truthy, hu])]
  simp only [hfind2]

/-- Witness of C26: the selection B survives a call of `buildHierarchy` whose node
list holds A only, and a later call over A, B, C with the links A→B:60, A→C:40
gives the single tree of B. -/
theorem userSelectedRootId_unchanged_witness :
    (buildHierarchy scenarioData (some "B") [entityNode "A"] []).forest = [] ∧
    (buildHierarchy scenarioData
      (buildHierarchy scenarioData (some "B") [entityNode "A"] []).userSelectedRootId
      scenarioNodes scenarioLinks).forest =
      [buildTreeRecursive (entityNode "B") scenarioNodes scenarioLinks []] :=
  ⟨rfl,
    (userSelectedRootId_unchanged scenarioData (some "B") [entityNode "A"] []).2 "B"
      scenarioNodes scenarioLinks (entityNode "B") rfl (by decide) (by decide)⟩

/-! ## Focus on an entity of an acyclic graph, and on a root -/

/-- An owner has fewer shareholders than what it owns when no cycle exists. -/
theorem shareholders_length_lt (links : List (Link P)) (hacyclic : Acyclic links)
    (p a : String) (hedge : OwnershipEdge links p a) :
    (findAllShareholders p links).length < (findAllShareholders a links).length := by
  have hpa : OwnershipPath links p a := Relation.TransGen.single hedge
  rw [← List.toFinset_card_of_nodup (nodup_findAllShareholders p links),
    ← List.toFinset_card_of_nodup (nodup_findAllShareholders a links)]
  apply Finset.card_lt_card
  rw [Finset.ssubset_iff_of_subset]
  · refine ⟨p, ?_, ?_⟩
    · rw [List.mem_toFinset, mem_findAllShareholders]
      exact hpa
    · rw [List.mem_toFinset, mem_findAllShareholders]
      exact hacyclic p
  · intro x hx
    rw [List.mem_toFinset, mem_findAllShareholders] at hx ⊢
    exact Relation.TransGen.trans hx hpa

/-- In links without a cycle every id is, or is owned through a path by, an id
that is the target of no link with a non-null percentage. -/
theorem exists_sourceless_owner (links : List (Link P)) (hacyclic : Acyclic links) :
    ∀ (n : Nat) (a : String), (findAllShareholders a links).length = n →
      ∃ r, (r = a ∨ OwnershipPath links r a) ∧
        ∀ l ∈ links, l.target = r → l.ownership = none := by
  intro n
  induction n using Nat.strong_induction_on with
  | _ n ih =>
    intro a ha
    by_cases h : ∃ l ∈ links, l.target = a ∧ l.ownership ≠ none
    · obtain ⟨l, hl, htgt, hown⟩ := h
      have hedge : OwnershipEdge links l.source a := ⟨l, hl, rfl, htgt, hown⟩
      have hlt := shareholders_length_lt links hacyclic l.source a hedge
      rw [ha] at hlt
      obtain ⟨r, hr, hnone⟩ := ih _ hlt l.source rfl
      refine ⟨r, Or.inr ?_, hnone⟩
      rcases hr with hr | hr
      · rw [hr]
        exact Relation.TransGen.single hedge
      · exact Relation.TransGen.tail hr hedge
    · refine ⟨a, Or.inl rfl, ?_⟩
      intro l hl htgt
      by_contra hown
      exact h ⟨l, hl, htgt, hown⟩

/-- The focus id occurs in the tree of every local root. -/
theorem focus_occurs_in_root_tree (X : String) (nodes : List Node) (links : List (Link P))
    (hlinks : ∀ l ∈ links, l.ownership ≠ none →
      ∃ n ∈ nodes, n.id = l.target ∧ n.type = NodeType.entity)
    (r : Node) (hr : r ∈ ultimateRoots X nodes links) :
    occursIn X (buildTreeRecursive r (relevantNodes X nodes links)
      (relevantLinks X links) []) = true := by
  have hres : ∀ l ∈ relevantLinks X links, l.ownership ≠ none →
      ∃ n ∈ relevantNodes X nodes links, n.id = l.target := by
    intro l hl hown
    obtain ⟨hmem, -, htgt⟩ := (mem_relevantLinks X links l).1 hl
    obtain ⟨target, htarget, htid, httype⟩ := hlinks l hmem hown
    refine ⟨target, ?_, htid⟩
    rw [mem_relevantNodes]
    exact ⟨htarget, Or.inl ⟨httype, htid ▸ htgt⟩⟩
  rw [occursIn_iff]
  have hreach : Relation.ReflTransGen (OwnershipEdge (relevantLinks X links)) r.id X := by
    rcases ultimateRoot_owns_focus X nodes links r hr with h1 | h1
    · rw [h1]
    · exact Relation.TransGen.to_reflTransGen (relevant_path_of_path X links r.id h1)
  obtain ⟨k, hwalk⟩ := avoidingWalk_of_path (relevantLinks X links) r.id X hreach
  exact exists_occurrence_of_walk (relevantNodes X nodes links) (relevantLinks X links) X
    hres r [] k hwalk []

/-- C29: when the ownership links have both endpoints among the entity nodes and
contain no directed cycle and the focus id is the id of an entity node,
`buildFocusedHierarchy` finds at least one local root, so that the forest is one
tree per local root and the first-entity fallback is not used, and the focused
entity occurs in a tree of the forest (in every tree of it). -/
theorem acyclic_focus_has_local_root (X : String) (nodes : List Node)
    (links : List (Link P))
    (hends : ∀ l ∈ links, l.ownership ≠ none →
      (∃ n ∈ nodes, n.id = l.source ∧ n.type = NodeType.entity) ∧
      (∃ n ∈ nodes, n.id = l.target ∧ n.type = NodeType.entity))
    (hacyclic : Acyclic links)
    (hX : ∃ n ∈ nodes, n.id = X ∧ n.type = NodeType.entity) :
    ultimateRoots X nodes links ≠ [] ∧
    ∃ forest, buildFocusedHierarchy X nodes links = some forest ∧
      forest = (ultimateRoots X nodes links).map (fun root =>
        buildTreeRecursive root (relevantNodes X nodes links) (relevantLinks X links) []) ∧
      (∃ t ∈ forest, occursIn X t = true) ∧ (∀ t ∈ forest, occursIn X t = true) := by
  obtain ⟨e, he, hid, htype⟩ := hX
  obtain ⟨r, hr, hnone⟩ := exists_sourceless_owner links hacyclic _ X rfl
  have hnode : ∃ n ∈ nodes, n.id = r ∧ n.type = NodeType.entity := by
    rcases hr with hr | hr
    · exact ⟨e, he, hid.trans hr.symm, htype⟩
    · obtain ⟨c, hedge, -⟩ := Relation.TransGen.head'_iff.1 hr
      obtain ⟨l, hl, hsrc, -, hown⟩ := hedge
      obtain ⟨n, hn, hnid, hnt⟩ := (hends l hl hown).1
      exact ⟨n, hn, hnid.trans hsrc, hnt⟩
  obtain ⟨n, hn, hnid, hnt⟩ := hnode
  have hroot : n ∈ ultimateRoots X nodes links := by
    rw [mem_ultimateRoots, mem_relevantNodes, mem_relevantEntityIds]
    refine ⟨⟨hn, Or.inl ⟨hnt, ?_⟩⟩, hnt, ?_⟩
    · rw [hnid, mem_findAllShareholders]
      rcases hr with hr | hr
      · exact Or.inl hr
      · exact Or.inr (Or.inl hr)
    · intro l hl htgt
      exact hnone l ((mem_relevantLinks X links l).1 hl).1 (htgt.trans hnid)
  have hroots : ultimateRoots X nodes links ≠ [] := List.ne_nil_of_mem hroot
  obtain ⟨f, hfind⟩ := find?_isSome_of_mem nodes X e he hid
  have hall : ∀ t ∈ (ultimateRoots X nodes links).map (fun root =>
      buildTreeRecursive root (relevantNodes X nodes links) (relevantLinks X links) []),
      occursIn X t = true := by
    intro t ht
    obtain ⟨root, hmem, rfl⟩ := List.mem_map.1 ht
    exact focus_occurs_in_root_tree X nodes links (fun l hl hown => (hends l hl hown).2)
      root hmem
  refine ⟨hroots, _, buildFocusedHierarchy_of_roots X nodes links f hfind hroots, rfl, ?_, hall⟩
  exact ⟨_, List.mem_map_of_mem _ hroot, hall _ (List.mem_map_of_mem _ hroot)⟩

/-- Witness of C29: in the diamond A→B, A→C, B→D, C→D the focus on D has the
local root A, and D occurs in the tree of A. -/
theorem acyclic_focus_has_local_root_witness :
    Acyclic diamondLinks ∧
    ultimateRoots "D" diamondNodes diamondLinks = [entityNode "A"] ∧
    buildFocusedHierarchy "D" diamondNodes diamondLinks = some [diamondTree] ∧
    occursIn "D" diamondTree = true ∧
    (ultimateRoots "D" diamondNodes diamondLinks ≠ [] ∧
    ∃ forest, buildFocusedHierarchy "D" diamondNodes diamondLinks = some forest ∧
      forest = (ultimateRoots "D" diamondNodes diamondLinks).map (fun root =>
        buildTreeRecursive root (relevantNodes "D" diamondNodes diamondLinks)
          (relevantLinks "D" diamondLinks) []) ∧
      (∃ t ∈ forest, occursIn "D" t = true) ∧ (∀ t ∈ forest, occursIn "D" t = true)) :=
  ⟨acyclic_of_rank _ diamondRank (by decide), by decide, rfl, by decide,
    acyclic_focus_has_local_root "D" diamondNodes diamondLinks (by decide)
      (acyclic_of_rank _ diamondRank (by decide)) (by decide)⟩

theorem find?_congr_of_mem {α : Type} (l : List α) (p q : α → Bool)
    (h : ∀ a ∈ l, p a = q a) : l.find? p = l.find? q := by
  induction l with
  | nil => rfl
  | cons a l ih =>
    rw [List.find?_cons, List.find?_cons, h a (List.mem_cons_self _ _),
      ih (fun b hb => h b (List.mem_cons_of_mem _ hb))]

/-- Two nodes of a list with pairwise distinct ids that have the same id are the
same node. -/
theorem eq_of_id_eq (nodes : List Node) (hdistinct : (nodes.map (fun n => n.id)).Nodup)
    (n m : Node) (hn : n ∈ nodes) (hm : m ∈ nodes) (h : n.id = m.id) : n = m :=
  List.inj_on_of_nodup_map hdistinct hn hm h

theorem subsidiary_step (X : String) (links : List (Link P)) (l : Link P) (hl : l ∈ links)
    (hown : l.ownership ≠ none)
    (hsrc : l.source = X ∨ l.source ∈ findAllSubsidiaries X links) :
    l.target ∈ findAllSubsidiaries X links := by
  rw [mem_findAllSubsidiaries]
  have hedge : OwnershipEdge links l.source l.target := ⟨l, hl, rfl, rfl, hown⟩
  rcases hsrc with h | h
  · rw [← h]
    exact Relation.TransGen.single hedge
  · rw [mem_findAllSubsidiaries] at h
    exact Relation.TransGen.tail h hedge

theorem childLinks_relevantLinks (X : String) (links : List (Link P)) (id : String)
    (hid : id = X ∨ id ∈ findAllSubsidiaries X links) :
    childLinks (relevantLinks X links) id = childLinks links id := by
  unfold childLinks relevantLinks
  rw [List.filter_filter]
  apply List.filter_congr
  intro l hl
  cases hc : (l.source == id && l.ownership.isSome)
  · rfl
  · simp only [Bool.and_eq_true, beq_iff_eq, Option.isSome_iff_ne_none] at hc
    have hsrc : l.source = X ∨ l.source ∈ findAllSubsidiaries X links := by
      rw [hc.1]; exact hid
    have htgt := subsidiary_step X links l hl hc.2 hsrc
    have h1 : l.source ∈ relevantEntityIds X links := by
      rw [mem_relevantEntityIds]
      rcases hsrc with h | h
      · exact Or.inl h
      · exact Or.inr (Or.inr h)
    have h2 : l.target ∈ relevantEntityIds X links := by
      rw [mem_relevantEntityIds]
      exact Or.inr (Or.inr htgt)
    simp [h1, h2]

theorem find?_relevantNodes (X : String) (nodes : List Node) (links : List (Link P))
    (hdistinct : (nodes.map (fun n => n.id)).Nodup) (target : String)
    (htarget : ∃ n ∈ nodes, n.id = target ∧ n.type = NodeType.entity)
    (hrel : target ∈ relevantEntityIds X links) :
    (relevantNodes X nodes links).find? (fun n => n.id == target) =
      nodes.find? (fun n => n.id == target) := by
  unfold relevantNodes
  rw [List.find?_filter]
  apply find?_congr_of_mem
  intro n hn
  cases hq : (n.id == target)
  · simp
  · obtain ⟨m, hm, hmid, hmt⟩ := htarget
    have hnid : n.id = target := by simpa using hq
    have hnm : n = m := eq_of_id_eq nodes hdistinct n m hn hm (hnid.trans hmid.symm)
    rw [hnm, hmt]
    simp [hmid, hrel]

theorem personChildren_relevantNodes (X : String) (nodes : List Node) (links : List (Link P))
    (id : String) (hid : id ∈ relevantEntityIds X links) :
    (personChildren (relevantNodes X nodes links) id : List (HierarchyNode P)) =
      personChildren nodes id := by
  unfold personChildren relevantNodes
  rw [List.filter_filter]
  congr 1
  apply List.filter_congr
  intro n _
  cases hc : (n.type == NodeType.person && n.entityId == some id)
  · rfl
  · simp only [Bool.and_eq_true, beq_iff_eq] at hc
    simp [hc.1, hc.2, hid]

/-- The tree of a node that the focus owns, or of the focus, is the same over the
restricted nodes and links as over the unrestricted ones. -/
theorem buildTreeRecursive_restricted (X : String) (nodes : List Node)
    (links : List (Link P)) (hdistinct : (nodes.map (fun n => n.id)).Nodup)
    (hends : ∀ l ∈ links, l.ownership ≠ none →
      ∃ n ∈ nodes, n.id = l.target ∧ n.type = NodeType.entity) :
    ∀ node visited, (node.id = X ∨ node.id ∈ findAllSubsidiaries X links) →
      buildTreeRecursive node (relevantNodes X nodes links) (relevantLinks X links) visited =
        buildTreeRecursive node nodes links visited := by
  apply buildTreeRecursive_induction nodes links
  intro node visited ih hid
  rw [buildTreeRecursive_eq, buildTreeRecursive_eq node nodes links]
  by_cases hv : node.id ∈ visited
  · rw [if_pos hv, if_pos hv]
  · rw [if_neg hv, if_neg hv]
    have hrelid : node.id ∈ relevantEntityIds X links := by
      rw [mem_relevantEntityIds]
      rcases hid with h | h
      · exact Or.inl h
      · exact Or.inr (Or.inr h)
    rw [personChildren_relevantNodes X nodes links node.id hrelid]
    congr 2
    unfold entityChildren
    rw [childLinks_relevantLinks X links node.id hid]
    apply List.filterMap_congr
    intro l hl
    obtain ⟨hmem, hsrc, hown⟩ := (mem_childLinks links node.id l).1 hl
    have htgt : l.target ∈ findAllSubsidiaries X links :=
      subsidiary_step X links l hmem hown (hsrc ▸ hid)
    have hrel : l.target ∈ relevantEntityIds X links := by
      rw [mem_relevantEntityIds]
      exact Or.inr (Or.inr htgt)
    rw [find?_relevantNodes X nodes links hdistinct l.target (hends l hmem hown) hrel]
    cases hfind : nodes.find? (fun n => n.id == l.target) with
    | none => rfl
    | some childNode =>
      simp only [Option.map_some']
      rw [ih hv l hl childNode hfind]
      rw [(find?_id_eq_some hfind).2]
      exact Or.inr htgt

theorem filter_eq_singleton {α : Type} (l : List α) (p : α → Bool) (a : α)
    (hnodup : l.Nodup) (ha : a ∈ l) (h : ∀ x ∈ l, p x = true ↔ x = a) :
    l.filter p = [a] := by
  induction l with
  | nil => cases ha
  | cons b l ih =>
    rw [List.nodup_cons] at hnodup
    by_cases hb : b = a
    · subst hb
      rw [List.filter_cons, if_pos ((h b (List.mem_cons_self _ _)).2 rfl)]
      congr 1
      rw [List.filter_eq_nil_iff]
      intro x hx hp
      have hxb := (h x (List.mem_cons_of_mem _ hx)).1 hp
      rw [hxb] at hx
      exact hnodup.1 hx
    · have hpb : ¬ p b = true := fun hp => hb ((h b (List.mem_cons_self _ _)).1 hp)
      rw [List.filter_cons, if_neg hpb]
      have ha2 : a ∈ l := by
        rcases List.mem_cons.1 ha with h1 | h1
        · exact absurd h1.symm hb
        · exact h1
      exact ih hnodup.2 ha2 (fun x hx => h x (List.mem_cons_of_mem _ hx))

/-- C30: when the node ids are pairwise distinct, the links with a non-null
ownership have only ids of entity nodes as endpoints and `R` is an entity node
that is the target of no link with a non-null ownership, the forest of
`buildFocusedHierarchy(R.id, nodes, links)` is the single tree
`buildTreeRecursive(R, nodes, links)` built over the unrestricted nodes and
links. -/
theorem focus_on_root_changes_nothing (R : Node) (nodes : List Node) (links : List (Link P))
    (hdistinct : (nodes.map (fun n => n.id)).Nodup)
    (hends : ∀ l ∈ links, l.ownership ≠ none →
      (∃ n ∈ nodes, n.id = l.source ∧ n.type = NodeType.entity) ∧
      (∃ n ∈ nodes, n.id = l.target ∧ n.type = NodeType.entity))
    (hR : R ∈ nodes) (hentity : R.type = NodeType.entity)
    (hroot : ∀ l ∈ links, l.target = R.id → l.ownership = none) :
    buildFocusedHierarchy R.id nodes links = some [buildTreeRecursive R nodes links []] := by
  have hnosh : ∀ a, a ∉ findAllShareholders R.id links := by
    intro a ha
    rw [mem_findAllShareholders] at ha
    obtain ⟨c, -, hedge⟩ := Relation.TransGen.tail'_iff.1 ha
    obtain ⟨l, hl, -, htgt, hown⟩ := hedge
    exact hown (hroot l hl htgt)
  have hRrel : R ∈ relevantNodes R.id nodes links := by
    rw [mem_relevantNodes, mem_relevantEntityIds]
    exact ⟨hR, Or.inl ⟨hentity, Or.inl rfl⟩⟩
  have hroots : ultimateRoots R.id nodes links = [R] := by
    unfold ultimateRoots
    apply filter_eq_singleton
    · exact List.Nodup.filter _ (List.Nodup.of_map _ hdistinct)
    · exact hRrel
    · intro n hn
      have hiff := mem_ultimateRoots R.id nodes links n
      unfold ultimateRoots at hiff
      rw [List.mem_filter] at hiff
      constructor
      · intro hp
        obtain ⟨hrel, htype, hnone⟩ := hiff.1 ⟨hn, hp⟩
        rw [mem_relevantNodes] at hrel
        rcases hrel.2 with ⟨-, hid⟩ | ⟨hperson, -⟩
        · rw [mem_relevantEntityIds] at hid
          rcases hid with h1 | h1 | h1
          · exact eq_of_id_eq nodes hdistinct n R hrel.1 hR h1
          · exact absurd h1 (hnosh _)
          · exfalso
            have h2 := h1
            rw [mem_findAllSubsidiaries] at h2
            obtain ⟨c, hc, hedge⟩ := Relation.TransGen.tail'_iff.1 h2
            obtain ⟨l, hl, hsrc, htgt, hown⟩ := hedge
            have hcrel : c ∈ relevantEntityIds R.id links := by
              rw [mem_relevantEntityIds]
              rcases Relation.reflTransGen_iff_eq_or_transGen.1 hc with h3 | h3
              · exact Or.inl h3
              · exact Or.inr (Or.inr ((mem_findAllSubsidiaries R.id links c).2 h3))
            have hlrel : l ∈ relevantLinks R.id links := by
              rw [mem_relevantLinks]
              refine ⟨hl, hsrc ▸ hcrel, ?_⟩
              rw [htgt, mem_relevantEntityIds]
              exact Or.inr (Or.inr h1)
            exact hown (hnone l hlrel htgt)
        · rw [htype] at hperson
          cases hperson
      · intro hnR
        subst hnR
        exact (hiff.2 ⟨hn, hentity, fun l hl htgt =>
          hroot l ((mem_relevantLinks n.id links l).1 hl).1 htgt⟩).2
  obtain ⟨f, hfind⟩ := find?_isSome_of_mem nodes R.id R hR rfl
  rw [buildFocusedHierarchy_of_roots R.id nodes links f hfind (by rw [hroots]; simp), hroots,
    List.map_cons, List.map_nil,
    buildTreeRecursive_restricted R.id nodes links hdistinct
      (fun l hl hown => (hends l hl hown).2) R [] (Or.inl rfl)]

/-- Witness of C30: in the diamond A→B, A→C, B→D, C→D the entity A is the target
of no link, and the forest focused on A is the single tree of A over all the
nodes and links. -/
theorem focus_on_root_changes_nothing_witness :
    buildTreeRecursive (entityNode "A") diamondNodes diamondLinks [] = diamondTree ∧
    buildFocusedHierarchy (entityNode "A").id diamondNodes diamondLinks =
      some [buildTreeRecursive (entityNode "A") diamondNodes diamondLinks []] :=
  ⟨rfl, focus_on_root_changes_nothing (entityNode "A") diamondNodes diamondLinks
    (by decide) (by decide) (by decide) rfl (by decide)⟩

/-! ## Completeness of `detectCircularReferences` -/

theorem mem_foldl_setAdd_of (ownershipLinks : List (Link P)) :
    ∀ (init : List String) (y : String),
      (y ∈ init ∨ ∃ l ∈ ownershipLinks, y = l.source ∨ y = l.target) →
      y ∈ ownershipLinks.foldl
        (fun ids link => setAdd (setAdd ids link.source) link.target) init := by
  induction ownershipLinks with
  | nil =>
    intro init y h
    rcases h with h | ⟨l, hl, -⟩
    · exact h
    · cases hl
  | cons l rest ih =>
    intro init y h
    rw [List.foldl_cons]
    apply ih
    rcases h with h | ⟨l', hl', h⟩
    · left
      rw [mem_setAdd, mem_setAdd]
      exact Or.inl (Or.inl h)
    · rcases List.mem_cons.1 hl' with h1 | h1
      · left
        rw [mem_setAdd, mem_setAdd, ← h1]
        tauto
      · exact Or.inr ⟨l', h1, h⟩

/-- A call of `dfs` never removes a cycle from `cycles`. -/
theorem dfsFuel_cycles_ne_nil (ownershipLinks : List (Link P)) :
    ∀ (fuel : Nat) (e : String) (path : List String) (st : DfsState) (r : Bool × DfsState),
      dfsFuel ownershipLinks fuel e path st = some r → st.cycles ≠ [] → r.2.cycles ≠ [] := by
  intro fuel
  induction fuel with
  | zero =>
    intro e path st r h
    simp [dfsFuel] at h
  | succ fuel ih =>
    intro e path st r h hne
    rw [dfsFuel_succ] at h
    by_cases hin : e ∈ st.recursionStack
    · rw [if_pos hin] at h
      rw [← Option.some.inj h]
      simp
    · rw [if_neg hin] at h
      by_cases hvis : e ∈ st.visited
      · rw [if_pos hvis] at h
        rw [← Option.some.inj h]
        exact hne
      · rw [if_neg hvis, Option.map_eq_some'] at h
        obtain ⟨st', hloop, hr⟩ := h
        have hinv := dfsChildren_invariant (fun s => s.cycles ≠ []) _ _
          (fun c _ s r' hs hcall => ih c _ s r' hcall hs)
          { st with visited := e :: st.visited, recursionStack := e :: st.recursionStack }
          st' hne hloop
        rw [← hr]
        exact hinv

/-- A call of `dfs` that returns `true` has pushed a cycle. -/
theorem dfsFuel_true_cycles (ownershipLinks : List (Link P)) (fuel : Nat) (e : String)
    (path : List String) (st st' : DfsState)
    (h : dfsFuel ownershipLinks fuel e path st = some (true, st')) : st'.cycles ≠ [] := by
  cases fuel with
  | zero => simp [dfsFuel] at h
  | succ fuel =>
    rw [dfsFuel_succ] at h
    by_cases hin : e ∈ st.recursionStack
    · rw [if_pos hin] at h
      have h2 := congrArg Prod.snd (Option.some.inj h)
      simp only at h2
      rw [← h2]
      simp
    · rw [if_neg hin] at h
      by_cases hvis : e ∈ st.visited
      · rw [if_pos hvis] at h
        have h1 := congrArg Prod.fst (Option.some.inj h)
        simp at h1
      · rw [if_neg hvis, Option.map_eq_some'] at h
        obtain ⟨s, -, hr⟩ := h
        have h1 := congrArg Prod.fst hr
        simp at h1

theorem le_sum_map_of_mem (rank : String → Nat) (l : List String) (x : String) (hx : x ∈ l) :
    rank x ≤ (l.map rank).sum := by
  induction l with
  | nil => cases hx
  | cons a l ih =>
    rw [List.map_cons, List.sum_cons]
    rcases List.mem_cons.1 hx with h | h
    · rw [h]; omega
    · have := ih h
      omega

/-- The loop over the children of an id keeps a settled state settled and
leaves every child visited and off the stack, when no cycle is pushed. -/
theorem dfsChildren_settled (ownershipLinks : List (Link P)) (S : List String)
    (call : String → DfsState → Option (Bool × DfsState)) (children : List String)
    (hmono : ∀ c ∈ children, ∀ s r, call c s = some r → s.cycles ≠ [] → r.2.cycles ≠ [])
    (htrue : ∀ c ∈ children, ∀ s s', call c s = some (true, s') → s'.cycles ≠ [])
    (hcall : ∀ c ∈ children, ∀ s r, call c s = some r → r.2.cycles = [] →
      Settled ownershipLinks S s →
      Settled ownershipLinks S r.2 ∧ c ∈ r.2.visited ∧ c ∉ S ∧
        ∀ x ∈ s.visited, x ∈ r.2.visited) :
    ∀ st st', dfsChildren call children st = some st' → st'.cycles = [] →
      Settled ownershipLinks S st →
      Settled ownershipLinks S st' ∧ (∀ c ∈ children, c ∈ st'.visited ∧ c ∉ S) ∧
        ∀ x ∈ st.visited, x ∈ st'.visited := by
  induction children with
  | nil =>
    intro st st' h _ hs
    simp only [dfsChildren, Option.some.injEq] at h
    rw [← h]
    exact ⟨hs, fun c hc => absurd hc (List.not_mem_nil c), fun x hx => hx⟩
  | cons child rest ih =>
    intro st st' h hnil hs
    unfold dfsChildren at h
    have hrest_mono : ∀ c ∈ rest, ∀ s r, call c s = some r → s.cycles ≠ [] →
        r.2.cycles ≠ [] := fun c hc => hmono c (List.mem_cons_of_mem _ hc)
    cases hc : call child st with
    | none => simp [hc] at h
    | some r =>
      obtain ⟨b, s1⟩ := r
      rw [hc] at h
      cases b with
      | true =>
        simp only [Option.some.injEq] at h
        rw [← h] at hnil
        exact absurd hnil (htrue child (List.mem_cons_self _ _) st s1 hc)
      | false =>
        simp only at h
        have hs1nil : s1.cycles = [] := by
          by_contra hne
          exact dfsChildren_invariant (fun s => s.cycles ≠ []) call rest
            (fun c hc' s r hs' hcall' => hrest_mono c hc' s r hcall' hs') s1 st' hne h hnil
        obtain ⟨hs1, hvis, hnot, hsub⟩ :=
          hcall child (List.mem_cons_self _ _) st (false, s1) hc hs1nil hs
        obtain ⟨hs', hall, hsub'⟩ := ih hrest_mono
          (fun c hc' => htrue c (List.mem_cons_of_mem _ hc'))
          (fun c hc' => hcall c (List.mem_cons_of_mem _ hc')) s1 st' h hnil hs1
        refine ⟨hs', ?_, fun x hx => hsub' x (hsub x hx)⟩
        intro c hc'
        rcases List.mem_cons.1 hc' with h1 | h1
        · rw [h1]
          exact ⟨hsub' child hvis, hnot⟩
        · exact hall c h1

/-- A call of `dfs` in a settled state that pushes no cycle returns in a settled
state in which its id is visited and off the stack. -/
theorem dfsFuel_settled (ownershipLinks : List (Link P)) :
    ∀ (fuel : Nat) (e : String) (path : List String) (st : DfsState) (r : Bool × DfsState)
      (S : List String),
      dfsFuel ownershipLinks fuel e path st = some r → r.2.cycles = [] →
      Settled ownershipLinks S st →
      Settled ownershipLinks S r.2 ∧ e ∈ r.2.visited ∧ e ∉ S ∧
        ∀ x ∈ st.visited, x ∈ r.2.visited := by
  intro fuel
  induction fuel with
  | zero =>
    intro e path st r S h
    simp [dfsFuel] at h
  | succ fuel ih =>
    intro e path st r S h hnil hs
    rw [dfsFuel_succ] at h
    by_cases hin : e ∈ st.recursionStack
    · rw [if_pos hin] at h
      rw [← Option.some.inj h] at hnil
      simp at hnil
    · rw [if_neg hin] at h
      have heS : e ∉ S := fun he => hin ((hs.1 e).2 he)
      by_cases hvis : e ∈ st.visited
      · rw [if_pos hvis] at h
        rw [← Option.some.inj h]
        exact ⟨hs, hvis, heS, fun x hx => hx⟩
      · rw [if_neg hvis, Option.map_eq_some'] at h
        obtain ⟨st', hloop, hr⟩ := h
        rw [← hr] at hnil ⊢
        simp only at hnil
        obtain ⟨rank, hrank⟩ := hs.2.2
        have hs1 : Settled ownershipLinks (e :: S)
            { st with visited := e :: st.visited,
                      recursionStack := e :: st.recursionStack } := by
          refine ⟨?_, ?_, rank, ?_⟩
          · intro x
            simp only [List.mem_cons, hs.1 x]
          · intro x hx
            rcases List.mem_cons.1 hx with h1 | h1
            · rw [h1]; exact List.mem_cons_self _ _
            · exact List.mem_cons_of_mem _ (hs.2.1 x h1)
          · intro l hl hsrc hnot
            have hne : l.source ≠ e := fun h1 => hnot (h1 ▸ List.mem_cons_self _ _)
            have hsrc' : l.source ∈ st.visited := by
              rcases List.mem_cons.1 hsrc with h1 | h1
              · exact absurd h1 hne
              · exact h1
            obtain ⟨h1, h2, h3⟩ := hrank l hl hsrc'
              (fun h1 => hnot (List.mem_cons_of_mem _ h1))
            refine ⟨List.mem_cons_of_mem _ h1, ?_, h3⟩
            intro h4
            rcases List.mem_cons.1 h4 with h5 | h5
            · exact hvis (h5 ▸ h1)
            · exact h2 h5
        obtain ⟨hs', hall, hsub⟩ := dfsChildren_settled ownershipLinks (e :: S) _ _
          (fun c _ s r' hcall hne => dfsFuel_cycles_ne_nil ownershipLinks fuel c _ s r' hcall hne)
          (fun c _ s s' hcall => dfsFuel_true_cycles ownershipLinks fuel c _ s s' hcall)
          (fun c _ s r' hcall hnil' hsettled => ih c _ s r' (e :: S) hcall hnil' hsettled)
          _ st' hloop hnil hs1
        obtain ⟨rank', hrank'⟩ := hs'.2.2
        have hevis : e ∈ st'.visited := hsub e (List.mem_cons_self _ _)
        refine ⟨⟨?_, ?_, fun x => if x = e then (st'.visited.map rank').sum + 1 else rank' x, ?_⟩,
          hevis, heS, fun x hx => hsub x (List.mem_cons_of_mem _ hx)⟩
        · intro x
          simp only [List.mem_filter, hs'.1 x, List.mem_cons, bne_iff_ne, ne_eq,
            decide_not, Bool.not_eq_true', decide_eq_false_iff_not]
          constructor
          · rintro ⟨h1 | h1, h2⟩
            · exact absurd h1 h2
            · exact h1
          · intro hx
            exact ⟨Or.inr hx, fun hxe => heS (hxe ▸ hx)⟩
        · intro x hx
          exact hs'.2.1 x (List.mem_cons_of_mem _ hx)
        · intro l hl hsrc hnot
          simp only at hsrc
          by_cases hse : l.source = e
          · have hchild : l.target ∈ (ownershipLinks.filter (fun link => link.source == e)).map
                (fun link => link.target) :=
              List.mem_map_of_mem _ (List.mem_filter.2 ⟨hl, by simpa using hse⟩)
            obtain ⟨h1, h2⟩ := hall _ hchild
            have hte : l.target ≠ e := fun h3 => h2 (h3 ▸ List.mem_cons_self _ _)
            refine ⟨h1, fun h3 => h2 (List.mem_cons_of_mem _ h3), ?_⟩
            simp only [if_neg hte, if_pos hse]
            exact Nat.lt_succ_of_le (le_sum_map_of_mem rank' st'.visited l.target h1)
          · have hnot' : l.source ∉ e :: S := by
              intro h1
              rcases List.mem_cons.1 h1 with h2 | h2
              · exact hse h2
              · exact hnot h2
            obtain ⟨h1, h2, h3⟩ := hrank' l hl hsrc hnot'
            have hte : l.target ≠ e := fun h4 => h2 (h4 ▸ List.mem_cons_self _ _)
            refine ⟨h1, fun h4 => h2 (List.mem_cons_of_mem _ h4), ?_⟩
            simp only [if_neg hte, if_neg hse]
            exact h3

/-- The loop over the entity ids keeps a settled state settled and leaves every
entity id visited, when no cycle is pushed. -/
theorem dfsRoots_settled (ownershipLinks : List (Link P)) (fuel : Nat) :
    ∀ (entityIds : List String) (st st' : DfsState),
      dfsRoots (fun entityId s => dfsFuel ownershipLinks fuel entityId [] s) entityIds st =
        some st' →
      st'.cycles = [] → Settled ownershipLinks [] st →
      Settled ownershipLinks [] st' ∧ (∀ c ∈ entityIds, c ∈ st'.visited) ∧
        ∀ x ∈ st.visited, x ∈ st'.visited := by
  intro entityIds
  induction entityIds with
  | nil =>
    intro st st' h _ hs
    simp only [dfsRoots, Option.some.injEq] at h
    rw [← h]
    exact ⟨hs, fun c hc => absurd hc (List.not_mem_nil c), fun x hx => hx⟩
  | cons entityId rest ih =>
    intro st st' h hnil hs
    unfold dfsRoots at h
    by_cases hvis : entityId ∈ st.visited
    · rw [if_pos hvis] at h
      obtain ⟨hs', hall, hsub⟩ := ih st st' h hnil hs
      refine ⟨hs', ?_, hsub⟩
      intro c hc
      rcases List.mem_cons.1 hc with h1 | h1
      · rw [h1]
        exact hsub entityId hvis
      · exact hall c h1
    · rw [if_neg hvis] at h
      cases hc : dfsFuel ownershipLinks fuel entityId [] st with
      | none => simp [hc] at h
      | some r =>
        simp only [hc] at h
        have hrnil : r.2.cycles = [] := by
          by_contra hne
          exact dfsRoots_invariant (fun s => s.cycles ≠ [])
            (fun entityId s => dfsFuel ownershipLinks fuel entityId [] s) rest
            (fun c _ s r' hs' hcall => dfsFuel_cycles_ne_nil ownershipLinks fuel c [] s r'
              hcall hs') r.2 st' hne h hnil
        obtain ⟨hs1, hin, -, hsub1⟩ := dfsFuel_settled ownershipLinks fuel entityId [] st r []
          hc hrnil hs
        obtain ⟨hs', hall, hsub⟩ := ih r.2 st' h hnil hs1
        refine ⟨hs', ?_, fun x hx => hsub x (hsub1 x hx)⟩
        intro c hc'
        rcases List.mem_cons.1 hc' with h1 | h1
        · rw [h1]
          exact hsub entityId hin
        · exact hall c h1

/-- When `detectCircularReferences` reports no cycle, the links with a non-null
ownership contain no directed cycle. -/
theorem acyclic_of_no_cycle_reported (links : List (Link P))
    (h : detectCircularReferences links = []) : Acyclic links := by
  obtain ⟨st, hst, hval⟩ := detectCircularReferences_eq links
  rw [h] at hval
  have hinit : Settled (links.filter (fun link => link.ownership.isSome)) []
      { cycles := [], visited := [], recursionStack := [] } :=
    ⟨fun x => Iff.rfl, fun x hx => absurd hx (List.not_mem_nil x), fun _ => 0,
      fun l _ hsrc => absurd hsrc (List.not_mem_nil _)⟩
  obtain ⟨hs, hall, -⟩ := dfsRoots_settled _ _ _ _ st hst hval.symm hinit
  obtain ⟨rank, hrank⟩ := hs.2.2
  have hedge : ∀ a b, OwnershipEdge links a b → rank b < rank a := by
    rintro a b ⟨l, hl, rfl, rfl, hown⟩
    have hmem : l ∈ links.filter (fun link => link.ownership.isSome) :=
      List.mem_filter.2 ⟨hl, Option.isSome_iff_ne_none.2 hown⟩
    have hsrc : l.source ∈ st.visited :=
      hall _ (mem_foldl_setAdd_of _ [] l.source (Or.inr ⟨l, hmem, Or.inl rfl⟩))
    exact (hrank l hmem hsrc (List.not_mem_nil _)).2.2
  have hpath : ∀ a b, OwnershipPath links a b → rank b < rank a := by
    intro a b hab
    induction hab with
    | single he => exact hedge _ _ he
    | tail _ he ih => exact Nat.lt_trans (hedge _ _ he) ih
  intro x hx
  exact Nat.lt_irrefl _ (hpath x x hx)

theorem transGen_of_chain' {α : Type} (R : α → α → Prop) :
    ∀ (l : List α) (a b : α), List.Chain' R (a :: (l ++ [b])) → Relation.TransGen R a b := by
  intro l
  induction l with
  | nil =>
    intro a b h
    simp only [List.nil_append, List.chain'_cons, List.chain'_singleton, and_true] at h
    exact Relation.TransGen.single h
  | cons x l ih =>
    intro a b h
    rw [List.cons_append, List.chain'_cons] at h
    exact Relation.TransGen.head h.1 (ih x b h.2)

/-- Every cycle in the value of `detectCircularReferences` is an ownership cycle. -/
theorem isOwnershipCycle_of_reported (links : List (Link P)) :
    ∀ c ∈ detectCircularReferences links, IsOwnershipCycle links c := by
  obtain ⟨st, hst, hval⟩ := detectCircularReferences_eq links
  rw [hval]
  have hinv := dfsRoots_invariant
    (fun s => (∀ x, x ∈ s.recursionStack ↔ x ∈ ([] : List String)) ∧
      (∀ c ∈ s.cycles, IsOwnershipCycle links c))
    _ _
    (by
      intro e _ s r hs hcall
      exact dfsFuel_invariant links _ e [] s r hcall hs.1 List.nodup_nil
        (List.chain'_singleton _) hs.2)
    _ st
    (by
      refine ⟨fun x => Iff.rfl, ?_⟩
      intro c hc
      cases hc)
    hst
  exact hinv.2

/-- When the links with a non-null ownership contain no directed cycle,
`detectCircularReferences` reports no cycle. -/
theorem no_cycle_reported_of_acyclic (links : List (Link P)) (h : Acyclic links) :
    detectCircularReferences links = [] := by
  cases hc : detectCircularReferences links with
  | nil => rfl
  | cons c cs =>
    exfalso
    obtain ⟨v0, rest, hceq, -, hchain⟩ := isOwnershipCycle_of_reported links c
      (by rw [hc]; exact List.mem_cons_self _ _)
    rw [hceq] at hchain
    exact h v0 (transGen_of_chain' _ rest v0 v0 hchain)

theorem detectCircularReferencesFuel_filter (fuel : Nat) (links links' : List (Link P))
    (h : links'.filter (fun link => link.ownership.isSome) =
      links.filter (fun link => link.ownership.isSome)) :
    detectCircularReferencesFuel fuel links' = detectCircularReferencesFuel fuel links := by
  unfold detectCircularReferencesFuel
  simp only [h]

/-- C27: `detectCircularReferences` returns the empty list exactly when the
directed graph of the links with a non-null ownership has no directed cycle,
self-loops included; and its value depends on the links with a non-null
ownership only, so the links with a `null` ownership never influence it. -/
theorem no_cycle_reported_iff_acyclic (links : List (Link P)) :
    (detectCircularReferences links = [] ↔ ∀ x, ¬ OwnershipPath links x x) ∧
    ∀ links' : List (Link P),
      links'.filter (fun link => link.ownership.isSome) =
        links.filter (fun link => link.ownership.isSome) →
      detectCircularReferences links' = detectCircularReferences links := by
  refine ⟨⟨acyclic_of_no_cycle_reported links, no_cycle_reported_of_acyclic links⟩, ?_⟩
  intro links' h
  have h1 := detectCircularReferencesFuel_enough links (2 * links'.length)
  have h2 := detectCircularReferencesFuel_enough links' (2 * links.length)
  rw [detectCircularReferencesFuel_filter _ links links' h] at h2
  have hfuel : 2 * links'.length + 1 + 2 * links.length =
      2 * links.length + 1 + 2 * links'.length := by omega
  rw [hfuel, h1] at h2
  exact (Option.some.inj h2).symm

/-- Witness of C27: the links P→B:50 and the attachment link of P (with a `null`
ownership) have no cycle and no cycle is reported; the self-loop A→A is
reported; and the attachment link does not change the value. -/
theorem no_cycle_reported_iff_acyclic_witness :
    detectCircularReferences ownerPersonLinks = [] ∧
    detectCircularReferences [own "A" "A" 100] = [["A", "A"]] ∧
    [own "P" "B" 50].filter (fun link => link.ownership.isSome) =
      ownerPersonLinks.filter (fun link => link.ownership.isSome) ∧
    detectCircularReferences [own "P" "B" 50] = detectCircularReferences ownerPersonLinks :=
  ⟨by decide, by decide, by decide,
    (no_cycle_reported_iff_acyclic ownerPersonLinks).2 [own "P" "B" 50] (by decide)⟩

/-! ## Truncation and the circular-reference warning -/

theorem buildHierarchy_forest_mem (data : OrgChartData P) (uid : Option String)
    (nodes : List Node) (links : List (Link P)) (t : HierarchyNode P)
    (ht : t ∈ (buildHierarchy data uid nodes links).forest) :
    ∃ root, t = buildTreeRecursive root nodes links [] := by
  unfold buildHierarchy at ht
  split at ht
  · split at ht
    · rename_i userRoot _
      exact ⟨userRoot, List.mem_singleton.1 ht⟩
    · cases ht
  · split at ht
    · split at ht
      · rename_i filteredRoot _
        exact ⟨filteredRoot, List.mem_singleton.1 ht⟩
      · cases ht
    · cases ht
    · cases ht

theorem buildHierarchy_circularWarning (data : OrgChartData P) (uid : Option String)
    (nodes : List Node) (links : List (Link P)) :
    (buildHierarchy data uid nodes links).circularWarning =
      if (detectCircularReferences links).length > 0 then some (detectCircularReferences links)
      else none := by
  unfold buildHierarchy
  split
  · split <;> rfl
  · split
    · split <;> rfl
    · rfl
    · rfl

/-- C28, refuted as stated: with an entity and a person of that entity that share
the id 1, the tree of the entity holds the person leaf, whose id is the id of
its parent, and `detectCircularReferences` reports nothing for the attachment
link of the person. -/
theorem person_leaf_repeats_ancestor_id :
    buildTreeRecursive (entityNode "1") sharedIdNodes clashLinks [] =
      HierarchyNode.mk (entityNode "1")
        [HierarchyNode.mk (personNode "1" (some "1")) [] (some none)] none ∧
    (∃ o ∈ occurrencesFrom [] (buildTreeRecursive (entityNode "1") sharedIdNodes clashLinks []),
      o.2.node.id ∈ o.1) ∧
    detectCircularReferences clashLinks = [] := by
  refine ⟨rfl, ⟨(["1"], HierarchyNode.mk (personNode "1" (some "1")) [] (some none)),
    List.Mem.tail _ (List.Mem.head _), by decide⟩, by decide⟩

/-- C28, amended: when the tree of `buildTreeRecursive(root, nodes, links)` holds a
node other than a person leaf (a node whose percentage is not `null`) whose id is
the id of one of its proper ancestors, `detectCircularReferences(links)` is not
empty; so every tree of the forest of `buildHierarchy` with such a node comes
with the circular-reference warning. -/
theorem truncation_is_reported (root : Node) (nodes : List Node) (links : List (Link P)) :
    (∀ o ∈ occurrencesFrom [] (buildTreeRecursive root nodes links []),
      o.2.node.id ∈ o.1 → o.2.ownershipPerc ≠ some none →
      detectCircularReferences links ≠ []) ∧
    ∀ (data : OrgChartData P) (uid : Option String),
      ∀ t ∈ (buildHierarchy data uid nodes links).forest, ∀ o ∈ occurrencesFrom [] t,
        o.2.node.id ∈ o.1 → o.2.ownershipPerc ≠ some none →
        (buildHierarchy data uid nodes links).circularWarning =
          some (detectCircularReferences links) := by
  have key : ∀ (root : Node), ∀ o ∈ occurrencesFrom [] (buildTreeRecursive root nodes links []),
      o.2.node.id ∈ o.1 → o.2.ownershipPerc ≠ some none →
      detectCircularReferences links ≠ [] := by
    intro root o ho hrep hperson hnil
    have hacyclic := acyclic_of_no_cycle_reported links hnil
    rcases occurrenceKind_of_mem nodes links root [] o ho with
      h | ⟨parent, visited, link, childNode, hc, hv, hl, hfind, h⟩ |
      ⟨parent, visited, person, _, _, _, _, _, h⟩
    · subst h
      cases hrep
    · subst h
      simp only [setOwnershipPerc_node, buildTreeRecursive_node] at hrep
      exact hacyclic childNode.id
        (called_path nodes links root childNode (parent.id :: visited)
          (Called.child hc hv hl hfind) childNode.id hrep)
    · subst h
      exact hperson rfl
  refine ⟨key root, ?_⟩
  intro data uid t ht o ho hrep hperson
  obtain ⟨r, rfl⟩ := buildHierarchy_forest_mem data uid nodes links t ht
  have hne := key r o ho hrep hperson
  rw [buildHierarchy_circularWarning, if_pos]
  exact List.length_pos.2 hne

/-- Witness of C28, amended: the tree of A over the two-cycle A→B, B→A holds the
truncated occurrence of A under B, and the cycle A, B, A is reported. -/
theorem truncation_is_reported_witness :
    (["B", "A"], cycleLeaf) ∈
      occurrencesFrom [] (buildTreeRecursive (entityNode "A") cycleNodes cycleLinks []) ∧
    cycleLeaf.node.id ∈ ["B", "A"] ∧ cycleLeaf.ownershipPerc ≠ some none ∧
    detectCircularReferences cycleLinks = [["A", "B", "A"]] ∧
    detectCircularReferences cycleLinks ≠ [] :=
  ⟨List.Mem.tail _ (List.Mem.tail _ (List.Mem.head _)), by decide, by decide, by decide,
    (truncation_is_reported (entityNode "A") cycleNodes cycleLinks).1
      (["B", "A"], cycleLeaf) (List.Mem.tail _ (List.Mem.tail _ (List.Mem.head _)))
      (by decide) (by decide)⟩

end Theorems

end Charted
